import Mathlib

/-!
# Inverted Search System: a shallow embedding of `database.c`, `helper.c`, `validate.c`
and of the menu loop of `main.c`

Representation choices.

* A C string (`char *`, `char[50]`) is the list of its characters before the
  terminating NUL.  A value that the program reads from a file into a buffer is cut
  at its first NUL (`cstr`), which is how `strcpy`, `strcmp` and `%s` see it.
  A buffer or a field of 50 bytes holds a string of at most 49 characters; a counter is
  an `Int` that has to stay in the range of `int`.  A run of the program that copies
  or scans a longer string into such an array, that increments a counter beyond
  `INT_MAX`, or that reads with `%d` a number that no `int` holds, has no defined
  result (`Outcome.undefined`).
* A singly linked chain (`m_link`, `s_link`, `next`) is a `List` of node payloads in
  chain order; `malloc` is assumed to succeed.
* `hash_array` is the list of its `Hash_t` elements; `bucket` reads one chain.
* The file system is explicit state (`FileSys`); a stream is the list of characters
  that remain to be read.  The streams that are open are counted by the functions
  `create_database_handles`, `save_database_handles`, `update_database_handles`, which
  follow the `fopen` and `fclose` calls of the three functions.
* The menu loop of `main` is a step function on the variables of `main`
  (`Main_state`), driven by what each turn reads; what is printed is not part of the
  embedding.
-/

namespace InvertedSearch

/-- A C string: the characters before the terminating NUL. -/
abbrev Str := List Char

/-- The macro `HASH_SIZE` of `inverted_search.h`. -/
def HASH_SIZE : Nat := 27

/-- The enum `Status` of `inverted_search.h`. -/
inductive Status where
  | FAILURE
  | SUCCESS
  | DUPLICATE
  | EXIT
  deriving DecidableEq

/-- Payload of one `Sub_node` (the `s_link` pointer is the list structure). -/
structure Sub_node where
  word_count : Int
  file_name : Str
  deriving DecidableEq

/-- Payload of one `Main_node`, with the chain of its sub nodes. -/
structure Main_node where
  file_count : Int
  word : Str
  s_link : List Sub_node
  deriving DecidableEq

/-- One element of `hash_array`: its `index` field and its chain of main nodes. -/
structure Hash_t where
  index : Int
  m_link : List Main_node
  deriving DecidableEq

/-- The chain `File_list *head`, as the list of its `file_name` fields. -/
abbrev File_list := List Str

/-! ## `<ctype.h>` in the C locale -/

def isspace (c : Char) : Bool :=
  c = ' ' || c = '\t' || c = '\n' || c = '\x0b' || c = '\x0c' || c = '\r'

def isupper (c : Char) : Bool := decide (65 ≤ c.toNat ∧ c.toNat ≤ 90)

def islower (c : Char) : Bool := decide (97 ≤ c.toNat ∧ c.toNat ≤ 122)

def isdigit (c : Char) : Bool := decide (48 ≤ c.toNat ∧ c.toNat ≤ 57)

/-- The C string held by a buffer filled with `s`: everything before the first NUL. -/
def cstr (s : Str) : Str := s.takeWhile (fun c => c ≠ Char.ofNat 0)

/-! ## The file system -/

/-- The files of the environment: `data` gives the content of every file that can be
opened for reading, `writable` tells which paths `fopen(path, "w+")` can create or
truncate. -/
structure FileSys where
  data : Str → Option Str
  writable : Str → Bool

/-- The call `fopen(name, "r")`: the content of the stream, or `none` for a NULL result.
The empty path names no file. -/
def fopen_r (fs : FileSys) (name : Str) : Option Str :=
  if name = [] then none else fs.data name

/-- The file system after `path` has been written with `text` and closed. -/
def FileSys.write (fs : FileSys) (path text : Str) : FileSys :=
  { data := fun n => if n = path then some text else fs.data n
    writable := fs.writable }

/-! ## Capacities and results with no defined value -/

/-- The macro `WORD_SIZE` of `inverted_search.h`. -/
def WORD_SIZE : Nat := 50

/-- The macro `FILE_SIZE` of `inverted_search.h`. -/
def FILE_SIZE : Nat := 50

/-- The largest value of an `int` (32 bits). -/
def INT_MAX : Int := 2147483647

/-- The smallest value of an `int` (32 bits). -/
def INT_MIN : Int := -2147483648

/-- The result of running a function of the program: a value, or `undefined` when the
run does something that the C standard leaves undefined (a string copied or scanned
into an array too small for it, an `int` that overflows, a `%d` item whose value no
`int` holds, a null stream, an index outside `hash_array`), or `out_of_fuel` when the
loop counter of the embedding is exhausted (which does not happen, see
`update_database_fuel` and `create_database_fuel`). -/
inductive Outcome (α : Type) where
  | ok (a : α)
  | undefined
  | out_of_fuel
  deriving DecidableEq

/-- Sequencing: the second step runs on the value of the first. -/
def Outcome.bind {α β : Type} (x : Outcome α) (f : α → Outcome β) : Outcome β :=
  match x with
  | Outcome.ok a => f a
  | Outcome.undefined => Outcome.undefined
  | Outcome.out_of_fuel => Outcome.out_of_fuel

/-! ## helper.c -/

/-- The function `initialise_hash`: element `i` gets `index = i` and an empty chain. -/
def initialise_hash : List Hash_t :=
  (List.range HASH_SIZE).map (fun (i : Nat) => { index := Int.ofNat i, m_link := [] })

/-- The function `find_index`: the bucket of a word, from its first character
(`buffer[0]`, the terminating NUL when the string is empty). -/
def find_index (buffer : Str) : Nat :=
  match buffer with
  | [] => 26
  | c :: _ =>
    if isupper c then c.toNat - 65
    else if islower c then c.toNat - 97
    else 26

/-- The function `create_main_node`: `strcpy(newnode->word, word)` writes the word and
its terminating NUL into `word[50]`. -/
def create_main_node (word : Str) : Outcome Main_node :=
  if word.length < WORD_SIZE then Outcome.ok { file_count := 1, word := word, s_link := [] }
  else Outcome.undefined

/-- The function `create_sub_node`: `strcpy(newnode->file_name, filename)` writes the
name and its terminating NUL into `file_name[50]`. -/
def create_sub_node (filename : Str) : Outcome Sub_node :=
  if filename.length < FILE_SIZE then Outcome.ok { word_count := 1, file_name := filename }
  else Outcome.undefined

/-- The chain `hash_array[i].m_link`. -/
def bucket (hash_array : List Hash_t) (i : Nat) : List Main_node :=
  match hash_array[i]? with
  | some b => b.m_link
  | none => []

/-- The assignment `hash_array[i].m_link = ms` (the `index` field is kept). -/
def set_bucket (hash_array : List Hash_t) (i : Nat) (ms : List Main_node) : List Hash_t :=
  match hash_array[i]? with
  | some b => hash_array.set i { b with m_link := ms }
  | none => hash_array

/-! ## database.c: `create_database` -/

/-- One call `fscanf(fptr, "%s", buffer)`: skip white space, then read the longest run
of non-space characters into `buffer[50]`, followed by a NUL.  `none` is the result
`EOF`; otherwise the C string left in `buffer` and the rest of the stream.  A run of
50 characters or more does not fit. -/
def fscanf_s (inp : Str) : Outcome (Option (Str × Str)) :=
  let inp1 := inp.dropWhile isspace
  if inp1 = [] then Outcome.ok none
  else if WORD_SIZE ≤ (inp1.takeWhile (fun c => !isspace c)).length then Outcome.undefined
  else
    Outcome.ok (some (cstr (inp1.takeWhile (fun c => !isspace c)),
      inp1.dropWhile (fun c => !isspace c)))

/-- Lines 78-88: `flag1`, whether some sub node already names the file. -/
def find_sub (subs : List Sub_node) (file_name : Str) : Bool :=
  match subs with
  | [] => false
  | s :: rest => if s.file_name = file_name then true else find_sub rest file_name

/-- Line 91: `backup_sub->word_count++` on the first sub node that names the file. -/
def incr_sub (subs : List Sub_node) (file_name : Str) : Outcome (List Sub_node) :=
  match subs with
  | [] => Outcome.ok []
  | s :: rest =>
    if s.file_name = file_name then
      if s.word_count < INT_MAX then
        Outcome.ok ({ s with word_count := s.word_count + 1 } :: rest)
      else Outcome.undefined
    else Outcome.bind (incr_sub rest file_name) (fun r => Outcome.ok (s :: r))

/-- Lines 71-107: the word already has a main node `m`. -/
def update_main (m : Main_node) (file_name : Str) : Outcome Main_node :=
  if find_sub m.s_link file_name then
    Outcome.bind (incr_sub m.s_link file_name) (fun subs => Outcome.ok { m with s_link := subs })
  else
    Outcome.bind (create_sub_node file_name) (fun new =>
      if m.file_count < INT_MAX then
        Outcome.ok { m with file_count := m.file_count + 1, s_link := m.s_link ++ [new] }
      else Outcome.undefined)

/-- Lines 43-127 on one chain: the first main node whose word is `buffer` is updated;
when there is none a new main node is linked at the end of the chain (or becomes the
chain when it was empty). -/
def insert_word (chain : List Main_node) (buffer file_name : Str) :
    Outcome (List Main_node) :=
  match chain with
  | [] =>
    Outcome.bind (create_main_node buffer) (fun main_new =>
      Outcome.bind (create_sub_node file_name) (fun sub_new =>
        Outcome.ok [{ main_new with s_link := [sub_new], file_count := 1 }]))
  | m :: rest =>
    if buffer = m.word then
      Outcome.bind (update_main m file_name) (fun m1 => Outcome.ok (m1 :: rest))
    else Outcome.bind (insert_word rest buffer file_name) (fun r => Outcome.ok (m :: r))

/-- The body of the inner `while` of `create_database` for one word. -/
def store_word (hash_array : List Hash_t) (file_name buffer : Str) : Outcome (List Hash_t) :=
  let index := find_index buffer
  Outcome.bind (insert_word (bucket hash_array index) buffer file_name) (fun chain =>
    Outcome.ok (set_bucket hash_array index chain))

/-- The inner `while` of `create_database` on the stream of one opened file.  Every call
of `fscanf_s` that returns a word consumes a character, so a fuel above the length of
the stream is enough (`index_loop_fuel`). -/
def index_loop (fuel : Nat) (inp : Str) (hash_array : List Hash_t) (file_name : Str) :
    Outcome (List Hash_t) :=
  match fuel with
  | 0 => Outcome.out_of_fuel
  | fuel + 1 =>
    Outcome.bind (fscanf_s inp) (fun r =>
      match r with
      | none => Outcome.ok hash_array
      | some (buffer, rest) =>
        Outcome.bind (store_word hash_array file_name buffer) (fun hash1 =>
          index_loop fuel rest hash1 file_name))

/-- The function `create_database`: a file that cannot be opened is skipped. -/
def create_database (hash_array : List Hash_t) (head : File_list) (fs : FileSys) :
    Outcome (Status × List Hash_t) :=
  match head with
  | [] => Outcome.ok (Status.SUCCESS, hash_array)
  | f :: rest =>
    match fopen_r fs f with
    | none => create_database hash_array rest fs
    | some content =>
      Outcome.bind (index_loop (content.length + 1) content hash_array f) (fun hash1 =>
        create_database hash1 rest fs)

/-! ## database.c: `search_database` -/

/-- What `search_database` prints: the table rows and the file count of the word, or
the line "No entries found". -/
inductive Search_result where
  | found (file_count : Int) (rows : List (Str × Int))
  | no_entries
  deriving DecidableEq

/-- The `while (main_temp)` loop of `search_database`. -/
def search_chain (chain : List Main_node) (data : Str) : Status × Search_result :=
  match chain with
  | [] => (Status.SUCCESS, Search_result.no_entries)
  | m :: rest =>
    if m.word = data then
      (Status.SUCCESS,
        Search_result.found m.file_count (m.s_link.map (fun s => (s.file_name, s.word_count))))
    else search_chain rest data

/-- The function `search_database`: status, the index after the call, and the printed result. -/
def search_database (hash_arr : List Hash_t) (data : Str) :
    Status × List Hash_t × Search_result :=
  let index := find_index data
  let r := search_chain (bucket hash_arr index) data
  (r.1, hash_arr, r.2)

/-! ## validate.c -/

/-- The call `strrchr(s, c)`: the suffix of `s` that starts at the last occurrence of `c`. -/
def strrchr (s : Str) (c : Char) : Option Str :=
  match s with
  | [] => none
  | x :: rest =>
    match strrchr rest c with
    | some t => some t
    | none => if x = c then some (x :: rest) else none

/-- The function `validate_file_extension`. -/
def validate_file_extension (argv : Str) : Status :=
  match strrchr argv '.' with
  | none => Status.FAILURE
  | some dot => if dot = ['.', 't', 'x', 't'] then Status.SUCCESS else Status.FAILURE

/-- The function `validate_file_size`, on a stream with the given content. -/
def validate_file_size (content : Str) : Int :=
  if (content.length : Int) < 1 then 0 else content.length

/-- The function `validate_backup_database`, called on a stream positioned at its start.  When the
file has fewer than two bytes `fseek(fptr, -2, SEEK_END)` fails and the position stays
after the first byte; an `fgetc` at the end of the stream gives `EOF`. -/
def validate_backup_database (content : Str) : Status :=
  if content[0]? ≠ some '#' then Status.FAILURE
  else
    let pos := if 2 ≤ content.length then content.length - 2 else 1
    if content[pos]? ≠ some '#' then Status.FAILURE else Status.SUCCESS

/-- The function `delete_duplicate_file`: unlink the first node that carries the name. -/
def delete_duplicate_file (head : File_list) (file_name : Str) : Status × File_list :=
  match head with
  | [] => (Status.FAILURE, [])
  | x :: rest =>
    if file_name = x then (Status.SUCCESS, rest)
    else
      let r := delete_duplicate_file rest file_name
      (r.1, x :: r.2)

/-! ## database.c: `save_database` -/

def digit_char (d : Nat) : Char := Char.ofNat (48 + d)

def print_nat_aux : Nat → Nat → Str → Str
  | 0, _, acc => acc
  | fuel + 1, n, acc =>
    if n < 10 then digit_char n :: acc
    else print_nat_aux fuel (n / 10) (digit_char (n % 10) :: acc)

/-- The decimal digits of a natural number. -/
def print_nat (n : Nat) : Str := print_nat_aux (n + 1) n []

/-- The text `printf("%d", n)` writes. -/
def print_d (n : Int) : Str :=
  if n < 0 then '-' :: print_nat n.natAbs else print_nat n.natAbs

/-- Lines 249-253: one `fprintf(fptr, "%s;%d;", ...)` per sub node, appended to `out`. -/
def write_subs (out : Str) (subs : List Sub_node) : Str :=
  match subs with
  | [] => out
  | s :: rest =>
    write_subs (out ++ (s.file_name ++ [';'] ++ print_d s.word_count ++ [';'])) rest

/-- Lines 243-257: the `while (main_temp)` loop for bucket `i`. -/
def write_mains (i : Nat) (out : Str) (chain : List Main_node) : Str :=
  match chain with
  | [] => out
  | m :: rest =>
    let out1 := out ++ (['#'] ++ print_d i ++ [';'] ++ m.word ++ [';'] ++ print_d m.file_count
      ++ [';'])
    let out2 := write_subs out1 m.s_link
    write_mains i (out2 ++ ['#', '\n']) rest

/-- Lines 240-258: everything `save_database` prints to the stream. -/
def save_text (hash_array : List Hash_t) : Str :=
  (List.range HASH_SIZE).foldl (fun out i => write_mains i out (bucket hash_array i)) []

/-- The function `save_database`: status, index and file system after the call.  The result of
`fopen(file_name, "w+")` is not tested: with a null stream the calls of `fprintf` and
`fclose` are undefined. -/
def save_database (hash_array : List Hash_t) (file_name : Str) (fs : FileSys) :
    Outcome (Status × List Hash_t × FileSys) :=
  if validate_file_extension file_name = Status.FAILURE then
    Outcome.ok (Status.FAILURE, hash_array, fs)
  else if fs.writable file_name then
    Outcome.ok (Status.SUCCESS, hash_array, fs.write file_name (save_text hash_array))
  else Outcome.undefined

/-! ## database.c: `update_database` -/

/-- A literal character of a `scanf` format: consumed when it is next in the stream. -/
def match_char (c : Char) (inp : Str) : Option Str :=
  match inp with
  | [] => none
  | x :: rest => if x = c then some rest else none

/-- A literal character whose mismatch only ends the call. -/
def skip_char (c : Char) (inp : Str) : Str :=
  match match_char c inp with
  | some rest => rest
  | none => inp

/-- The digits of a `%d` item, most significant first. -/
def scan_digits (inp : Str) (acc : Nat) : Nat × Str :=
  match inp with
  | [] => (acc, [])
  | c :: rest =>
    if isdigit c then scan_digits rest (acc * 10 + (c.toNat - 48)) else (acc, c :: rest)

/-- The part of a `%d` item after its sign: at least one digit is needed. -/
def scan_number (negative : Bool) (inp : Str) : Option Int × Str :=
  match inp with
  | [] => (none, [])
  | c :: _ =>
    if isdigit c then
      let r := scan_digits inp 0
      (some (if negative then -(r.1 : Int) else (r.1 : Int)), r.2)
    else (none, inp)

/-- The call `fscanf(fptr, "#\n")`: a `#`, then any amount of white space. -/
def fscanf_close (inp : Str) : Str :=
  match match_char '#' inp with
  | none => inp
  | some rest => rest.dropWhile isspace

/-- The input item of a `%d` conversion and its value: skip white space, read an
optional sign and the digits.  The stream that is returned has lost what was read,
also when no item is matched. -/
def match_d (inp : Str) : Option Int × Str :=
  match inp.dropWhile isspace with
  | [] => (none, [])
  | c :: rest =>
    if c = '-' then scan_number true rest
    else if c = '+' then scan_number false rest
    else scan_number false (c :: rest)

/-- The conversion `%d` into an `int`: the item is matched and its value is stored;
a value that no `int` holds has no defined result. -/
def scan_d (inp : Str) : Outcome (Option Int × Str) :=
  match match_d inp with
  | (none, rest) => Outcome.ok (none, rest)
  | (some v, rest) =>
    if INT_MIN ≤ v ∧ v ≤ INT_MAX then Outcome.ok (some v, rest) else Outcome.undefined

/-- The conversion `%[^;]` into a `char[50]`, with no field width: the longest
non-empty run of characters other than `;`, without skipping white space, followed by
a NUL; the buffer then holds it as a C string.  A run of 50 characters or more does
not fit. -/
def scan_not_semicolon (inp : Str) : Outcome (Option (Str × Str)) :=
  let s := inp.takeWhile (fun c => c ≠ ';')
  if s = [] then Outcome.ok none
  else if WORD_SIZE ≤ s.length then Outcome.undefined
  else Outcome.ok (some (cstr s, inp.dropWhile (fun c => c ≠ ';')))

/-- The test `fscanf(fptr, "#%d;%[^;];%d;", &index, word, &file_count) == 3`: the three
values and the rest of the stream when all three conversions succeed. -/
def fscanf_header (inp : Str) : Outcome (Option (Int × Str × Int × Str)) :=
  match match_char '#' inp with
  | none => Outcome.ok none
  | some r1 =>
    Outcome.bind (scan_d r1) (fun d1 =>
      match d1 with
      | (none, _) => Outcome.ok none
      | (some index, r2) =>
        match match_char ';' r2 with
        | none => Outcome.ok none
        | some r3 =>
          Outcome.bind (scan_not_semicolon r3) (fun w =>
            match w with
            | none => Outcome.ok none
            | some (word, r4) =>
              match match_char ';' r4 with
              | none => Outcome.ok none
              | some r5 =>
                Outcome.bind (scan_d r5) (fun d2 =>
                  match d2 with
                  | (none, _) => Outcome.ok none
                  | (some file_count, r6) =>
                    Outcome.ok (some (index, word, file_count, skip_char ';' r6)))))

/-- The call `fscanf(fptr, "%[^;];%d;", file_name, &word_count)`, whose result is not
tested: a variable that is not assigned keeps its value. -/
def fscanf_pair (file_name : Str) (word_count : Int) (inp : Str) :
    Outcome (Str × Int × Str) :=
  Outcome.bind (scan_not_semicolon inp) (fun w =>
    match w with
    | none => Outcome.ok (file_name, word_count, inp)
    | some (s, r1) =>
      match match_char ';' r1 with
      | none => Outcome.ok (s, word_count, r1)
      | some r2 =>
        Outcome.bind (scan_d r2) (fun d =>
          match d with
          | (none, r3) => Outcome.ok (s, word_count, r3)
          | (some n, r3) => Outcome.ok (s, n, skip_char ';' r3)))

/-- Lines 321-342, `n` iterations: stream, file list, sub nodes of the new main node
and the names reported as deleted. -/
def read_pairs (n : Nat) (file_name : Str) (word_count : Int) (inp : Str) (head : File_list)
    (subs : List Sub_node) (log : List Str) :
    Outcome (Str × File_list × List Sub_node × List Str) :=
  match n with
  | 0 => Outcome.ok (inp, head, subs, log)
  | n + 1 =>
    Outcome.bind (fscanf_pair file_name word_count inp) (fun r =>
      Outcome.bind (create_sub_node r.1) (fun new =>
        let newSubNode : Sub_node := { new with word_count := r.2.1 }
        let d := delete_duplicate_file head r.1
        let log1 := if d.1 = Status.SUCCESS then log ++ [r.1] else log
        read_pairs n r.1 r.2.1 r.2.2 d.2 (subs ++ [newSubNode]) log1))

/-- Lines 297-344.  `junk k` is the content that `file_name` and `word_count` have,
not initialised, when the body runs for record number `k`.  The index read from the
header selects `hash_array[index]` as it is. -/
def update_loop (junk : Nat → Str × Int) (fuel k : Nat) (inp : Str) (hash_array : List Hash_t)
    (head : File_list) (log : List Str) : Outcome (List Hash_t × File_list × List Str) :=
  match fuel with
  | 0 => Outcome.out_of_fuel
  | fuel + 1 =>
    Outcome.bind (fscanf_header inp) (fun hd =>
      match hd with
      | none => Outcome.ok (hash_array, head, log)
      | some (index, word, file_count, r) =>
        if index < 0 ∨ (HASH_SIZE : Int) ≤ index then Outcome.undefined
        else
          Outcome.bind (create_main_node word) (fun new =>
            Outcome.bind (read_pairs file_count.toNat (junk k).1 (junk k).2 r head [] log)
              (fun p =>
                let newNode : Main_node :=
                  { new with file_count := file_count, s_link := p.2.2.1 }
                let hash1 :=
                  set_bucket hash_array index.toNat (bucket hash_array index.toNat ++ [newNode])
                update_loop junk fuel (k + 1) (fscanf_close p.1) hash1 p.2.1 p.2.2.2)))

/-- The function `update_database`: status, index, file list and the names reported as
deleted from the file list. -/
def update_database (hash_array : List Hash_t) (backup : Str) (head : File_list) (fs : FileSys)
    (junk : Nat → Str × Int) : Outcome (Status × List Hash_t × File_list × List Str) :=
  if validate_file_extension backup = Status.FAILURE then
    Outcome.ok (Status.FAILURE, hash_array, head, [])
  else
    match fopen_r fs backup with
    | none => Outcome.ok (Status.FAILURE, hash_array, head, [])
    | some content =>
      if validate_file_size content = 0 then Outcome.ok (Status.FAILURE, hash_array, head, [])
      else if validate_backup_database content = Status.FAILURE then
        Outcome.ok (Status.FAILURE, hash_array, head, [])
      else
        match update_loop junk (content.length + 1) 0 content hash_array head [] with
        | Outcome.ok r => Outcome.ok (Status.SUCCESS, r.1, r.2.1, r.2.2)
        | Outcome.undefined => Outcome.undefined
        | Outcome.out_of_fuel => Outcome.out_of_fuel

/-! ## The functions without the capacities

The definitions of this section compute what the functions of `database.c` above return
when no string exceeds its array and no number exceeds the range of `int`
(`create_database_eq_plain`, `update_database_cases`).  They serve in the proofs. -/

/-- The node that `create_main_node` returns when the word fits. -/
def create_main_node_plain (word : Str) : Main_node :=
  { file_count := 1, word := word, s_link := [] }

/-- The node that `create_sub_node` returns when the name fits. -/
def create_sub_node_plain (filename : Str) : Sub_node :=
  { word_count := 1, file_name := filename }

/-- The result of `fscanf_s` when the run fits the buffer: `none` at the end of
the stream, otherwise the C string read and the rest of the stream. -/
def fscanf_s_plain (inp : Str) : Option (Str × Str) :=
  let inp1 := inp.dropWhile isspace
  if inp1 = [] then none
  else some (cstr (inp1.takeWhile (fun c => !isspace c)), inp1.dropWhile (fun c => !isspace c))

/-- The successive words that `fscanf_s_plain` reads from a stream. -/
def read_words_plain : Nat → Str → List Str
  | 0, _ => []
  | fuel + 1, inp =>
    match fscanf_s_plain inp with
    | none => []
    | some (w, rest) => w :: read_words_plain fuel rest

/-- The words read from a file with the given content, each cut at its first NUL;
every call that returns a word consumes a character, so the fuel is enough
(`read_words_fuel`). -/
def file_words_plain (content : Str) : List Str :=
  read_words_plain (content.length + 1) content

/-- The sub nodes that `incr_sub` returns when the counter does not overflow. -/
def incr_sub_plain (subs : List Sub_node) (file_name : Str) : List Sub_node :=
  match subs with
  | [] => []
  | s :: rest =>
    if s.file_name = file_name then { s with word_count := s.word_count + 1 } :: rest
    else s :: incr_sub_plain rest file_name

/-- The main node that `update_main` returns when nothing overflows. -/
def update_main_plain (m : Main_node) (file_name : Str) : Main_node :=
  if find_sub m.s_link file_name then
    { m with s_link := incr_sub_plain m.s_link file_name }
  else
    { m with file_count := m.file_count + 1
             s_link := m.s_link ++ [create_sub_node_plain file_name] }

/-- The chain that `insert_word` returns when nothing overflows. -/
def insert_word_plain (chain : List Main_node) (buffer file_name : Str) : List Main_node :=
  match chain with
  | [] =>
    [{ create_main_node_plain buffer with
       s_link := [create_sub_node_plain file_name], file_count := 1 }]
  | m :: rest =>
    if buffer = m.word then update_main_plain m file_name :: rest
    else m :: insert_word_plain rest buffer file_name

/-- The index that `store_word` returns when nothing overflows. -/
def store_word_plain (hash_array : List Hash_t) (file_name buffer : Str) : List Hash_t :=
  let index := find_index buffer
  set_bucket hash_array index (insert_word_plain (bucket hash_array index) buffer file_name)

/-- The index after the words of one file have been stored in order. -/
def index_file_plain (hash_array : List Hash_t) (file_name : Str) (words : List Str) :
    List Hash_t :=
  words.foldl (fun h w => store_word_plain h file_name w) hash_array

/-- The status and the index that `create_database` returns when nothing
overflows (`create_database_eq_plain`). -/
def create_database_plain (hash_array : List Hash_t) (head : File_list) (fs : FileSys) :
    Status × List Hash_t :=
  match head with
  | [] => (Status.SUCCESS, hash_array)
  | f :: rest =>
    match fopen_r fs f with
    | none => create_database_plain hash_array rest fs
    | some content =>
      create_database_plain (index_file_plain hash_array f (file_words_plain content)) rest fs

/-- The result of `scan_not_semicolon` when the run fits the buffer. -/
def scan_not_semicolon_plain (inp : Str) : Option (Str × Str) :=
  let s := inp.takeWhile (fun c => c ≠ ';')
  if s = [] then none else some (cstr s, inp.dropWhile (fun c => c ≠ ';'))

/-- The result of `fscanf_header` when every item fits. -/
def fscanf_header_plain (inp : Str) : Option (Int × Str × Int × Str) :=
  match match_char '#' inp with
  | none => none
  | some r1 =>
    match match_d r1 with
    | (none, _) => none
    | (some index, r2) =>
      match match_char ';' r2 with
      | none => none
      | some r3 =>
        match scan_not_semicolon_plain r3 with
        | none => none
        | some (word, r4) =>
          match match_char ';' r4 with
          | none => none
          | some r5 =>
            match match_d r5 with
            | (none, _) => none
            | (some file_count, r6) => some (index, word, file_count, skip_char ';' r6)

/-- The result of `fscanf_pair` when every item fits. -/
def fscanf_pair_plain (file_name : Str) (word_count : Int) (inp : Str) : Str × Int × Str :=
  match scan_not_semicolon_plain inp with
  | none => (file_name, word_count, inp)
  | some (s, r1) =>
    match match_char ';' r1 with
    | none => (s, word_count, r1)
    | some r2 =>
      match match_d r2 with
      | (none, r3) => (s, word_count, r3)
      | (some n, r3) => (s, n, skip_char ';' r3)

/-- The result of `read_pairs` when every item fits. -/
def read_pairs_plain (n : Nat) (file_name : Str) (word_count : Int) (inp : Str)
    (head : File_list) (subs : List Sub_node) (log : List Str) :
    Str × File_list × List Sub_node × List Str :=
  match n with
  | 0 => (inp, head, subs, log)
  | n + 1 =>
    let r := fscanf_pair_plain file_name word_count inp
    let newSubNode : Sub_node := { create_sub_node_plain r.1 with word_count := r.2.1 }
    let d := delete_duplicate_file head r.1
    let log1 := if d.1 = Status.SUCCESS then log ++ [r.1] else log
    read_pairs_plain n r.1 r.2.1 r.2.2 d.2 (subs ++ [newSubNode]) log1

/-- The result of `update_loop` when every item fits; a bucket index outside
`hash_array` has no defined result here either. -/
def update_loop_plain (junk : Nat → Str × Int) (fuel k : Nat) (inp : Str)
    (hash_array : List Hash_t) (head : File_list) (log : List Str) :
    Outcome (List Hash_t × File_list × List Str) :=
  match fuel with
  | 0 => Outcome.out_of_fuel
  | fuel + 1 =>
    match fscanf_header_plain inp with
    | none => Outcome.ok (hash_array, head, log)
    | some (index, word, file_count, r) =>
      if index < 0 ∨ (HASH_SIZE : Int) ≤ index then Outcome.undefined
      else
        let p := read_pairs_plain file_count.toNat (junk k).1 (junk k).2 r head [] log
        let newNode : Main_node :=
          { create_main_node_plain word with file_count := file_count, s_link := p.2.2.1 }
        let hash1 := set_bucket hash_array index.toNat (bucket hash_array index.toNat ++ [newNode])
        update_loop_plain junk fuel (k + 1) (fscanf_close p.1) hash1 p.2.1 p.2.2.2

/-- The result of `update_database` when every item of the backup fits
(`update_database_cases`). -/
def update_database_plain (hash_array : List Hash_t) (backup : Str) (head : File_list)
    (fs : FileSys) (junk : Nat → Str × Int) :
    Outcome (Status × List Hash_t × File_list × List Str) :=
  if validate_file_extension backup = Status.FAILURE then
    Outcome.ok (Status.FAILURE, hash_array, head, [])
  else
    match fopen_r fs backup with
    | none => Outcome.ok (Status.FAILURE, hash_array, head, [])
    | some content =>
      if validate_file_size content = 0 then Outcome.ok (Status.FAILURE, hash_array, head, [])
      else if validate_backup_database content = Status.FAILURE then
        Outcome.ok (Status.FAILURE, hash_array, head, [])
      else
        match update_loop_plain junk (content.length + 1) 0 content hash_array head [] with
        | Outcome.ok r => Outcome.ok (Status.SUCCESS, r.1, r.2.1, r.2.2)
        | Outcome.undefined => Outcome.undefined
        | Outcome.out_of_fuel => Outcome.out_of_fuel

/-! ## Notions used to state the properties of the index -/

/-- The first main node of a chain whose word is `w`: the node `create_database` and
`search_database` stop at. -/
def lookup (chain : List Main_node) (w : Str) : Option Main_node :=
  chain.find? (fun m => decide (m.word = w))

/-- The count that the first sub node naming `f` carries; 0 when no sub node names `f`. -/
def sub_count (subs : List Sub_node) (f : Str) : Int :=
  match subs.find? (fun s => decide (s.file_name = f)) with
  | some s => s.word_count
  | none => 0

/-- The count recorded in the index for word `w` and file `f`. -/
def count_of (hash_array : List Hash_t) (w f : Str) : Int :=
  match lookup (bucket hash_array (find_index w)) w with
  | some m => sub_count m.s_link f
  | none => 0

/-- The pairs (file name, word) in the order in which `create_database` stores them. -/
def word_stream (head : File_list) (fs : FileSys) : List (Str × Str) :=
  head.flatMap (fun f =>
    match fopen_r fs f with
    | some content => (file_words_plain content).map (fun w => (f, w))
    | none => [])

/-- Whether file `f` can be opened and `w` is one of the words read from it. -/
def file_has_word (fs : FileSys) (w f : Str) : Bool :=
  match fopen_r fs f with
  | some content => decide (w ∈ file_words_plain content)
  | none => false

/-- The tokens of a text in the words of the spec (section 4.2): the text is split at
its white-space characters, and the non-empty pieces are the tokens. -/
def tokens (content : Str) : List Str :=
  (content.splitOnP isspace).filter (fun t => decide (t ≠ []))

/-- Every main node of the index satisfies `P`. -/
def AllNodes (P : Main_node → Prop) (hash_array : List Hash_t) : Prop :=
  ∀ i, ∀ m ∈ bucket hash_array i, P m

/-- Every main node sits in the bucket that `find_index` gives for its word. -/
def Placed (hash_array : List Hash_t) : Prop :=
  ∀ i, ∀ m ∈ bucket hash_array i, find_index m.word = i

/-- No chain holds two main nodes with the same word. -/
def WordsNodup (hash_array : List Hash_t) : Prop :=
  ∀ i, ((bucket hash_array i).map (fun m => m.word)).Nodup

/-- No two sub nodes of the main node name the same file. -/
def NamesNodup (m : Main_node) : Prop :=
  (m.s_link.map (fun s => s.file_name)).Nodup

/-- The `file_count` field is the number of sub nodes. -/
def CountIsLength (m : Main_node) : Prop :=
  m.file_count = (m.s_link.length : Int)

/-- Every sub node of the main node has a count of at least 1. -/
def CountsPositive (m : Main_node) : Prop :=
  ∀ s ∈ m.s_link, 1 ≤ s.word_count

/-- The main node has at least one sub node. -/
def HasSub (m : Main_node) : Prop :=
  m.s_link ≠ []

/-- What `create_database` maintains on an index of `HASH_SIZE` buckets. -/
structure BuildInv (hash_array : List Hash_t) : Prop where
  size : hash_array.length = HASH_SIZE
  placed : Placed hash_array
  words : WordsNodup hash_array
  names : AllNodes NamesNodup hash_array
  lengths : AllNodes CountIsLength hash_array
  positive : AllNodes CountsPositive hash_array
  subs : AllNodes HasSub hash_array

/-- The counters of the main node are at most `n`. -/
def Below (n : Int) (m : Main_node) : Prop :=
  m.file_count ≤ n ∧ ∀ s ∈ m.s_link, s.word_count ≤ n

/-- The index after the pairs (file name, word) of `st` have been stored in order. -/
def store_all (hash_array : List Hash_t) (st : List (Str × Str)) : List Hash_t :=
  st.foldl (fun h p => store_word_plain h p.1 p.2) hash_array

/-! ## A concrete run: the two files of the round-trip scenario -/

def f1_txt : Str := "f1.txt".toList

def f2_txt : Str := "f2.txt".toList

def backup_txt : Str := "backup.txt".toList

/-- A file system with `f1.txt` = "foo bar foo" and `f2.txt` = "bar"; every path can be
written. -/
def example_fs : FileSys :=
  { data := fun n =>
      if n = f1_txt then some "foo bar foo".toList
      else if n = f2_txt then some "bar".toList
      else none
    writable := fun _ => true }

/-- The index that `create_database` builds from `f1.txt` and `f2.txt`
(`example_index_built`). -/
def example_index : List Hash_t :=
  (create_database_plain initialise_hash [f1_txt, f2_txt] example_fs).2

/-! ## The backup format (spec, sections 4.4 and 6) -/

/-- The record of one WordEntry `m` of bucket `i`:
`#<bucketIndex>;<word>;<fileCount>;` then `<fileName>;<count>;` for each Occurrence in
stored order, then `#` and a newline. -/
def record_line (i : Nat) (m : Main_node) : Str :=
  ['#'] ++ print_d i ++ [';'] ++ m.word ++ [';'] ++ print_d m.file_count ++ [';'] ++
    m.s_link.flatMap (fun s => s.file_name ++ [';'] ++ print_d s.word_count ++ [';']) ++
    ['#', '\n']

/-- The WordEntry values of an index, each with its bucket index: buckets 0..26 in
increasing order, stored order inside a bucket. -/
def all_records (hash_array : List Hash_t) : List (Nat × Main_node) :=
  (List.range HASH_SIZE).flatMap (fun i => (bucket hash_array i).map (fun m => (i, m)))

/-- The concatenation of the records of a list of (bucket index, WordEntry) pairs. -/
def records_text (rs : List (Nat × Main_node)) : Str :=
  rs.flatMap (fun r => record_line r.1 r.2)

/-- The value the digits of a `%d` item stand for, most significant digit first. -/
def digits_value (ds : Str) (acc : Nat) : Nat :=
  ds.foldl (fun a c => a * 10 + (c.toNat - 48)) acc

/-- A field that `%[^;]` reads back as it was written: not empty, without `;` and
without NUL, and short enough for a 50-byte array. -/
def field_ok (s : Str) : Prop :=
  s ≠ [] ∧ ';' ∉ s ∧ Char.ofNat 0 ∉ s ∧ s.length < WORD_SIZE

/-- A well-formed record (spec, sections 3 and 6): a bucket index in [0,26], a word and
file names that are proper fields, a file count that is the number of pairs, and
numbers in the range of `int`. -/
def record_ok (r : Nat × Main_node) : Prop :=
  r.1 < HASH_SIZE ∧ field_ok r.2.word ∧ r.2.file_count = (r.2.s_link.length : Int) ∧
    r.2.file_count ≤ INT_MAX ∧
    ∀ s ∈ r.2.s_link, field_ok s.file_name ∧ INT_MIN ≤ s.word_count ∧ s.word_count ≤ INT_MAX

/-- The index after the WordEntry of each record, in order, has been linked at the end
of the chain of the record's bucket. -/
def append_records (hash_array : List Hash_t) (rs : List (Nat × Main_node)) : List Hash_t :=
  rs.foldl (fun h r => set_bucket h r.1 (bucket h r.1 ++ [r.2])) hash_array

/-- The file names of the occurrence pairs of the records, in the order of the backup. -/
def record_names (rs : List (Nat × Main_node)) : List Str :=
  rs.flatMap (fun r => r.2.s_link.map (fun s => s.file_name))

/-- The file list and the report after `delete_duplicate_file` has been called for each
name in order. -/
def claim_names (head : File_list) (log : List Str) (names : List Str) : File_list × List Str :=
  names.foldl (fun p n =>
    ((delete_duplicate_file p.1 n).2,
      if (delete_duplicate_file p.1 n).1 = Status.SUCCESS then p.2 ++ [n] else p.2)) (head, log)

/-- The text of the occurrence pairs of a record. -/
def pairs_text (subs : List Sub_node) : Str :=
  subs.flatMap (fun s => s.file_name ++ [';'] ++ print_d s.word_count ++ [';'])

/-- Some content for the variables `file_name` and `word_count` before they are
assigned. -/
def junk0 : Nat → Str × Int := fun _ => ([], 0)

/-- A backup with one well-formed record for the word "foo", which `example_index`
already holds in bucket 5. -/
def foo_records : List (Nat × Main_node) :=
  [(5, { file_count := 1, word := "foo".toList,
         s_link := [{ word_count := 1, file_name := f1_txt }] })]

/-- The file system `example_fs` with `backup.txt` holding the record of `foo_records`. -/
def foo_backup_fs : FileSys :=
  example_fs.write backup_txt (records_text foo_records)

/-- A file whose name contains a newline. -/
def newline_name : Str := "x\ny.txt".toList

/-- A file system with the single file `newline_name`, whose content is "a". -/
def newline_fs : FileSys :=
  { data := fun n => if n = newline_name then some "a".toList else none
    writable := fun _ => true }

/-- The index that `create_database` builds from that file (`newline_index_built`). -/
def newline_index : List Hash_t :=
  (create_database_plain initialise_hash [newline_name] newline_fs).2

/-- A file system in which `backup.txt` holds one record with bucket index 27. -/
def out_of_range_fs : FileSys :=
  { data := fun n => if n = backup_txt then some "#27;a;0;#\n".toList else none
    writable := fun _ => true }

/-! ## Reachable indexes -/

/-- The indexes that can be reached from the empty index by calls of `create_database`
and of `update_database` that return; `load_ok` restricts the indexes that a call of
`update_database` may leave. -/
inductive ReachableBy (load_ok : List Hash_t → Prop) : List Hash_t → Prop where
  | empty : ReachableBy load_ok initialise_hash
  | create (h : List Hash_t) (head : File_list) (fs : FileSys) (st : Status)
      (h' : List Hash_t) :
      ReachableBy load_ok h →
      create_database h head fs = Outcome.ok (st, h') → ReachableBy load_ok h'
  | update (h : List Hash_t) (path : Str) (head : File_list) (fs : FileSys)
      (junk : Nat → Str × Int) (st : Status) (h' : List Hash_t) (head' : File_list)
      (log : List Str) :
      ReachableBy load_ok h →
      update_database h path head fs junk = Outcome.ok (st, h', head', log) →
      load_ok h' → ReachableBy load_ok h'

/-- No main node of the index has a negative `file_count`. -/
def NoNegativeCount (hash_array : List Hash_t) : Prop :=
  ∀ i, ∀ m ∈ bucket hash_array i, 0 ≤ m.file_count

/-- The main node has as many sub nodes as the `for` loop of `update_database` runs for
its `file_count`: none when the count is negative. -/
def LengthIsCount (m : Main_node) : Prop :=
  m.s_link.length = m.file_count.toNat

/-- The index has a main node for `w`, in the bucket of `w`, with a sub node naming `f`. -/
def HasEntry (hash_array : List Hash_t) (w f : Str) : Prop :=
  ∃ m ∈ bucket hash_array (find_index w), m.word = w ∧ f ∈ m.s_link.map (fun s => s.file_name)

/-- A file system in which `backup.txt` holds one record with file count -3. -/
def negative_count_fs : FileSys :=
  { data := fun n => if n = backup_txt then some "#0;a;-3;#\n".toList else none
    writable := fun _ => true }

/-- The index that loading that backup into the empty index gives. -/
def negative_count_index : List Hash_t :=
  set_bucket initialise_hash 0 [{ file_count := -3, word := "a".toList, s_link := [] }]

/-- A file system in which `backup.txt` holds the two bytes `#a`. -/
def short_backup_fs : FileSys :=
  { data := fun n => if n = backup_txt then some "#a".toList else none
    writable := fun _ => true }

/-- A file system with the single file `f1.txt` = "Data data". -/
def case_fs : FileSys :=
  { data := fun n => if n = f1_txt then some "Data data".toList else none
    writable := fun _ => true }

/-! ## validate.c: the file list -/

/-- The function `validate_duplicate_file`. -/
def validate_duplicate_file (argv : Str) (file : File_list) : Status :=
  match file with
  | [] => Status.SUCCESS
  | x :: rest => if x = argv then Status.DUPLICATE else validate_duplicate_file argv rest

/-- The function `insert_at_last` (`malloc` succeeds).  Line 177 copies the name with
`strcpy` into `file_name[FILE_SIZE]`: a name of `FILE_SIZE` characters or more, with its
NUL, is written past the end of the array, and the call has no defined result.
Otherwise the new node is linked after the last one (lines 178-190). -/
def insert_at_last (head : File_list) (argv : Str) : Outcome (Status × File_list) :=
  if argv.length < FILE_SIZE then Outcome.ok (Status.SUCCESS, head ++ [argv])
  else Outcome.undefined

/-- The `for` loop of `read_and_validate_input_arguments` over the arguments that are
left: the file list and `count`. -/
def validate_arguments_loop (args : List Str) (file : File_list) (count : Nat) (fs : FileSys) :
    Outcome (File_list × Nat) :=
  match args with
  | [] => Outcome.ok (file, count)
  | a :: rest =>
    if validate_file_extension a = Status.FAILURE then validate_arguments_loop rest file count fs
    else
      match fopen_r fs a with
      | none => validate_arguments_loop rest file count fs
      | some content =>
        if validate_file_size content = 0 then validate_arguments_loop rest file count fs
        else if validate_duplicate_file a file = Status.DUPLICATE then
          validate_arguments_loop rest file count fs
        else
          match insert_at_last file a with
          | Outcome.ok r =>
            if r.1 = Status.FAILURE then validate_arguments_loop rest file count fs
            else validate_arguments_loop rest r.2 (count + 1) fs
          | Outcome.undefined => Outcome.undefined
          | Outcome.out_of_fuel => Outcome.out_of_fuel

/-- The function `read_and_validate_input_arguments`; `argv` starts with the name of
the program, which the loop skips.  `count` is at most the number of arguments, which
is an `int`. -/
def read_and_validate_input_arguments (argv : List Str) (file : File_list) (fs : FileSys) :
    Outcome (Status × File_list) :=
  match validate_arguments_loop (argv.drop 1) file 0 fs with
  | Outcome.ok r => Outcome.ok (if r.2 > 0 then Status.SUCCESS else Status.FAILURE, r.1)
  | Outcome.undefined => Outcome.undefined
  | Outcome.out_of_fuel => Outcome.out_of_fuel

/-! ## database.c: the streams that are open when a function returns -/

/-- The number of open streams when a run of `create_database` returns, `open_handles` being
open when it is called: line 29 opens one, line 129 closes it. -/
def create_database_handles (open_handles : Nat) (head : File_list) (fs : FileSys) : Nat :=
  match head with
  | [] => open_handles
  | f :: rest =>
    match fopen_r fs f with
    | none => create_database_handles open_handles rest fs
    | some _ => create_database_handles (open_handles + 1 - 1) rest fs

/-- The number of open streams when `save_database` returns: line 239 opens one, line
260 closes it. -/
def save_database_handles (open_handles : Nat) (file_name : Str) (fs : FileSys) : Outcome Nat :=
  if validate_file_extension file_name = Status.FAILURE then Outcome.ok open_handles
  else if fs.writable file_name then Outcome.ok (open_handles + 1 - 1)
  else Outcome.undefined

/-- The number of open streams when `update_database` returns: line 276 opens one, the
returns of lines 286 and 292 leave it open, line 345 closes it. -/
def update_database_handles (open_handles : Nat) (hash_array : List Hash_t) (backup : Str)
    (head : File_list) (fs : FileSys) (junk : Nat → Str × Int) : Outcome Nat :=
  if validate_file_extension backup = Status.FAILURE then Outcome.ok open_handles
  else
    match fopen_r fs backup with
    | none => Outcome.ok open_handles
    | some content =>
      if validate_file_size content = 0 then Outcome.ok (open_handles + 1)
      else if validate_backup_database content = Status.FAILURE then
        Outcome.ok (open_handles + 1)
      else
        match update_loop junk (content.length + 1) 0 content hash_array head [] with
        | Outcome.ok _ => Outcome.ok (open_handles + 1 - 1)
        | Outcome.undefined => Outcome.undefined
        | Outcome.out_of_fuel => Outcome.out_of_fuel

/-! ## main.c: the menu loop -/

/-- What one turn of the menu reads: the number that `scanf("%d", &choice)` reads,
with the word that a `scanf("%49s", ...)` of that turn reads, or an input that is no
number. -/
inductive Menu_input where
  | number (choice : Int) (word : Str)
  | not_a_number

/-- A call of `create_database` or of `update_database` made by `main`, with the
status it returned. -/
inductive Call where
  | create (st : Status)
  | update (st : Status)
  deriving DecidableEq

/-- The status that a call returned. -/
def Call.status (c : Call) : Status :=
  match c with
  | Call.create st => st
  | Call.update st => st

/-- The variables of `main` in its menu loop, with the file system, the calls of
`create_database` and `update_database` made so far, and whether `main` has
returned. -/
structure Main_state where
  hash_array : List Hash_t
  head : File_list
  fs : FileSys
  create_flag : Bool
  update_flag : Bool
  calls : List Call
  exited : Bool

/-- The state in which `main` enters its menu loop. -/
def main_init (head : File_list) (fs : FileSys) : Main_state :=
  { hash_array := initialise_hash, head := head, fs := fs, create_flag := false,
    update_flag := false, calls := [], exited := false }

/-- One turn of the `while (1)` loop of `main`. -/
def menu_step (junk : Nat → Str × Int) (s : Main_state) (inp : Menu_input) :
    Outcome Main_state :=
  match inp with
  | Menu_input.not_a_number => Outcome.ok s
  | Menu_input.number choice word =>
    if choice = 1 then
      if s.create_flag then Outcome.ok s
      else
        match create_database s.hash_array s.head s.fs with
        | Outcome.ok r =>
          if r.1 = Status.SUCCESS then
            Outcome.ok { s with hash_array := r.2, create_flag := true,
                                calls := s.calls ++ [Call.create r.1] }
          else Outcome.ok { s with hash_array := r.2, calls := s.calls ++ [Call.create r.1] }
        | Outcome.undefined => Outcome.undefined
        | Outcome.out_of_fuel => Outcome.out_of_fuel
    else if choice = 2 then Outcome.ok s
    else if choice = 3 then
      if s.create_flag then
        Outcome.ok { s with hash_array := (search_database s.hash_array word).2.1 }
      else Outcome.ok s
    else if choice = 4 then
      if s.create_flag then
        match save_database s.hash_array word s.fs with
        | Outcome.ok r => Outcome.ok { s with hash_array := r.2.1, fs := r.2.2 }
        | Outcome.undefined => Outcome.undefined
        | Outcome.out_of_fuel => Outcome.out_of_fuel
      else Outcome.ok s
    else if choice = 5 then
      if s.create_flag then Outcome.ok s
      else if !s.update_flag then
        match update_database s.hash_array word s.head s.fs junk with
        | Outcome.ok r =>
          if r.1 = Status.SUCCESS then
            Outcome.ok { s with hash_array := r.2.1, head := r.2.2.1, create_flag := true,
                                update_flag := true, calls := s.calls ++ [Call.update r.1] }
          else
            Outcome.ok { s with hash_array := r.2.1, head := r.2.2.1,
                                calls := s.calls ++ [Call.update r.1] }
        | Outcome.undefined => Outcome.undefined
        | Outcome.out_of_fuel => Outcome.out_of_fuel
      else Outcome.ok s
    else if choice = 6 then Outcome.ok { s with head := [], exited := true }
    else Outcome.ok s

/-- The menu loop of `main` on the inputs of the successive turns; nothing is read
after `main` has returned. -/
def main_loop (junk : Nat → Str × Int) (s : Main_state) (inputs : List Menu_input) :
    Outcome Main_state :=
  match inputs with
  | [] => Outcome.ok s
  | i :: rest =>
    if s.exited then Outcome.ok s
    else
      match menu_step junk s i with
      | Outcome.ok s' => main_loop junk s' rest
      | Outcome.undefined => Outcome.undefined
      | Outcome.out_of_fuel => Outcome.out_of_fuel

/-- What holds of the calls in every state of a run: as long as `create_flag` is false
no call has returned `SUCCESS`, and at any time no call but the last has. -/
def CallsInv (s : Main_state) : Prop :=
  (s.create_flag = false → ∀ c ∈ s.calls, c.status ≠ Status.SUCCESS) ∧
    ∀ c ∈ s.calls.dropLast, c.status ≠ Status.SUCCESS

/-! ## Order of first appearance -/

/-- The elements of a list in the order of their first appearance, each once. -/
def firsts (l : List Str) : List Str :=
  match l with
  | [] => []
  | x :: xs => x :: (firsts xs).filter (fun y => decide (y ≠ x))

/-- One step of a list that grows at its end: `w` is appended unless it is there. -/
def add_first (acc : List Str) (w : Str) : List Str :=
  if w ∈ acc then acc else acc ++ [w]

/-- The file names of the first main node with word `w` in the bucket of `w`. -/
def names_of (hash_array : List Hash_t) (w : Str) : List Str :=
  match lookup (bucket hash_array (find_index w)) w with
  | some m => m.s_link.map (fun s => s.file_name)
  | none => []

/-- Whether `read_and_validate_input_arguments` accepts an argument, duplicates
apart: the name ends in ".txt" and the file can be opened and is not empty. -/
def accepted (fs : FileSys) (a : Str) : Bool :=
  decide (validate_file_extension a = Status.SUCCESS) &&
    (match fopen_r fs a with
      | some content => decide (content ≠ [])
      | none => false)

/-! ## Further concrete inputs -/

/-- A file system with the single file `f1.txt` = "a;b c". -/
def semicolon_fs : FileSys :=
  { data := fun n => if n = f1_txt then some "a;b c".toList else none
    writable := fun _ => true }

/-- A file system in which `backup.txt` holds a well-formed record followed by a
record that announces one occurrence pair and has none. -/
def truncated_fs : FileSys :=
  { data := fun n => if n = backup_txt then some "#0;a;1;x.txt;1;#\n#1;b;1;#\n".toList
                     else none
    writable := fun _ => true }

/-- A file system in which `backup.txt` holds one record with bucket index -1. -/
def negative_index_fs : FileSys :=
  { data := fun n => if n = backup_txt then some "#-1;a;0;#\n".toList else none
    writable := fun _ => true }

/-- A file system in which `backup.txt` is an empty file. -/
def empty_backup_fs : FileSys :=
  { data := fun n => if n = backup_txt then some [] else none
    writable := fun _ => true }

/-- A file system in which `backup.txt` holds a well-formed record followed by a line
that does not start with `#`. -/
def bad_header_fs : FileSys :=
  { data := fun n => if n = backup_txt then some "#0;a;1;x.txt;1;#\n?;b;1;#\n".toList
                     else none
    writable := fun _ => true }

/-- A run of the menu: a load of `f1.txt`, which is no backup, then a build, then a load
and a build that are both refused. -/
def example_inputs : List Menu_input :=
  [Menu_input.number 5 f1_txt, Menu_input.number 1 [], Menu_input.number 5 backup_txt,
   Menu_input.number 1 []]

/-- The state of `main` after that run on `f1.txt` and `f2.txt`. -/
def example_final : Main_state :=
  { hash_array := example_index, head := [f1_txt, f2_txt], fs := example_fs,
    create_flag := true, update_flag := false,
    calls := [Call.update Status.FAILURE, Call.create Status.SUCCESS], exited := false }

/-! ## Inputs within the capacities -/

/-- The tokens of file `f`; a file that cannot be opened has none. -/
def file_tokens (fs : FileSys) (f : Str) : List Str :=
  match fopen_r fs f with
  | some content => tokens content
  | none => []

/-- Whether every token of file `f` fits `buffer[50]`. -/
def words_fit (fs : FileSys) (f : Str) : Bool :=
  (file_tokens fs f).all (fun t => decide (t.length < WORD_SIZE))

/-- The number of tokens in the files of the list that open, a file counted as often
as the list names it. -/
def token_total (head : File_list) (fs : FileSys) : Nat :=
  (head.map (fun f => (file_tokens fs f).length)).sum

/-- The file names of the list fit `file_name[50]`, the tokens of the files fit
`buffer[50]`, and counters that start at `n` or below stay in the range of `int` when
each token adds one. -/
def Fits (n : Int) (head : File_list) (fs : FileSys) : Prop :=
  (∀ f ∈ head, f.length < FILE_SIZE) ∧ (∀ f ∈ head, words_fit fs f = true) ∧
    0 ≤ n ∧ n + (token_total head fs : Int) ≤ INT_MAX

instance (n : Int) (head : File_list) (fs : FileSys) : Decidable (Fits n head fs) := by
  unfold Fits
  infer_instance

/-- Whether file `f`, when it opens, holds no NUL byte. -/
def no_nul (fs : FileSys) (f : Str) : Bool :=
  match fopen_r fs f with
  | some content => decide (Char.ofNat 0 ∉ content)
  | none => true

/-- The token stream of the spec (section 4.2): the pairs (file name, token), files in
list order, tokens in file order. -/
def token_stream (head : File_list) (fs : FileSys) : List (Str × Str) :=
  head.flatMap (fun f => (file_tokens fs f).map (fun t => (f, t)))

/-! ## Inputs outside the text files that the build is made for -/

/-- A file system with the single file `f1.txt` = "a", NUL, "b a": the tokens are the
three bytes "a", NUL, "b" and the byte "a". -/
def nul_fs : FileSys :=
  { data := fun n => if n = f1_txt then some ['a', Char.ofNat 0, 'b', ' ', 'a'] else none
    writable := fun _ => true }

/-- A file system with `f1.txt` = "a", NUL, "b" and `f2.txt` = "a". -/
def nul2_fs : FileSys :=
  { data := fun n =>
      if n = f1_txt then some ['a', Char.ofNat 0, 'b']
      else if n = f2_txt then some ['a']
      else none
    writable := fun _ => true }

/-- A token of 50 characters. -/
def long_word : Str := List.replicate 50 'x'

/-- A token of 56 characters. -/
def long_word56 : Str := List.replicate 56 'w'

/-- A file system in which `f1.txt` and `f2.txt` both hold the token `long_word56`. -/
def long_word_two_files_fs : FileSys :=
  { data := fun n => if n = f1_txt ∨ n = f2_txt then some long_word56 else none
    writable := fun _ => true }

/-- A file system with the unopenable name `f2.txt` and the file `f1.txt`, which holds a
token of 50 characters. -/
def long_word_only_fs : FileSys :=
  { data := fun n => if n = f1_txt then some long_word else none
    writable := fun _ => true }

/-- A file name of 54 characters that ends in ".txt". -/
def long_name : Str := List.replicate 50 'n' ++ ".txt".toList

/-- A file system with the single file `long_name`, which holds "a a". -/
def long_name_fs : FileSys :=
  { data := fun n => if n = long_name then some "a a".toList else none
    writable := fun _ => true }

/-- A token of 54 characters. -/
def long_word52 : Str := List.replicate 52 'y'

/-- A file system with the single file `f1.txt`, which holds the token `long_word52`
twice. -/
def twice_long_fs : FileSys :=
  { data := fun n => if n = f1_txt then some (long_word52 ++ ' ' :: long_word52) else none
    writable := fun _ => true }

/-- A file system with the single file `f1.txt` = "D", NUL, " d", NUL: two tokens of two
bytes each. -/
def nul_case_fs : FileSys :=
  { data := fun n =>
      if n = f1_txt then some ['D', Char.ofNat 0, ' ', 'd', Char.ofNat 0] else none
    writable := fun _ => true }

/-- A file system with the single file `f1.txt` = NUL, "x": one token, which starts with
the NUL byte. -/
def nul_lead_fs : FileSys :=
  { data := fun n => if n = f1_txt then some [Char.ofNat 0, 'x'] else none
    writable := fun _ => true }

/-- The index built from that file: the C string read is empty. -/
def nul_lead_index : List Hash_t :=
  set_bucket initialise_hash 26
    [{ file_count := 1, word := [], s_link := [{ word_count := 1, file_name := f1_txt }] }]

/-- A file system in which `backup.txt` holds one record whose only pair names a file
of 54 characters. -/
def long_pair_fs : FileSys :=
  { data := fun n =>
      if n = backup_txt then some ("#0;a;1;".toList ++ long_name ++ ";1;#\n".toList) else none
    writable := fun _ => true }

/-- A file system in which `backup.txt` holds one record with two pairs, the first for
`f1.txt`, the second for a file name of 60 characters. -/
def long_second_pair_fs : FileSys :=
  { data := fun n =>
      if n = backup_txt then
        some ("#0;a;2;f1.txt;1;".toList ++ List.replicate 60 'm' ++ ";1;#\n".toList)
      else none
    writable := fun _ => true }

/-- The index built from `f1.txt` = "a;b c". -/
def semicolon_index : List Hash_t :=
  set_bucket
    (set_bucket initialise_hash 0
      [{ file_count := 1, word := "a;b".toList,
         s_link := [{ word_count := 1, file_name := f1_txt }] }])
    2 [{ file_count := 1, word := "c".toList,
         s_link := [{ word_count := 1, file_name := f1_txt }] }]

/-- A file name of 61 characters that ends in ".txt". -/
def long_arg : Str := List.replicate 57 'p' ++ ".txt".toList

/-- A file system in which the file `long_arg` holds "a", `f1.txt` holds "b", and the
file named by the first 56 characters of `long_arg` is empty. -/
def long_arg_fs : FileSys :=
  { data := fun n =>
      if n = long_arg then some "a".toList
      else if n = f1_txt then some "b".toList
      else if n = long_arg.take 56 then some []
      else none
    writable := fun _ => true }

/-- A file system with the single file `f1.txt` = "b", NUL, "x bz b": the tokens are
"b" NUL "x", then "bz", then "b". -/
def nul_order_fs : FileSys :=
  { data := fun n =>
      if n = f1_txt then some ['b', Char.ofNat 0, 'x', ' ', 'b', 'z', ' ', 'b'] else none
    writable := fun _ => true }

/-- The index built from that file. -/
def nul_order_index : List Hash_t :=
  set_bucket initialise_hash 1
    [{ file_count := 1, word := "b".toList,
       s_link := [{ word_count := 2, file_name := f1_txt }] },
     { file_count := 1, word := "bz".toList,
       s_link := [{ word_count := 1, file_name := f1_txt }] }]

/-! # Theorems -/

/-! ## The bucket array -/

theorem length_set_bucket (h : List Hash_t) (i : Nat) (ms : List Main_node) :
    (set_bucket h i ms).length = h.length := by
  unfold set_bucket
  split <;> simp

theorem bucket_set_bucket (h : List Hash_t) (i j : Nat) (ms : List Main_node) :
    bucket (set_bucket h i ms) j = if j = i ∧ i < h.length then ms else bucket h j := by
  unfold set_bucket
  split
  · rename_i b hb
    have hi : i < h.length := by
      rcases List.getElem?_eq_some_iff.1 hb with ⟨hlt, _⟩
      exact hlt
    unfold bucket
    rw [List.getElem?_set]
    by_cases hij : i = j
    · subst hij
      simp [hi]
    · have hji : ¬ j = i := fun e => hij e.symm
      simp [hij, hji]
  · rename_i hb
    have hi : ¬ i < h.length := by
      intro hlt
      have := List.getElem?_eq_none_iff.1 hb
      omega
    simp [hi]

theorem length_initialise_hash : initialise_hash.length = HASH_SIZE := by
  simp [initialise_hash]

theorem bucket_initialise_hash (i : Nat) : bucket initialise_hash i = [] := by
  unfold bucket initialise_hash
  by_cases hi : i < HASH_SIZE
  · simp [List.getElem?_map, List.getElem?_range hi]
  · have : (List.map (fun (i : Nat) => ({ index := Int.ofNat i, m_link := [] } : Hash_t))
        (List.range HASH_SIZE))[i]? = none := by
      apply List.getElem?_eq_none_iff.2
      simp
      omega
    rw [this]

theorem find_index_lt (w : Str) : find_index w < HASH_SIZE := by
  unfold find_index HASH_SIZE
  cases w with
  | nil => simp
  | cons c rest =>
    simp only [isupper, islower]
    split
    · rename_i h
      simp at h
      omega
    · split
      · rename_i h
        simp at h
        omega
      · simp

/-! ## One chain of sub nodes -/

theorem find_sub_eq_true {subs : List Sub_node} {f : Str} :
    find_sub subs f = true ↔ f ∈ subs.map (fun s => s.file_name) := by
  induction subs with
  | nil => simp [find_sub]
  | cons s rest ih =>
    unfold find_sub
    by_cases hs : s.file_name = f
    · simp [hs]
    · have hs2 : ¬ f = s.file_name := fun e => hs e.symm
      simp only [hs, if_false, ih, List.map_cons, List.mem_cons, hs2, false_or]

theorem find_sub_eq_false {subs : List Sub_node} {f : Str} :
    find_sub subs f = false ↔ f ∉ subs.map (fun s => s.file_name) := by
  rw [← find_sub_eq_true]
  simp

theorem map_file_name_incr_sub (subs : List Sub_node) (f : Str) :
    (incr_sub_plain subs f).map (fun s => s.file_name) = subs.map (fun s => s.file_name) := by
  induction subs with
  | nil => simp [incr_sub_plain]
  | cons s rest ih =>
    unfold incr_sub_plain
    by_cases hs : s.file_name = f
    · simp [hs]
    · simp [hs, ih]

theorem length_incr_sub (subs : List Sub_node) (f : Str) :
    (incr_sub_plain subs f).length = subs.length := by
  have := congrArg List.length (map_file_name_incr_sub subs f)
  simpa using this

theorem sub_count_of_not_mem {subs : List Sub_node} {f : Str}
    (h : f ∉ subs.map (fun s => s.file_name)) : sub_count subs f = 0 := by
  unfold sub_count
  have : subs.find? (fun s => decide (s.file_name = f)) = none := by
    apply List.find?_eq_none.2
    intro s hs hp
    apply h
    simp only [decide_eq_true_eq] at hp
    exact List.mem_map.2 ⟨s, hs, hp⟩
  rw [this]

theorem sub_count_incr_sub {subs : List Sub_node} {f : Str} (f' : Str)
    (h : find_sub subs f = true) :
    sub_count (incr_sub_plain subs f) f' = sub_count subs f' + (if f' = f then 1 else 0) := by
  induction subs with
  | nil => simp [find_sub] at h
  | cons s rest ih =>
    unfold incr_sub_plain
    by_cases hs : s.file_name = f
    · by_cases hf : f' = f
      · subst hf
        simp [hs, sub_count, List.find?_cons]
      · have hne : ¬ f = f' := fun e => hf e.symm
        subst hs
        simp [hf, hne, sub_count, List.find?_cons]
    · have hrest : find_sub rest f = true := by
        unfold find_sub at h
        simpa [hs] using h
      have ih' := ih hrest
      by_cases hs' : s.file_name = f'
      · have hf : ¬ f' = f := fun e => hs (hs'.trans e)
        simp [hs, hs', hf, sub_count, List.find?_cons]
      · simp only [hs, if_false]
        unfold sub_count at ih' ⊢
        simp only [List.find?_cons, hs', decide_False]
        exact ih'

theorem sub_count_append_new {subs : List Sub_node} {f : Str} (f' : Str)
    (h : find_sub subs f = false) :
    sub_count (subs ++ [create_sub_node_plain f]) f' = sub_count subs f' + (if f' = f then 1 else 0) := by
  have hnot := find_sub_eq_false.1 h
  by_cases hf : f' = f
  · subst hf
    rw [sub_count_of_not_mem hnot]
    unfold sub_count
    have hnone : subs.find? (fun s => decide (s.file_name = f')) = none := by
      apply List.find?_eq_none.2
      intro s hs hp
      apply hnot
      simp only [decide_eq_true_eq] at hp
      exact List.mem_map.2 ⟨s, hs, hp⟩
    simp [List.find?_append, hnone, create_sub_node_plain]
  · have hne : ¬ f = f' := fun e => hf e.symm
    unfold sub_count
    simp [List.find?_append, create_sub_node_plain, hf, hne]

/-! ## One main node -/

theorem word_update_main (m : Main_node) (f : Str) : (update_main_plain m f).word = m.word := by
  unfold update_main_plain
  split <;> rfl

theorem sub_count_update_main (m : Main_node) (f f' : Str) :
    sub_count (update_main_plain m f).s_link f' = sub_count m.s_link f' + (if f' = f then 1 else 0) := by
  unfold update_main_plain
  cases h : find_sub m.s_link f
  · simpa using sub_count_append_new f' h
  · simpa using sub_count_incr_sub f' h

theorem map_file_name_update_main (m : Main_node) (f : Str) :
    (update_main_plain m f).s_link.map (fun s => s.file_name) =
      if f ∈ m.s_link.map (fun s => s.file_name) then m.s_link.map (fun s => s.file_name)
      else m.s_link.map (fun s => s.file_name) ++ [f] := by
  unfold update_main_plain
  cases h : find_sub m.s_link f
  · have := find_sub_eq_false.1 h
    simp only [Bool.false_eq_true, if_false, this, List.map_append, List.map_cons, List.map_nil,
      create_sub_node_plain]
  · have := find_sub_eq_true.1 h
    simp only [if_true, this, map_file_name_incr_sub]

/-! ## One chain of main nodes -/

/-- The main node that `create_database_plain` links for a word that has none. -/
theorem insert_word_nil (w f : Str) :
    insert_word_plain [] w f = [{ file_count := 1, word := w, s_link := [create_sub_node_plain f] }] := by
  simp [insert_word_plain, create_main_node_plain]

theorem mem_insert_word {chain : List Main_node} {w f : Str} {m' : Main_node}
    (h : m' ∈ insert_word_plain chain w f) :
    m' ∈ chain ∨ (∃ m ∈ chain, m.word = w ∧ m' = update_main_plain m f) ∨
      m' = { file_count := 1, word := w, s_link := [create_sub_node_plain f] } := by
  induction chain with
  | nil =>
    rw [insert_word_nil] at h
    simp at h
    exact Or.inr (Or.inr h)
  | cons m rest ih =>
    unfold insert_word_plain at h
    by_cases hw : w = m.word
    · simp only [hw, if_true, List.mem_cons] at h
      rcases h with h | h
      · exact Or.inr (Or.inl ⟨m, by simp, hw.symm, h⟩)
      · exact Or.inl (by simp [h])
    · simp only [hw, if_false, List.mem_cons] at h
      rcases h with h | h
      · exact Or.inl (by simp [h])
      · rcases ih h with h1 | ⟨m0, hm0, hw0, he⟩ | h3
        · exact Or.inl (by simp [h1])
        · exact Or.inr (Or.inl ⟨m0, by simp [hm0], hw0, he⟩)
        · exact Or.inr (Or.inr h3)

theorem map_word_insert_word (chain : List Main_node) (w f : Str) :
    (insert_word_plain chain w f).map (fun m => m.word) =
      if w ∈ chain.map (fun m => m.word) then chain.map (fun m => m.word)
      else chain.map (fun m => m.word) ++ [w] := by
  induction chain with
  | nil => simp [insert_word_nil]
  | cons m rest ih =>
    unfold insert_word_plain
    by_cases hw : w = m.word
    · simp [hw, word_update_main]
    · simp only [hw, if_false, List.map_cons, ih, List.mem_cons, false_or]
      split <;> simp

theorem lookup_insert_word (chain : List Main_node) (w f w' : Str) :
    lookup (insert_word_plain chain w f) w' =
      if w' = w then
        some (match lookup chain w with
          | some m => update_main_plain m f
          | none => { file_count := 1, word := w, s_link := [create_sub_node_plain f] })
      else lookup chain w' := by
  induction chain with
  | nil =>
    rw [insert_word_nil]
    by_cases hw : w' = w
    · subst hw
      simp [lookup]
    · have : ¬ w = w' := fun e => hw e.symm
      simp [lookup, hw, this]
  | cons m rest ih =>
    unfold insert_word_plain
    by_cases hw : w = m.word
    · by_cases hw' : w' = w
      · subst hw'
        simp [hw, lookup, List.find?_cons, word_update_main]
      · have h1 : ¬ m.word = w' := fun e => hw' (e.symm.trans hw.symm)
        simp [hw, hw', lookup, List.find?_cons, word_update_main, h1]
        rw [← hw]
        simp [hw']
    · have hw2 : ¬ m.word = w := fun e => hw e.symm
      simp only [hw, if_false]
      unfold lookup at ih ⊢
      simp only [List.find?_cons]
      by_cases hw' : w' = w
      · subst hw'
        simp only [hw2, decide_False, if_true] at ih ⊢
        exact ih
      · simp only [hw', if_false] at ih ⊢
        by_cases hm : m.word = w'
        · simp [hm]
        · simp only [hm, decide_False]
          exact ih

/-! ## Lists with distinct keys -/

theorem find?_of_mem_nodup {α β : Type} [DecidableEq β] (g : α → β) (l : List α)
    (hnd : (l.map g).Nodup) (m : α) (hm : m ∈ l) :
    l.find? (fun x => decide (g x = g m)) = some m := by
  induction l with
  | nil => simp at hm
  | cons a rest ih =>
    rw [List.map_cons, List.nodup_cons] at hnd
    rw [List.find?_cons]
    rcases List.mem_cons.1 hm with h | h
    · subst h
      simp
    · have hne : ¬ g a = g m := by
        intro e
        apply hnd.1
        rw [e]
        exact List.mem_map.2 ⟨m, h, rfl⟩
      simp only [hne, decide_False]
      exact ih hnd.2 h

theorem filter_of_find?_nodup {α β : Type} [DecidableEq β] (g : α → β) (l : List α)
    (hnd : (l.map g).Nodup) (b : β) (m : α)
    (h : l.find? (fun x => decide (g x = b)) = some m) :
    l.filter (fun x => decide (g x = b)) = [m] := by
  induction l with
  | nil => simp at h
  | cons a rest ih =>
    rw [List.map_cons, List.nodup_cons] at hnd
    rw [List.find?_cons] at h
    by_cases hab : g a = b
    · simp only [hab, decide_True, Option.some.injEq] at h
      subst h
      have hrest : rest.filter (fun x => decide (g x = b)) = [] := by
        apply List.filter_eq_nil_iff.2
        intro x hx hp
        simp only [decide_eq_true_eq] at hp
        apply hnd.1
        rw [hab, ← hp]
        exact List.mem_map.2 ⟨x, hx, rfl⟩
      simp [List.filter_cons, hab, hrest]
    · simp only [hab, decide_False] at h
      simp [List.filter_cons, hab, ih hnd.2 h]

theorem count_eq_one_of_mem_nodup {α : Type} [BEq α] [LawfulBEq α] (l : List α) (a : α)
    (hnd : l.Nodup) (ha : a ∈ l) : l.count a = 1 := by
  induction l with
  | nil => simp at ha
  | cons b rest ih =>
    rw [List.nodup_cons] at hnd
    rw [List.count_cons]
    rcases List.mem_cons.1 ha with h | h
    · subst h
      have : List.count a rest = 0 := List.count_eq_zero.2 hnd.1
      simp [this]
    · have hne : ¬ (b == a) = true := by
        intro e
        have e2 : b = a := eq_of_beq e
        apply hnd.1
        rw [e2]
        exact h
      rw [if_neg hne, ih hnd.2 h]

/-! ## `store_word_plain` -/

theorem length_store_word (h : List Hash_t) (f w : Str) :
    (store_word_plain h f w).length = h.length := by
  simp [store_word_plain, length_set_bucket]

theorem bucket_store_word (h : List Hash_t) (f w : Str) (i : Nat) :
    bucket (store_word_plain h f w) i =
      if i = find_index w ∧ find_index w < h.length then insert_word_plain (bucket h i) w f
      else bucket h i := by
  simp only [store_word_plain, bucket_set_bucket]
  by_cases hi : i = find_index w ∧ find_index w < h.length
  · simp only [hi, and_self, if_true]
  · simp only [hi, if_false]

theorem allNodes_store_word (P : Main_node → Prop) (h : List Hash_t) (f w : Str)
    (hall : AllNodes P h) (hupd : ∀ m, P m → m.word = w → P (update_main_plain m f))
    (hnew : P { file_count := 1, word := w, s_link := [create_sub_node_plain f] }) :
    AllNodes P (store_word_plain h f w) := by
  intro i m hm
  rw [bucket_store_word] at hm
  split at hm
  · rcases mem_insert_word hm with h1 | ⟨m0, hm0, hw0, he⟩ | h3
    · exact hall i m h1
    · rw [he]
      exact hupd m0 (hall i m0 hm0) hw0
    · rw [h3]
      exact hnew
  · exact hall i m hm

theorem placed_store_word (h : List Hash_t) (f w : Str) (hp : Placed h) :
    Placed (store_word_plain h f w) := by
  intro i m hm
  rw [bucket_store_word] at hm
  split at hm
  · rename_i hi
    rcases mem_insert_word hm with h1 | ⟨m0, hm0, _, he⟩ | h3
    · exact hp i m h1
    · rw [he, word_update_main]
      exact hp i m0 hm0
    · rw [h3]
      exact hi.1.symm
  · exact hp i m hm

theorem wordsNodup_store_word (h : List Hash_t) (f w : Str) (hp : WordsNodup h) :
    WordsNodup (store_word_plain h f w) := by
  intro i
  rw [bucket_store_word]
  split
  · rw [map_word_insert_word]
    split
    · exact hp i
    · rename_i hnot
      apply List.Nodup.append (hp i) (List.nodup_singleton w)
      intro a ha hb
      simp only [List.mem_singleton] at hb
      subst hb
      exact hnot ha
  · exact hp i

theorem namesNodup_update_main (m : Main_node) (f : Str) (hm : NamesNodup m) :
    NamesNodup (update_main_plain m f) := by
  unfold NamesNodup at hm ⊢
  rw [map_file_name_update_main]
  split
  · exact hm
  · rename_i hnot
    apply List.Nodup.append hm (List.nodup_singleton f)
    intro a ha hb
    simp only [List.mem_singleton] at hb
    subst hb
    exact hnot ha

theorem countIsLength_update_main (m : Main_node) (f : Str) (hm : CountIsLength m) :
    CountIsLength (update_main_plain m f) := by
  unfold CountIsLength at hm ⊢
  unfold update_main_plain
  split
  · simp [length_incr_sub, hm]
  · simp [hm]

theorem mem_incr_sub {subs : List Sub_node} {f : Str} {s : Sub_node} (hs : s ∈ incr_sub_plain subs f) :
    s ∈ subs ∨ ∃ s0 ∈ subs, s = { s0 with word_count := s0.word_count + 1 } := by
  induction subs with
  | nil => simp [incr_sub_plain] at hs
  | cons a rest ih =>
    unfold incr_sub_plain at hs
    by_cases ha : a.file_name = f
    · rw [if_pos ha, List.mem_cons] at hs
      rcases hs with h | h
      · exact Or.inr ⟨a, by simp, h⟩
      · exact Or.inl (by simp [h])
    · simp only [ha, if_false, List.mem_cons] at hs
      rcases hs with h | h
      · exact Or.inl (by simp [h])
      · rcases ih h with h1 | ⟨s0, hs0, he⟩
        · exact Or.inl (by simp [h1])
        · exact Or.inr ⟨s0, by simp [hs0], he⟩

theorem countsPositive_update_main (m : Main_node) (f : Str) (hm : CountsPositive m) :
    CountsPositive (update_main_plain m f) := by
  unfold CountsPositive at hm ⊢
  unfold update_main_plain
  split
  · intro s hs
    rcases mem_incr_sub hs with h1 | ⟨s0, hs0, he⟩
    · exact hm s h1
    · have := hm s0 hs0
      rw [he]
      show 1 ≤ s0.word_count + 1
      omega
  · intro s hs
    simp only [List.mem_append, List.mem_singleton] at hs
    rcases hs with h1 | h1
    · exact hm s h1
    · rw [h1]
      simp [create_sub_node_plain]

theorem hasSub_update_main (m : Main_node) (f : Str) : HasSub (update_main_plain m f) := by
  unfold HasSub update_main_plain
  split
  · rename_i hfound
    intro he
    simp only at he
    have h1 := length_incr_sub m.s_link f
    rw [he] at h1
    have h2 : m.s_link = [] := List.length_eq_zero.1 h1.symm
    rw [h2] at hfound
    simp [find_sub] at hfound
  · simp

theorem buildInv_store_word (h : List Hash_t) (f w : Str) (hinv : BuildInv h) :
    BuildInv (store_word_plain h f w) where
  size := by rw [length_store_word]; exact hinv.size
  placed := placed_store_word h f w hinv.placed
  words := wordsNodup_store_word h f w hinv.words
  names := allNodes_store_word _ h f w hinv.names
    (fun m hm _ => namesNodup_update_main m f hm) (by simp [NamesNodup])
  lengths := allNodes_store_word _ h f w hinv.lengths
    (fun m hm _ => countIsLength_update_main m f hm) (by simp [CountIsLength])
  positive := allNodes_store_word _ h f w hinv.positive
    (fun m hm _ => countsPositive_update_main m f hm) (by simp [CountsPositive, create_sub_node_plain])
  subs := allNodes_store_word _ h f w hinv.subs
    (fun m _ _ => hasSub_update_main m f) (by simp [HasSub])

theorem buildInv_initialise_hash : BuildInv initialise_hash where
  size := length_initialise_hash
  placed := by intro i m hm; simp [bucket_initialise_hash] at hm
  words := by intro i; simp [bucket_initialise_hash]
  names := by intro i m hm; simp [bucket_initialise_hash] at hm
  lengths := by intro i m hm; simp [bucket_initialise_hash] at hm
  positive := by intro i m hm; simp [bucket_initialise_hash] at hm
  subs := by intro i m hm; simp [bucket_initialise_hash] at hm

theorem count_of_store_word (h : List Hash_t) (f w w' f' : Str)
    (hlen : h.length = HASH_SIZE) :
    count_of (store_word_plain h f w) w' f' =
      count_of h w' f' + (if w' = w ∧ f' = f then 1 else 0) := by
  have hlt : find_index w < h.length := by rw [hlen]; exact find_index_lt w
  unfold count_of
  rw [bucket_store_word]
  by_cases hi : find_index w' = find_index w
  · simp only [hi, hlt, and_self, if_true]
    rw [lookup_insert_word]
    by_cases hw : w' = w
    · subst hw
      simp only [if_true, true_and]
      cases hl : lookup (bucket h (find_index w')) w' with
      | none =>
        by_cases hf : f' = f
        · subst hf
          simp [sub_count, create_sub_node_plain]
        · have hne : ¬ f = f' := fun e => hf e.symm
          simp [sub_count, create_sub_node_plain, hf, hne]
      | some m =>
        simp only
        exact sub_count_update_main m f f'
    · simp only [hw, if_false, false_and, add_zero]
  · have hw : ¬ w' = w := fun e => hi (by rw [e])
    simp only [hi, false_and, if_false, hw, add_zero]

/-! ## The functions of `create_database` and their values without the capacities -/

@[simp] theorem Outcome.bind_ok {α β : Type} (a : α) (f : α → Outcome β) :
    Outcome.bind (Outcome.ok a) f = f a := rfl

@[simp] theorem Outcome.bind_undefined {α β : Type} (f : α → Outcome β) :
    Outcome.bind (Outcome.undefined : Outcome α) f = Outcome.undefined := rfl

@[simp] theorem Outcome.bind_out_of_fuel {α β : Type} (f : α → Outcome β) :
    Outcome.bind (Outcome.out_of_fuel : Outcome α) f = Outcome.out_of_fuel := rfl

theorem create_main_node_eq (word : Str) (hw : word.length < WORD_SIZE) :
    create_main_node word = Outcome.ok (create_main_node_plain word) := by
  simp [create_main_node, create_main_node_plain, hw]

theorem create_sub_node_eq (f : Str) (hf : f.length < FILE_SIZE) :
    create_sub_node f = Outcome.ok (create_sub_node_plain f) := by
  simp [create_sub_node, create_sub_node_plain, hf]

theorem incr_sub_eq (subs : List Sub_node) (f : Str)
    (hs : ∀ s ∈ subs, s.word_count < INT_MAX) :
    incr_sub subs f = Outcome.ok (incr_sub_plain subs f) := by
  induction subs with
  | nil => rfl
  | cons s rest ih =>
    unfold incr_sub incr_sub_plain
    by_cases hf : s.file_name = f
    · rw [if_pos hf, if_pos hf, if_pos (hs s (List.mem_cons_self _ _))]
    · rw [if_neg hf, if_neg hf, ih (fun t ht => hs t (List.mem_cons_of_mem _ ht))]
      rfl

theorem update_main_eq (m : Main_node) (f : Str) (n : Int) (hf : f.length < FILE_SIZE)
    (hn : n < INT_MAX) (hm : Below n m) :
    update_main m f = Outcome.ok (update_main_plain m f) := by
  unfold update_main update_main_plain
  split
  · rw [incr_sub_eq _ _ (fun s hs => lt_of_le_of_lt (hm.2 s hs) hn)]
    rfl
  · rw [create_sub_node_eq f hf]
    simp only [Outcome.bind_ok]
    rw [if_pos (lt_of_le_of_lt hm.1 hn)]

theorem insert_word_eq (chain : List Main_node) (w f : Str) (n : Int)
    (hw : w.length < WORD_SIZE) (hf : f.length < FILE_SIZE) (hn : n < INT_MAX)
    (hc : ∀ m ∈ chain, Below n m) :
    insert_word chain w f = Outcome.ok (insert_word_plain chain w f) := by
  induction chain with
  | nil =>
    unfold insert_word insert_word_plain
    rw [create_main_node_eq w hw, create_sub_node_eq f hf]
    rfl
  | cons m rest ih =>
    unfold insert_word insert_word_plain
    by_cases hwm : w = m.word
    · rw [if_pos hwm, if_pos hwm, update_main_eq m f n hf hn (hc m (List.mem_cons_self _ _))]
      rfl
    · rw [if_neg hwm, if_neg hwm, ih (fun x hx => hc x (List.mem_cons_of_mem _ hx))]
      rfl

theorem store_word_eq (h : List Hash_t) (f w : Str) (n : Int)
    (hw : w.length < WORD_SIZE) (hf : f.length < FILE_SIZE) (hn : n < INT_MAX)
    (hb : AllNodes (Below n) h) :
    store_word h f w = Outcome.ok (store_word_plain h f w) := by
  unfold store_word store_word_plain
  simp only
  rw [insert_word_eq _ w f n hw hf hn (fun m hm => hb _ m hm)]
  rfl

theorem below_mono {n k : Int} (hnk : n ≤ k) {m : Main_node} (hm : Below n m) : Below k m :=
  ⟨le_trans hm.1 hnk, fun s hs => le_trans (hm.2 s hs) hnk⟩

theorem below_update_main (m : Main_node) (f : Str) (n : Int) (h0 : 0 ≤ n) (hm : Below n m) :
    Below (n + 1) (update_main_plain m f) := by
  unfold update_main_plain
  split
  · refine ⟨le_trans hm.1 (by omega), ?_⟩
    intro s hs
    simp only at hs
    rcases mem_incr_sub hs with h1 | ⟨s0, hs0, he⟩
    · exact le_trans (hm.2 s h1) (by omega)
    · rw [he]
      have := hm.2 s0 hs0
      simp only
      omega
  · refine ⟨by simp only; have := hm.1; omega, ?_⟩
    intro s hs
    simp only [List.mem_append, List.mem_singleton] at hs
    rcases hs with h1 | h1
    · exact le_trans (hm.2 s h1) (by omega)
    · rw [h1]
      simp only [create_sub_node_plain]
      omega

theorem below_store_word (h : List Hash_t) (f w : Str) (n : Int) (h0 : 0 ≤ n)
    (hb : AllNodes (Below n) h) : AllNodes (Below (n + 1)) (store_word_plain h f w) := by
  intro i m hm
  rw [bucket_store_word] at hm
  split at hm
  · rcases mem_insert_word hm with h1 | ⟨m0, hm0, _, he⟩ | h3
    · exact below_mono (by omega) (hb i m h1)
    · rw [he]
      exact below_update_main m0 f n h0 (hb i m0 hm0)
    · rw [h3]
      refine ⟨by simp only; omega, ?_⟩
      intro s hs
      simp only [List.mem_singleton] at hs
      rw [hs]
      simp only [create_sub_node_plain]
      omega
  · exact below_mono (by omega) (hb i m hm)

/-! ## Every defined result is the value without the capacities -/

theorem create_main_node_cases (word : Str) :
    create_main_node word = Outcome.undefined ∨
      create_main_node word = Outcome.ok (create_main_node_plain word) := by
  unfold create_main_node create_main_node_plain
  split
  · exact Or.inr rfl
  · exact Or.inl rfl

theorem create_sub_node_cases (f : Str) :
    create_sub_node f = Outcome.undefined ∨
      create_sub_node f = Outcome.ok (create_sub_node_plain f) := by
  unfold create_sub_node create_sub_node_plain
  split
  · exact Or.inr rfl
  · exact Or.inl rfl

theorem incr_sub_cases (subs : List Sub_node) (f : Str) :
    incr_sub subs f = Outcome.undefined ∨
      incr_sub subs f = Outcome.ok (incr_sub_plain subs f) := by
  induction subs with
  | nil => exact Or.inr rfl
  | cons s rest ih =>
    unfold incr_sub incr_sub_plain
    by_cases hf : s.file_name = f
    · rw [if_pos hf, if_pos hf]
      split
      · exact Or.inr rfl
      · exact Or.inl rfl
    · rw [if_neg hf, if_neg hf]
      rcases ih with h | h
      · rw [h]
        exact Or.inl rfl
      · rw [h]
        exact Or.inr rfl

theorem update_main_cases (m : Main_node) (f : Str) :
    update_main m f = Outcome.undefined ∨
      update_main m f = Outcome.ok (update_main_plain m f) := by
  unfold update_main update_main_plain
  split
  · rcases incr_sub_cases m.s_link f with h | h
    · rw [h]
      exact Or.inl rfl
    · rw [h]
      exact Or.inr rfl
  · rcases create_sub_node_cases f with h | h
    · rw [h]
      exact Or.inl rfl
    · rw [h]
      simp only [Outcome.bind_ok]
      split
      · exact Or.inr rfl
      · exact Or.inl rfl

theorem insert_word_cases (chain : List Main_node) (w f : Str) :
    insert_word chain w f = Outcome.undefined ∨
      insert_word chain w f = Outcome.ok (insert_word_plain chain w f) := by
  induction chain with
  | nil =>
    unfold insert_word insert_word_plain
    rcases create_main_node_cases w with h | h
    · rw [h]
      exact Or.inl rfl
    · rw [h]
      rcases create_sub_node_cases f with h2 | h2
      · rw [h2]
        exact Or.inl rfl
      · rw [h2]
        exact Or.inr rfl
  | cons m rest ih =>
    unfold insert_word insert_word_plain
    by_cases hwm : w = m.word
    · rw [if_pos hwm, if_pos hwm]
      rcases update_main_cases m f with h | h
      · rw [h]
        exact Or.inl rfl
      · rw [h]
        exact Or.inr rfl
    · rw [if_neg hwm, if_neg hwm]
      rcases ih with h | h
      · rw [h]
        exact Or.inl rfl
      · rw [h]
        exact Or.inr rfl

theorem store_word_cases (h : List Hash_t) (f w : Str) :
    store_word h f w = Outcome.undefined ∨
      store_word h f w = Outcome.ok (store_word_plain h f w) := by
  unfold store_word store_word_plain
  simp only
  rcases insert_word_cases (bucket h (find_index w)) w f with hc | hc
  · rw [hc]
    exact Or.inl rfl
  · rw [hc]
    exact Or.inr rfl

/-! ## `create_database_plain` as a fold over the words read -/

theorem index_file_eq (h : List Hash_t) (f : Str) (ws : List Str) :
    index_file_plain h f ws = store_all h (ws.map (fun w => (f, w))) := by
  simp [index_file_plain, store_all, List.foldl_map]

theorem store_all_append (h : List Hash_t) (s1 s2 : List (Str × Str)) :
    store_all h (s1 ++ s2) = store_all (store_all h s1) s2 := by
  simp [store_all, List.foldl_append]

theorem create_database_eq (h : List Hash_t) (head : File_list) (fs : FileSys) :
    create_database_plain h head fs = (Status.SUCCESS, store_all h (word_stream head fs)) := by
  induction head generalizing h with
  | nil => simp [create_database_plain, word_stream, store_all]
  | cons f rest ih =>
    unfold create_database_plain
    have hts : word_stream (f :: rest) fs =
        (match fopen_r fs f with
          | some content => (file_words_plain content).map (fun w => (f, w))
          | none => []) ++ word_stream rest fs := by
      simp [word_stream]
    rw [hts, store_all_append]
    cases hopen : fopen_r fs f with
    | none =>
      simp only
      rw [ih]
      simp [store_all]
    | some content =>
      simp only
      rw [ih, index_file_eq]

theorem buildInv_store_all (h : List Hash_t) (st : List (Str × Str)) (hinv : BuildInv h) :
    BuildInv (store_all h st) := by
  induction st generalizing h with
  | nil => simpa [store_all] using hinv
  | cons p rest ih =>
    have : store_all h (p :: rest) = store_all (store_word_plain h p.1 p.2) rest := by
      simp [store_all]
    rw [this]
    exact ih _ (buildInv_store_word h p.1 p.2 hinv)

theorem length_store_all (h : List Hash_t) (st : List (Str × Str)) :
    (store_all h st).length = h.length := by
  induction st generalizing h with
  | nil => simp [store_all]
  | cons p rest ih =>
    have : store_all h (p :: rest) = store_all (store_word_plain h p.1 p.2) rest := by
      simp [store_all]
    rw [this, ih, length_store_word]

theorem count_of_store_all (h : List Hash_t) (st : List (Str × Str)) (w f : Str)
    (hlen : h.length = HASH_SIZE) :
    count_of (store_all h st) w f = count_of h w f + (st.count (f, w) : Int) := by
  induction st generalizing h with
  | nil => simp [store_all]
  | cons p rest ih =>
    have : store_all h (p :: rest) = store_all (store_word_plain h p.1 p.2) rest := by
      simp [store_all]
    rw [this, ih _ (by rw [length_store_word]; exact hlen), count_of_store_word h p.1 p.2 w f hlen]
    rw [List.count_cons]
    by_cases hp : w = p.2 ∧ f = p.1
    · have hpe : (p == (f, w)) = true := by
        rcases p with ⟨a, b⟩
        simp only at hp
        rw [hp.1, hp.2]
        exact beq_self_eq_true _
      rw [if_pos hp, if_pos hpe]
      push_cast
      omega
    · have hpe : ¬ (p == (f, w)) = true := by
        intro e
        have e2 : p = (f, w) := eq_of_beq e
        apply hp
        rw [e2]
        exact ⟨rfl, rfl⟩
      rw [if_neg hp, if_neg hpe]
      omega

theorem count_of_initialise_hash (w f : Str) : count_of initialise_hash w f = 0 := by
  simp [count_of, bucket_initialise_hash, lookup]

theorem count_map_pair (ws : List Str) (g f w : Str) :
    (ws.map (fun x => (g, x))).count (f, w) = if g = f then ws.count w else 0 := by
  induction ws with
  | nil => simp
  | cons a rest ih =>
    rw [List.map_cons, List.count_cons, ih, List.count_cons]
    by_cases hg : g = f
    · subst hg
      by_cases ha : a = w
      · simp [ha]
      · simp [ha]
    · simp [hg]

theorem count_word_stream (head : File_list) (fs : FileSys) (f w : Str) :
    (word_stream head fs).count (f, w) =
      head.count f * (match fopen_r fs f with
        | some content => (file_words_plain content).count w
        | none => 0) := by
  induction head with
  | nil => simp [word_stream]
  | cons g rest ih =>
    have hts : word_stream (g :: rest) fs =
        (match fopen_r fs g with
          | some content => (file_words_plain content).map (fun w => (g, w))
          | none => []) ++ word_stream rest fs := by
      simp [word_stream]
    rw [hts, List.count_append, ih, List.count_cons]
    by_cases hg : g = f
    · subst hg
      cases hopen : fopen_r fs g with
      | none => simp
      | some content =>
        simp only [count_map_pair, if_true, beq_self_eq_true]
        ring
    · have hgf : (g == f) = false := by simpa using hg
      cases hopen : fopen_r fs g with
      | none => simp [hgf]
      | some content => simp [count_map_pair, hg, hgf]

theorem mem_word_stream (head : File_list) (fs : FileSys) (f w : Str) :
    (f, w) ∈ word_stream head fs ↔ f ∈ head ∧ file_has_word fs w f = true := by
  unfold word_stream file_has_word
  rw [List.mem_flatMap]
  constructor
  · rintro ⟨g, hg, hmem⟩
    cases hopen : fopen_r fs g with
    | none => rw [hopen] at hmem; simp at hmem
    | some content =>
      rw [hopen] at hmem
      simp only [List.mem_map, Prod.mk.injEq] at hmem
      rcases hmem with ⟨x, hx, hgf, hxw⟩
      subst hgf
      subst hxw
      rw [hopen]
      exact ⟨hg, by simpa using hx⟩
  · rintro ⟨hf, hw⟩
    refine ⟨f, hf, ?_⟩
    cases hopen : fopen_r fs f with
    | none => rw [hopen] at hw; simp at hw
    | some content =>
      rw [hopen] at hw
      simp only [decide_eq_true_eq] at hw
      exact List.mem_map.2 ⟨w, hw, rfl⟩

/-! ## Reading the index under the build invariant -/

theorem lookup_of_mem (h : List Hash_t) (hinv : BuildInv h) (i : Nat) (m : Main_node)
    (hm : m ∈ bucket h i) : lookup (bucket h (find_index m.word)) m.word = some m := by
  have hi : find_index m.word = i := hinv.placed i m hm
  rw [hi]
  exact find?_of_mem_nodup (fun x : Main_node => x.word) (bucket h i) (hinv.words i) m hm

theorem count_of_sub (h : List Hash_t) (hinv : BuildInv h) (i : Nat) (m : Main_node)
    (hm : m ∈ bucket h i) (s : Sub_node) (hs : s ∈ m.s_link) :
    count_of h m.word s.file_name = s.word_count := by
  unfold count_of
  rw [lookup_of_mem h hinv i m hm]
  simp only
  unfold sub_count
  rw [find?_of_mem_nodup (fun x : Sub_node => x.file_name) m.s_link (hinv.names i m hm) s hs]

theorem exists_of_count_of_pos (h : List Hash_t) (w f : Str) (hpos : 1 ≤ count_of h w f) :
    ∃ m, lookup (bucket h (find_index w)) w = some m ∧
      ∃ s, m.s_link.find? (fun s => decide (s.file_name = f)) = some s ∧
        s.word_count = count_of h w f := by
  unfold count_of at hpos ⊢
  cases hl : lookup (bucket h (find_index w)) w with
  | none => rw [hl] at hpos; simp at hpos
  | some m =>
    rw [hl] at hpos
    simp only at hpos ⊢
    refine ⟨m, rfl, ?_⟩
    unfold sub_count at hpos ⊢
    cases hfind : m.s_link.find? (fun s => decide (s.file_name = f)) with
    | none => rw [hfind] at hpos; simp at hpos
    | some s => exact ⟨s, rfl, rfl⟩

theorem mem_names_iff (h : List Hash_t) (hinv : BuildInv h) (i : Nat) (m : Main_node)
    (hm : m ∈ bucket h i) (f : Str) :
    f ∈ m.s_link.map (fun s => s.file_name) ↔ 1 ≤ count_of h m.word f := by
  constructor
  · intro hf
    rcases List.mem_map.1 hf with ⟨s, hs, hsf⟩
    rw [← hsf, count_of_sub h hinv i m hm s hs]
    exact hinv.positive i m hm s hs
  · intro hpos
    rcases exists_of_count_of_pos h m.word f hpos with ⟨m', hl, s, hfind, _⟩
    rw [lookup_of_mem h hinv i m hm] at hl
    simp only [Option.some.injEq] at hl
    subst hl
    have h1 := List.find?_some hfind
    simp only [decide_eq_true_eq] at h1
    exact List.mem_map.2 ⟨s, List.mem_of_find?_eq_some hfind, h1⟩

/-- The counts recorded in an index built from the empty index. -/
theorem count_of_create_database (head : File_list) (fs : FileSys) (w f : Str) :
    count_of (create_database_plain initialise_hash head fs).2 w f =
      ((word_stream head fs).count (f, w) : Int) := by
  rw [create_database_eq]
  simp only
  rw [count_of_store_all _ _ _ _ length_initialise_hash, count_of_initialise_hash]
  simp

theorem buildInv_create_database (head : File_list) (fs : FileSys) :
    BuildInv (create_database_plain initialise_hash head fs).2 := by
  rw [create_database_eq]
  exact buildInv_store_all _ _ buildInv_initialise_hash

/-! ## Printing and scanning a number -/

theorem isdigit_digit_char (d : Nat) (hd : d < 10) : isdigit (digit_char d) = true := by
  interval_cases d <;> decide

theorem toNat_digit_char (d : Nat) (hd : d < 10) : (digit_char d).toNat - 48 = d := by
  interval_cases d <;> decide

theorem digits_value_append (ds es : Str) (acc : Nat) :
    digits_value (ds ++ es) acc = digits_value es (digits_value ds acc) := by
  simp [digits_value, List.foldl_append]

theorem print_nat_aux_spec (fuel n : Nat) (acc : Str) (hn : n < fuel) :
    ∃ ds : Str, print_nat_aux fuel n acc = ds ++ acc ∧ ds ≠ [] ∧
      (∀ c ∈ ds, isdigit c = true) ∧ digits_value ds 0 = n := by
  induction fuel generalizing n acc with
  | zero => omega
  | succ fuel ih =>
    unfold print_nat_aux
    by_cases h10 : n < 10
    · refine ⟨[digit_char n], by simp [h10], by simp, ?_, ?_⟩
      · intro c hc
        simp only [List.mem_singleton] at hc
        rw [hc]
        exact isdigit_digit_char n h10
      · simp [digits_value, toNat_digit_char n h10]
    · have hlt : n / 10 < fuel := by omega
      rcases ih (n / 10) (digit_char (n % 10) :: acc) hlt with ⟨ds, he, _, hall, hval⟩
      have hmod : n % 10 < 10 := Nat.mod_lt _ (by omega)
      refine ⟨ds ++ [digit_char (n % 10)], by simp [h10, he], by simp, ?_, ?_⟩
      · intro c hc
        simp only [List.mem_append, List.mem_singleton] at hc
        rcases hc with hc | hc
        · exact hall c hc
        · rw [hc]
          exact isdigit_digit_char _ hmod
      · rw [digits_value_append, hval]
        simp only [digits_value, List.foldl_cons, List.foldl_nil, toNat_digit_char _ hmod]
        omega

theorem print_nat_spec (n : Nat) :
    print_nat n ≠ [] ∧ (∀ c ∈ print_nat n, isdigit c = true) ∧ digits_value (print_nat n) 0 = n := by
  rcases print_nat_aux_spec (n + 1) n [] (by omega) with ⟨ds, he, hne, hall, hval⟩
  have : print_nat n = ds := by simpa [print_nat] using he
  rw [this]
  exact ⟨hne, hall, hval⟩

theorem scan_digits_append (ds rest : Str) (acc : Nat) (hall : ∀ c ∈ ds, isdigit c = true)
    (hrest : ∀ c, rest.head? = some c → isdigit c = false) :
    scan_digits (ds ++ rest) acc = (digits_value ds acc, rest) := by
  induction ds generalizing acc with
  | nil =>
    cases rest with
    | nil => simp [scan_digits, digits_value]
    | cons c rest =>
      have := hrest c (by simp)
      simp [scan_digits, digits_value, this]
  | cons d ds ih =>
    have hd : isdigit d = true := hall d (by simp)
    have hds : ∀ c ∈ ds, isdigit c = true := fun c hc => hall c (by simp [hc])
    rw [List.cons_append]
    unfold scan_digits
    rw [if_pos hd, ih _ hds]
    simp [digits_value]

theorem not_isspace_of_isdigit (c : Char) (h : isdigit c = true) : isspace c = false := by
  unfold isdigit at h
  unfold isspace
  simp only [decide_eq_true_eq] at h
  have h1 : c ≠ ' ' := by rintro rfl; revert h; decide
  have h2 : c ≠ '\t' := by rintro rfl; revert h; decide
  have h3 : c ≠ '\n' := by rintro rfl; revert h; decide
  have h4 : c ≠ '\x0b' := by rintro rfl; revert h; decide
  have h5 : c ≠ '\x0c' := by rintro rfl; revert h; decide
  have h6 : c ≠ '\r' := by rintro rfl; revert h; decide
  simp [h1, h2, h3, h4, h5, h6]

theorem not_sign_of_isdigit (c : Char) (h : isdigit c = true) : c ≠ '-' ∧ c ≠ '+' := by
  unfold isdigit at h
  simp only [decide_eq_true_eq] at h
  constructor
  · rintro rfl; revert h; decide
  · rintro rfl; revert h; decide

theorem scan_number_print_nat (neg : Bool) (n : Nat) (rest : Str)
    (hrest : ∀ c, rest.head? = some c → isdigit c = false) :
    scan_number neg (print_nat n ++ rest) =
      (some (if neg then -(n : Int) else (n : Int)), rest) := by
  rcases print_nat_spec n with ⟨hne, hall, hval⟩
  cases hp : print_nat n with
  | nil => exact absurd hp hne
  | cons d ds =>
    have hd : isdigit d = true := hall d (by rw [hp]; simp)
    have hsd := scan_digits_append (print_nat n) rest 0 hall hrest
    rw [hp] at hsd
    simp only [List.cons_append] at hsd
    simp only [List.cons_append, scan_number, hd, if_true, hsd]
    rw [← hp, hval]

/-- Scanning with `%d` what `%d` printed gives the number back, when a character that
is no digit follows. -/
theorem scan_d_print_d (n : Int) (rest : Str)
    (hrest : ∀ c, rest.head? = some c → isdigit c = false) :
    match_d (print_d n ++ rest) = (some n, rest) := by
  rcases print_nat_spec n.natAbs with ⟨hne, hall, _⟩
  unfold match_d print_d
  by_cases hneg : n < 0
  · simp only [hneg, if_true, List.cons_append]
    have hsp : isspace '-' = false := by decide
    rw [List.dropWhile_cons]
    simp only [hsp, Bool.false_eq_true, if_false, if_true]
    rw [scan_number_print_nat true n.natAbs rest hrest]
    simp only [if_true]
    congr 2
    omega
  · simp only [hneg, if_false]
    cases hp : print_nat n.natAbs with
    | nil => exact absurd hp hne
    | cons d ds =>
      have hd : isdigit d = true := hall d (by rw [hp]; simp)
      have hsp := not_isspace_of_isdigit d hd
      have hsign := not_sign_of_isdigit d hd
      simp only [List.cons_append]
      rw [List.dropWhile_cons]
      simp only [hsp, Bool.false_eq_true, if_false, hsign.1, hsign.2]
      have := scan_number_print_nat false n.natAbs rest hrest
      rw [hp] at this
      simp only [List.cons_append] at this
      rw [this]
      simp only [Bool.false_eq_true, if_false]
      congr 2
      omega

theorem print_d_chars (n : Int) (c : Char) (hc : c ∈ print_d n) : c = '-' ∨ isdigit c = true := by
  rcases print_nat_spec n.natAbs with ⟨_, hall, _⟩
  unfold print_d at hc
  split at hc
  · simp only [List.mem_cons] at hc
    rcases hc with h | h
    · exact Or.inl h
    · exact Or.inr (hall c h)
  · exact Or.inr (hall c hc)

theorem print_d_ne_nil (n : Int) : print_d n ≠ [] := by
  rcases print_nat_spec n.natAbs with ⟨hne, _, _⟩
  unfold print_d
  split
  · simp
  · exact hne

/-! ## `validate_file_extension` -/

theorem strrchr_suffix (s : Str) (c : Char) (t : Str) (h : strrchr s c = some t) : t <:+ s := by
  induction s with
  | nil => simp [strrchr] at h
  | cons x rest ih =>
    unfold strrchr at h
    cases hr : strrchr rest c with
    | some t' =>
      rw [hr] at h
      simp only [Option.some.injEq] at h
      subst h
      exact (ih hr).trans (List.suffix_cons x rest)
    | none =>
      rw [hr] at h
      simp only at h
      split at h
      · simp only [Option.some.injEq] at h
        rw [← h]
      · exact absurd h (by simp)

theorem strrchr_append_txt (p : Str) :
    strrchr (p ++ ['.', 't', 'x', 't']) '.' = some ['.', 't', 'x', 't'] := by
  induction p with
  | nil => decide
  | cons x rest ih =>
    rw [List.cons_append]
    unfold strrchr
    rw [ih]

/-- The function `validate_file_extension` succeeds exactly on the names that end in ".txt". -/
theorem validate_file_extension_iff (s : Str) :
    validate_file_extension s = Status.SUCCESS ↔ ['.', 't', 'x', 't'] <:+ s := by
  unfold validate_file_extension
  constructor
  · intro h
    cases hr : strrchr s '.' with
    | none => rw [hr] at h; exact absurd h (by simp)
    | some dot =>
      rw [hr] at h
      simp only at h
      split at h
      · rename_i hd
        rw [← hd]
        exact strrchr_suffix s '.' dot hr
      · exact absurd h (by simp)
  · rintro ⟨p, hp⟩
    rw [← hp, strrchr_append_txt]
    simp

theorem validate_file_extension_cases (s : Str) :
    validate_file_extension s = Status.SUCCESS ∨ validate_file_extension s = Status.FAILURE := by
  unfold validate_file_extension
  split
  · exact Or.inr rfl
  · split
    · exact Or.inl rfl
    · exact Or.inr rfl

/-! ## `save_database` -/

theorem write_subs_eq (out : Str) (subs : List Sub_node) :
    write_subs out subs =
      out ++ subs.flatMap (fun s => s.file_name ++ [';'] ++ print_d s.word_count ++ [';']) := by
  induction subs generalizing out with
  | nil => simp [write_subs]
  | cons s rest ih =>
    unfold write_subs
    rw [ih]
    simp [List.flatMap_cons]

theorem write_mains_eq (i : Nat) (out : Str) (chain : List Main_node) :
    write_mains i out chain = out ++ chain.flatMap (record_line i) := by
  induction chain generalizing out with
  | nil => simp [write_mains]
  | cons m rest ih =>
    unfold write_mains
    simp only [write_subs_eq, ih, List.flatMap_cons, record_line]
    simp [List.append_assoc]

theorem foldl_write_mains (h : List Hash_t) (l : List Nat) (out : Str) :
    l.foldl (fun out i => write_mains i out (bucket h i)) out =
      out ++ records_text (l.flatMap (fun i => (bucket h i).map (fun m => (i, m)))) := by
  induction l generalizing out with
  | nil => simp [records_text]
  | cons i rest ih =>
    have hmap : ∀ ms : List Main_node,
        records_text (ms.map (fun m => (i, m))) = ms.flatMap (record_line i) := by
      intro ms
      induction ms with
      | nil => simp [records_text]
      | cons m ms ihm =>
        unfold records_text at ihm ⊢
        simp [List.flatMap_cons, ihm]
    rw [List.foldl_cons, ih, write_mains_eq, List.flatMap_cons]
    have happ : ∀ a b : List (Nat × Main_node),
        records_text (a ++ b) = records_text a ++ records_text b := by
      intro a b
      simp [records_text, List.flatMap_append]
    rw [happ, hmap, List.append_assoc]

/-- What `save_database` prints is the concatenation of the records of the index. -/
theorem save_text_eq (h : List Hash_t) : save_text h = records_text (all_records h) := by
  unfold save_text all_records
  rw [foldl_write_mains]
  simp

theorem count_newline_print_d (n : Int) : (print_d n).count '\n' = 0 := by
  apply List.count_eq_zero.2
  intro hmem
  rcases print_d_chars n '\n' hmem with h | h
  · revert h; decide
  · revert h; decide

theorem count_newline_record_line (i : Nat) (m : Main_node) (hw : '\n' ∉ m.word)
    (hs : ∀ s ∈ m.s_link, '\n' ∉ s.file_name) : (record_line i m).count '\n' = 1 := by
  have hsubs : (m.s_link.flatMap
      (fun s => s.file_name ++ [';'] ++ print_d s.word_count ++ [';'])).count '\n' = 0 := by
    apply List.count_eq_zero.2
    intro hmem
    rcases List.mem_flatMap.1 hmem with ⟨s, hsm, hc⟩
    simp only [List.mem_append, List.mem_singleton] at hc
    rcases hc with ((hc | hc) | hc) | hc
    · exact hs s hsm hc
    · revert hc; decide
    · have := List.count_eq_zero.1 (count_newline_print_d s.word_count)
      exact this hc
    · revert hc; decide
  unfold record_line
  simp only [List.count_append, hsubs, count_newline_print_d, List.count_eq_zero.2 hw]
  decide

theorem count_newline_records_text (rs : List (Nat × Main_node))
    (hrs : ∀ r ∈ rs, '\n' ∉ r.2.word ∧ ∀ s ∈ r.2.s_link, '\n' ∉ s.file_name) :
    (records_text rs).count '\n' = rs.length := by
  induction rs with
  | nil => simp [records_text]
  | cons r rest ih =>
    have h1 := hrs r (by simp)
    have h2 : ∀ r' ∈ rest, '\n' ∉ r'.2.word ∧ ∀ s ∈ r'.2.s_link, '\n' ∉ s.file_name :=
      fun r' hr' => hrs r' (by simp [hr'])
    have ih' := ih h2
    unfold records_text at ih' ⊢
    rw [List.flatMap_cons, List.count_append, ih', count_newline_record_line r.1 r.2 h1.1 h1.2]
    simp
    omega

theorem save_database_ok (h : List Hash_t) (path : Str) (fs : FileSys)
    (hext : validate_file_extension path = Status.SUCCESS) (hw : fs.writable path = true) :
    save_database h path fs =
      Outcome.ok (Status.SUCCESS, h, fs.write path (records_text (all_records h))) := by
  unfold save_database
  rw [hext, save_text_eq]
  simp [hw]

/-! ## The loops of the embedding have enough fuel -/

theorem match_char_length (c : Char) (inp r : Str) (h : match_char c inp = some r) :
    r.length + 1 = inp.length := by
  unfold match_char at h
  cases inp with
  | nil => simp at h
  | cons x rest =>
    simp only at h
    split at h
    · simp only [Option.some.injEq] at h
      rw [h]
      simp
    · simp at h

theorem skip_char_length (c : Char) (inp : Str) : (skip_char c inp).length ≤ inp.length := by
  unfold skip_char
  cases h : match_char c inp with
  | none => simp
  | some r =>
    have := match_char_length c inp r h
    simp only
    omega

theorem scan_digits_length (inp : Str) (acc : Nat) :
    (scan_digits inp acc).2.length ≤ inp.length := by
  induction inp generalizing acc with
  | nil => simp [scan_digits]
  | cons c rest ih =>
    unfold scan_digits
    split
    · have := ih (acc * 10 + (c.toNat - 48))
      simp only [List.length_cons]
      omega
    · simp

theorem scan_number_length (neg : Bool) (inp : Str) :
    (scan_number neg inp).2.length ≤ inp.length := by
  unfold scan_number
  cases inp with
  | nil => simp
  | cons c rest =>
    simp only
    split
    · exact scan_digits_length (c :: rest) 0
    · simp

theorem scan_d_length (inp : Str) : (match_d inp).2.length ≤ inp.length := by
  have hsuf := (List.dropWhile_suffix (l := inp) isspace).length_le
  unfold match_d
  cases hd : inp.dropWhile isspace with
  | nil => simp
  | cons c rest =>
    rw [hd] at hsuf
    simp only [List.length_cons] at hsuf
    simp only
    split
    · have := scan_number_length true rest
      omega
    · split
      · have := scan_number_length false rest
        omega
      · have := scan_number_length false (c :: rest)
        simp only [List.length_cons] at this
        omega

theorem scan_not_semicolon_length (inp w r : Str) (h : scan_not_semicolon_plain inp = some (w, r)) :
    r.length ≤ inp.length := by
  unfold scan_not_semicolon_plain at h
  simp only at h
  split at h
  · simp at h
  · simp only [Option.some.injEq, Prod.mk.injEq] at h
    rw [← h.2]
    exact (List.dropWhile_suffix _).length_le

theorem fscanf_header_length (inp : Str) (index : Int) (word : Str) (file_count : Int) (r : Str)
    (h : fscanf_header_plain inp = some (index, word, file_count, r)) : r.length < inp.length := by
  unfold fscanf_header_plain at h
  cases h1 : match_char '#' inp with
  | none => rw [h1] at h; simp at h
  | some r1 =>
    rw [h1] at h
    simp only at h
    have l1 := match_char_length _ _ _ h1
    have l2 := scan_d_length r1
    cases h2 : match_d r1 with
    | mk o2 r2 =>
      rw [h2] at h l2
      simp only at l2
      cases o2 with
      | none => simp at h
      | some idx =>
        simp only at h
        cases h3 : match_char ';' r2 with
        | none => rw [h3] at h; simp at h
        | some r3 =>
          rw [h3] at h
          simp only at h
          have l3 := match_char_length _ _ _ h3
          cases h4 : scan_not_semicolon_plain r3 with
          | none => rw [h4] at h; simp at h
          | some p4 =>
            rcases p4 with ⟨w4, r4⟩
            rw [h4] at h
            simp only at h
            have l4 := scan_not_semicolon_length _ _ _ h4
            cases h5 : match_char ';' r4 with
            | none => rw [h5] at h; simp at h
            | some r5 =>
              rw [h5] at h
              simp only at h
              have l5 := match_char_length _ _ _ h5
              have l6 := scan_d_length r5
              cases h6 : match_d r5 with
              | mk o6 r6 =>
                rw [h6] at h l6
                simp only at l6
                cases o6 with
                | none => simp at h
                | some fc =>
                  simp only [Option.some.injEq, Prod.mk.injEq] at h
                  have l7 := skip_char_length ';' r6
                  rw [← h.2.2.2]
                  omega

theorem fscanf_pair_length (fn : Str) (wc : Int) (inp : Str) :
    (fscanf_pair_plain fn wc inp).2.2.length ≤ inp.length := by
  unfold fscanf_pair_plain
  cases h1 : scan_not_semicolon_plain inp with
  | none => simp
  | some p1 =>
    rcases p1 with ⟨s, r1⟩
    have l1 := scan_not_semicolon_length _ _ _ h1
    simp only
    cases h2 : match_char ';' r1 with
    | none => simpa using l1
    | some r2 =>
      have l2 := match_char_length _ _ _ h2
      have l3 := scan_d_length r2
      simp only
      cases h3 : match_d r2 with
      | mk o3 r3 =>
        rw [h3] at l3
        simp only at l3
        cases o3 with
        | none =>
          simp only
          omega
        | some n =>
          have l4 := skip_char_length ';' r3
          simp only
          omega

theorem read_pairs_length (n : Nat) (fn : Str) (wc : Int) (inp : Str) (head : File_list)
    (subs : List Sub_node) (log : List Str) :
    (read_pairs_plain n fn wc inp head subs log).1.length ≤ inp.length := by
  induction n generalizing fn wc inp head subs log with
  | zero => simp [read_pairs_plain]
  | succ n ih =>
    unfold read_pairs_plain
    have l1 := fscanf_pair_length fn wc inp
    exact Nat.le_trans (ih _ _ _ _ _ _) l1

theorem fscanf_close_length (inp : Str) : (fscanf_close inp).length ≤ inp.length := by
  unfold fscanf_close
  cases h : match_char '#' inp with
  | none => simp
  | some r =>
    have l1 := match_char_length _ _ _ h
    have l2 := (List.dropWhile_suffix (l := r) isspace).length_le
    simp only
    omega

/-- The loop of `update_database_plain` ends before the fuel does: every record that is read
consumes at least its `#`. -/
theorem update_loop_plain_fuel (junk : Nat → Str × Int) (fuel k : Nat) (inp : Str) (h : List Hash_t)
    (head : File_list) (log : List Str) (hfuel : inp.length < fuel) :
    update_loop_plain junk fuel k inp h head log ≠ Outcome.out_of_fuel := by
  induction fuel generalizing k inp h head log with
  | zero => omega
  | succ fuel ih =>
    unfold update_loop_plain
    cases hh : fscanf_header_plain inp with
    | none => simp
    | some p =>
      rcases p with ⟨index, word, file_count, r⟩
      simp only
      split
      · simp
      · have l1 := fscanf_header_length _ _ _ _ _ hh
        apply ih
        have l2 := read_pairs_length file_count.toNat (junk k).1 (junk k).2 r head [] log
        have l3 := fscanf_close_length
          (read_pairs_plain file_count.toNat (junk k).1 (junk k).2 r head [] log).1
        omega

/-- The function `update_database_plain` returns, unless it indexes `hash_array` out of bounds. -/
theorem update_database_plain_fuel (junk : Nat → Str × Int) (h : List Hash_t) (backup : Str)
    (head : File_list) (fs : FileSys) :
    update_database_plain h backup head fs junk ≠ Outcome.out_of_fuel := by
  unfold update_database_plain
  split
  · simp
  · split
    · simp
    · rename_i content _
      split
      · simp
      · split
        · simp
        · have := update_loop_plain_fuel junk (content.length + 1) 0 content h head []
            (Nat.lt_succ_self _)
          split
          · simp
          · simp
          · rename_i he
            exact absurd he this

theorem fscanf_s_length (inp w rest : Str) (h : fscanf_s_plain inp = some (w, rest)) :
    rest.length < inp.length := by
  unfold fscanf_s_plain at h
  simp only at h
  split at h
  · simp at h
  · rename_i hne
    simp only [Option.some.injEq, Prod.mk.injEq] at h
    have l1 := (List.dropWhile_suffix (l := inp) isspace).length_le
    cases hd : inp.dropWhile isspace with
    | nil => exact absurd hd hne
    | cons c cs =>
      have hc : ¬ isspace c = true := by
        have := List.head_dropWhile_not isspace inp (by rw [hd]; simp)
        simpa [hd] using this
      rw [hd] at h l1
      rw [List.dropWhile_cons] at h
      simp only [Bool.not_eq_true] at hc
      simp only [hc, Bool.not_false, if_true] at h
      have l2 := (List.dropWhile_suffix (l := cs) (fun c => !isspace c)).length_le
      rw [← h.2]
      simp only [List.length_cons] at l1
      omega

/-- More fuel than the length of the stream does not change what `read_words_plain` reads. -/
theorem read_words_fuel (fuel : Nat) (inp : Str) (hfuel : inp.length < fuel) :
    read_words_plain fuel inp = read_words_plain (inp.length + 1) inp := by
  induction fuel using Nat.strong_induction_on generalizing inp with
  | _ fuel ih =>
    cases fuel with
    | zero => omega
    | succ fuel =>
      unfold read_words_plain
      cases hs : fscanf_s_plain inp with
      | none => simp
      | some p =>
        rcases p with ⟨w, rest⟩
        have l1 := fscanf_s_length _ _ _ hs
        simp only
        rw [ih fuel (Nat.lt_succ_self _) rest (by omega)]
        by_cases hlt : rest.length + 1 = inp.length
        · rw [hlt]
        · rw [ih inp.length (by omega) rest (by omega)]

/-! ## The functions of `update_database` and their values without the capacities -/

theorem scan_d_cases (inp : Str) :
    scan_d inp = Outcome.undefined ∨ scan_d inp = Outcome.ok (match_d inp) := by
  unfold scan_d
  cases hm : match_d inp with
  | mk v rest =>
    cases v with
    | none => exact Or.inr rfl
    | some v =>
      simp only
      split
      · exact Or.inr rfl
      · exact Or.inl rfl

theorem scan_d_eq (inp : Str) (v : Int) (rest : Str) (hm : match_d inp = (some v, rest))
    (hlo : INT_MIN ≤ v) (hhi : v ≤ INT_MAX) : scan_d inp = Outcome.ok (some v, rest) := by
  unfold scan_d
  rw [hm]
  simp only
  rw [if_pos ⟨hlo, hhi⟩]

/-- Scanning with `%d` what `%d` printed for an `int` gives the number back, when a
character that is no digit follows. -/
theorem scan_d_print_d_ok (n : Int) (rest : Str)
    (hrest : ∀ c, rest.head? = some c → isdigit c = false)
    (hlo : INT_MIN ≤ n) (hhi : n ≤ INT_MAX) :
    scan_d (print_d n ++ rest) = Outcome.ok (some n, rest) :=
  scan_d_eq _ n rest (scan_d_print_d n rest hrest) hlo hhi

theorem scan_not_semicolon_cases (inp : Str) :
    scan_not_semicolon inp = Outcome.undefined ∨
      scan_not_semicolon inp = Outcome.ok (scan_not_semicolon_plain inp) := by
  unfold scan_not_semicolon scan_not_semicolon_plain
  simp only
  split
  · exact Or.inr rfl
  · split
    · exact Or.inl rfl
    · exact Or.inr rfl

theorem fscanf_header_cases (inp : Str) :
    fscanf_header inp = Outcome.undefined ∨
      fscanf_header inp = Outcome.ok (fscanf_header_plain inp) := by
  unfold fscanf_header fscanf_header_plain
  cases match_char '#' inp with
  | none => exact Or.inr rfl
  | some r1 =>
    simp only
    rcases scan_d_cases r1 with h1 | h1
    · rw [h1]
      exact Or.inl rfl
    · rw [h1]
      simp only [Outcome.bind_ok]
      cases hd1 : match_d r1 with
      | mk v1 r2 =>
        cases v1 with
        | none => exact Or.inr rfl
        | some index =>
          simp only
          cases match_char ';' r2 with
          | none => exact Or.inr rfl
          | some r3 =>
            simp only
            rcases scan_not_semicolon_cases r3 with h2 | h2
            · rw [h2]
              exact Or.inl rfl
            · rw [h2]
              simp only [Outcome.bind_ok]
              cases scan_not_semicolon_plain r3 with
              | none => exact Or.inr rfl
              | some p =>
                obtain ⟨word, r4⟩ := p
                simp only
                cases match_char ';' r4 with
                | none => exact Or.inr rfl
                | some r5 =>
                  simp only
                  rcases scan_d_cases r5 with h3 | h3
                  · rw [h3]
                    exact Or.inl rfl
                  · rw [h3]
                    simp only [Outcome.bind_ok]
                    cases hd2 : match_d r5 with
                    | mk v2 r6 =>
                      cases v2 with
                      | none => exact Or.inr rfl
                      | some file_count => exact Or.inr rfl

theorem fscanf_pair_cases (fn : Str) (wc : Int) (inp : Str) :
    fscanf_pair fn wc inp = Outcome.undefined ∨
      fscanf_pair fn wc inp = Outcome.ok (fscanf_pair_plain fn wc inp) := by
  unfold fscanf_pair fscanf_pair_plain
  rcases scan_not_semicolon_cases inp with h1 | h1
  · rw [h1]
    exact Or.inl rfl
  · rw [h1]
    simp only [Outcome.bind_ok]
    cases scan_not_semicolon_plain inp with
    | none => exact Or.inr rfl
    | some p =>
      obtain ⟨s, r1⟩ := p
      simp only
      cases match_char ';' r1 with
      | none => exact Or.inr rfl
      | some r2 =>
        simp only
        rcases scan_d_cases r2 with h2 | h2
        · rw [h2]
          exact Or.inl rfl
        · rw [h2]
          simp only [Outcome.bind_ok]
          cases hd : match_d r2 with
          | mk v r3 =>
            cases v with
            | none => exact Or.inr rfl
            | some n => exact Or.inr rfl

theorem read_pairs_cases (n : Nat) (fn : Str) (wc : Int) (inp : Str) (head : File_list)
    (subs : List Sub_node) (log : List Str) :
    read_pairs n fn wc inp head subs log = Outcome.undefined ∨
      read_pairs n fn wc inp head subs log =
        Outcome.ok (read_pairs_plain n fn wc inp head subs log) := by
  induction n generalizing fn wc inp head subs log with
  | zero => exact Or.inr rfl
  | succ n ih =>
    unfold read_pairs read_pairs_plain
    rcases fscanf_pair_cases fn wc inp with h1 | h1
    · rw [h1]
      exact Or.inl rfl
    · rw [h1]
      simp only [Outcome.bind_ok]
      rcases create_sub_node_cases (fscanf_pair_plain fn wc inp).1 with h2 | h2
      · rw [h2]
        exact Or.inl rfl
      · rw [h2]
        simp only [Outcome.bind_ok]
        exact ih _ _ _ _ _ _

theorem update_loop_cases (junk : Nat → Str × Int) (fuel k : Nat) (inp : Str)
    (h : List Hash_t) (head : File_list) (log : List Str) :
    update_loop junk fuel k inp h head log = Outcome.undefined ∨
      update_loop junk fuel k inp h head log = update_loop_plain junk fuel k inp h head log := by
  induction fuel generalizing k inp h head log with
  | zero => exact Or.inr rfl
  | succ fuel ih =>
    unfold update_loop update_loop_plain
    rcases fscanf_header_cases inp with h1 | h1
    · rw [h1]
      exact Or.inl rfl
    · rw [h1]
      simp only [Outcome.bind_ok]
      cases fscanf_header_plain inp with
      | none => exact Or.inr rfl
      | some p =>
        obtain ⟨index, word, file_count, r⟩ := p
        simp only
        split
        · exact Or.inr rfl
        · rcases create_main_node_cases word with h2 | h2
          · rw [h2]
            exact Or.inl rfl
          · rw [h2]
            simp only [Outcome.bind_ok]
            rcases read_pairs_cases file_count.toNat (junk k).1 (junk k).2 r head [] log
              with h3 | h3
            · rw [h3]
              exact Or.inl rfl
            · rw [h3]
              simp only [Outcome.bind_ok]
              exact ih _ _ _ _ _

/-- With a fuel above the length of the stream the loop of `update_database` does not
run out of fuel. -/
theorem update_loop_fuel (junk : Nat → Str × Int) (fuel k : Nat) (inp : Str) (h : List Hash_t)
    (head : File_list) (log : List Str) (hfuel : inp.length < fuel) :
    update_loop junk fuel k inp h head log ≠ Outcome.out_of_fuel := by
  rcases update_loop_cases junk fuel k inp h head log with hc | hc
  · rw [hc]
    simp
  · rw [hc]
    exact update_loop_plain_fuel junk fuel k inp h head log hfuel

/-- Every run of `update_database` that has a defined result has the result that the
function gives without the capacities. -/
theorem update_database_cases (junk : Nat → Str × Int) (h : List Hash_t) (backup : Str)
    (head : File_list) (fs : FileSys) :
    update_database h backup head fs junk = Outcome.undefined ∨
      update_database h backup head fs junk = update_database_plain h backup head fs junk := by
  unfold update_database update_database_plain
  split
  · exact Or.inr rfl
  · cases fopen_r fs backup with
    | none => exact Or.inr rfl
    | some content =>
      simp only
      split
      · exact Or.inr rfl
      · split
        · exact Or.inr rfl
        · rcases update_loop_cases junk (content.length + 1) 0 content h head [] with h1 | h1
          · rw [h1]
            exact Or.inl rfl
          · rw [h1]
            exact Or.inr rfl

/-- The function `update_database` does not run out of fuel. -/
theorem update_database_fuel (junk : Nat → Str × Int) (h : List Hash_t) (backup : Str)
    (head : File_list) (fs : FileSys) :
    update_database h backup head fs junk ≠ Outcome.out_of_fuel := by
  rcases update_database_cases junk h backup head fs with hc | hc
  · rw [hc]
    simp
  · rw [hc]
    exact update_database_plain_fuel junk h backup head fs

theorem update_database_ok_plain (junk : Nat → Str × Int) (h : List Hash_t) (backup : Str)
    (head : File_list) (fs : FileSys) (r : Status × List Hash_t × File_list × List Str)
    (hr : update_database h backup head fs junk = Outcome.ok r) :
    update_database_plain h backup head fs junk = Outcome.ok r := by
  rcases update_database_cases junk h backup head fs with hc | hc
  · rw [hc] at hr
    cases hr
  · rw [← hc]
    exact hr

/-! ## Scanning a well-formed record -/

theorem cstr_eq_self (s : Str) (h : Char.ofNat 0 ∉ s) : cstr s = s := by
  unfold cstr
  apply List.takeWhile_eq_self_iff.2
  intro c hc
  simp only [ne_eq, decide_not, Bool.not_eq_true', decide_eq_false_iff_not]
  intro e
  apply h
  rw [← e]
  exact hc

theorem takeWhile_append_stop {p : Char → Bool} (w : Str) (c : Char) (rest : Str)
    (hw : ∀ x ∈ w, p x = true) (hc : p c = false) :
    (w ++ c :: rest).takeWhile p = w ∧ (w ++ c :: rest).dropWhile p = c :: rest := by
  induction w with
  | nil => simp [List.takeWhile_cons, List.dropWhile_cons, hc]
  | cons x xs ih =>
    have hx : p x = true := hw x (by simp)
    have hxs : ∀ y ∈ xs, p y = true := fun y hy => hw y (by simp [hy])
    rcases ih hxs with ⟨h1, h2⟩
    simp [List.takeWhile_cons, List.dropWhile_cons, hx, h1, h2]

theorem scan_not_semicolon_field (w rest : Str) (hw : field_ok w) :
    scan_not_semicolon (w ++ ';' :: rest) = Outcome.ok (some (w, ';' :: rest)) := by
  rcases hw with ⟨hne, hsemi, hnul, hlen⟩
  have hall : ∀ x ∈ w, (fun c : Char => decide (c ≠ ';')) x = true := by
    intro x hx
    simp only [ne_eq, decide_not, Bool.not_eq_true', decide_eq_false_iff_not]
    intro e
    apply hsemi
    rw [← e]
    exact hx
  rcases takeWhile_append_stop (p := fun c : Char => decide (c ≠ ';')) w ';' rest hall (by simp)
    with ⟨h1, h2⟩
  unfold scan_not_semicolon
  simp only [h1, h2, hne, if_false, cstr_eq_self w hnul]
  rw [if_neg (by omega)]

theorem match_char_cons (c : Char) (rest : Str) : match_char c (c :: rest) = some rest := by
  simp [match_char]

theorem skip_char_cons (c : Char) (rest : Str) : skip_char c (c :: rest) = rest := by
  simp [skip_char, match_char]

theorem head_semicolon_not_digit (rest : Str) :
    ∀ c, (';' :: rest).head? = some c → isdigit c = false := by
  intro c hc
  simp only [List.head?_cons, Option.some.injEq] at hc
  rw [← hc]
  decide

theorem record_line_eq (i : Nat) (m : Main_node) :
    record_line i m = '#' :: (print_d i ++ ';' :: (m.word ++ ';' ::
      (print_d m.file_count ++ ';' :: (pairs_text m.s_link ++ ['#', '\n'])))) := by
  simp [record_line, pairs_text, List.append_assoc]

theorem fscanf_header_record (i : Nat) (m : Main_node) (rest : Str) (hw : field_ok m.word)
    (hi : i < HASH_SIZE) (hlo : INT_MIN ≤ m.file_count) (hhi : m.file_count ≤ INT_MAX) :
    fscanf_header (record_line i m ++ rest) =
      Outcome.ok
        (some ((i : Int), m.word, m.file_count, pairs_text m.s_link ++ '#' :: '\n' :: rest)) := by
  have hi1 : INT_MIN ≤ (i : Int) := by unfold INT_MIN; omega
  have hi2 : (i : Int) ≤ INT_MAX := by unfold INT_MAX; unfold HASH_SIZE at hi; omega
  rw [record_line_eq]
  unfold fscanf_header
  simp only [List.cons_append, List.append_assoc, match_char_cons]
  rw [scan_d_print_d_ok _ _ (head_semicolon_not_digit _) hi1 hi2]
  simp only [Outcome.bind_ok, match_char_cons]
  rw [scan_not_semicolon_field _ _ hw]
  simp only [Outcome.bind_ok, match_char_cons]
  rw [scan_d_print_d_ok _ _ (head_semicolon_not_digit _) hlo hhi]
  simp only [Outcome.bind_ok, skip_char_cons]
  simp

theorem fscanf_pair_field (fn : Str) (wc : Int) (s : Sub_node) (rest : Str)
    (hs : field_ok s.file_name) (hlo : INT_MIN ≤ s.word_count) (hhi : s.word_count ≤ INT_MAX) :
    fscanf_pair fn wc (s.file_name ++ [';'] ++ print_d s.word_count ++ [';'] ++ rest) =
      Outcome.ok (s.file_name, s.word_count, rest) := by
  have he : s.file_name ++ [';'] ++ print_d s.word_count ++ [';'] ++ rest =
      s.file_name ++ ';' :: (print_d s.word_count ++ ';' :: rest) := by
    simp [List.append_assoc]
  rw [he]
  unfold fscanf_pair
  rw [scan_not_semicolon_field _ _ hs]
  simp only [Outcome.bind_ok, match_char_cons]
  rw [scan_d_print_d_ok _ _ (head_semicolon_not_digit _) hlo hhi]
  simp only [Outcome.bind_ok, skip_char_cons]

theorem claim_names_cons (head : File_list) (log : List Str) (n : Str) (names : List Str) :
    claim_names head log (n :: names) =
      claim_names (delete_duplicate_file head n).2
        (if (delete_duplicate_file head n).1 = Status.SUCCESS then log ++ [n] else log) names := by
  simp [claim_names]

theorem read_pairs_subs (subs : List Sub_node) (fn : Str) (wc : Int) (rest : Str)
    (head : File_list) (acc : List Sub_node) (log : List Str)
    (hs : ∀ s ∈ subs, field_ok s.file_name ∧ INT_MIN ≤ s.word_count ∧ s.word_count ≤ INT_MAX) :
    read_pairs subs.length fn wc (pairs_text subs ++ rest) head acc log =
      Outcome.ok (rest, (claim_names head log (subs.map (fun s => s.file_name))).1, acc ++ subs,
        (claim_names head log (subs.map (fun s => s.file_name))).2) := by
  induction subs generalizing fn wc head acc log with
  | nil => simp [read_pairs, pairs_text, claim_names]
  | cons s ss ih =>
    obtain ⟨hs1, hlo, hhi⟩ := hs s (by simp)
    have hss : ∀ t ∈ ss, field_ok t.file_name ∧ INT_MIN ≤ t.word_count ∧
        t.word_count ≤ INT_MAX := fun t ht => hs t (by simp [ht])
    have he : pairs_text (s :: ss) ++ rest =
        s.file_name ++ [';'] ++ print_d s.word_count ++ [';'] ++ (pairs_text ss ++ rest) := by
      simp [pairs_text, List.flatMap_cons, List.append_assoc]
    rw [he, List.length_cons]
    unfold read_pairs
    rw [fscanf_pair_field fn wc s _ hs1 hlo hhi]
    simp only [Outcome.bind_ok]
    rw [create_sub_node_eq s.file_name hs1.2.2.2]
    simp only [Outcome.bind_ok]
    rw [ih _ _ _ _ _ hss, List.map_cons, claim_names_cons]
    have hnode : ({ create_sub_node_plain s.file_name with word_count := s.word_count } :
        Sub_node) = s := by
      cases s
      rfl
    rw [hnode]
    simp

theorem records_text_cons (r : Nat × Main_node) (rs : List (Nat × Main_node)) :
    records_text (r :: rs) = record_line r.1 r.2 ++ records_text rs := by
  simp [records_text, List.flatMap_cons]

theorem records_text_append (a b : List (Nat × Main_node)) :
    records_text (a ++ b) = records_text a ++ records_text b := by
  simp [records_text, List.flatMap_append]

theorem records_text_head (rs : List (Nat × Main_node)) :
    records_text rs = [] ∨ ∃ t, records_text rs = '#' :: t := by
  cases rs with
  | nil => exact Or.inl (by simp [records_text])
  | cons r rest =>
    right
    rw [records_text_cons, record_line_eq]
    exact ⟨_, List.cons_append _ _ _⟩

theorem dropWhile_isspace_records_text (rs : List (Nat × Main_node)) :
    (records_text rs).dropWhile isspace = records_text rs := by
  rcases records_text_head rs with h | ⟨t, h⟩
  · rw [h]
    simp
  · rw [h, List.dropWhile_cons]
    have : isspace '#' = false := by decide
    simp [this]

theorem fscanf_close_records (rs : List (Nat × Main_node)) :
    fscanf_close ('#' :: '\n' :: records_text rs) = records_text rs := by
  unfold fscanf_close
  rw [match_char_cons]
  simp only
  rw [List.dropWhile_cons]
  have : isspace '\n' = true := by decide
  simp only [this, if_true]
  exact dropWhile_isspace_records_text rs

theorem length_record_line_pos (i : Nat) (m : Main_node) : 0 < (record_line i m).length := by
  rw [record_line_eq]
  simp

theorem append_records_cons (h : List Hash_t) (r : Nat × Main_node) (rs : List (Nat × Main_node)) :
    append_records h (r :: rs) =
      append_records (set_bucket h r.1 (bucket h r.1 ++ [r.2])) rs := by
  simp [append_records]

theorem claim_names_append (head : File_list) (log : List Str) (a b : List Str) :
    claim_names head log (a ++ b) =
      claim_names (claim_names head log a).1 (claim_names head log a).2 b := by
  simp [claim_names, List.foldl_append]

theorem fscanf_header_of_dropWhile (tail : Str)
    (h : fscanf_header (tail.dropWhile isspace) = Outcome.ok none) :
    fscanf_header tail = Outcome.ok none := by
  cases tail with
  | nil => simpa using h
  | cons c cs =>
    by_cases hc : isspace c = true
    · have hne : ¬ c = '#' := by
        intro e
        rw [e] at hc
        exact absurd hc (by decide)
      simp [fscanf_header, match_char, hne]
    · rw [List.dropWhile_cons, if_neg hc] at h
      exact h

theorem dropWhile_records_tail (rs : List (Nat × Main_node)) (tail : Str) :
    ∃ tail' : Str, (records_text rs ++ tail).dropWhile isspace = records_text rs ++ tail' ∧
      tail'.dropWhile isspace = tail.dropWhile isspace ∧ tail'.length ≤ tail.length := by
  rcases records_text_head rs with h | ⟨t, h⟩
  · refine ⟨tail.dropWhile isspace, ?_, ?_, ?_⟩
    · rw [h]
      rfl
    · induction tail with
      | nil => rfl
      | cons c cs ih =>
        rw [List.dropWhile_cons]
        split
        · exact ih
        · rename_i hc
          rw [List.dropWhile_cons, if_neg hc]
    · exact (List.dropWhile_suffix _).length_le
  · refine ⟨tail, ?_, rfl, Nat.le_refl _⟩
    rw [h, List.cons_append, List.dropWhile_cons]
    have : isspace '#' = false := by decide
    simp [this]

/-- The loop of `update_database` on well-formed records followed by a text whose
header cannot be scanned: the records are appended and the rest is left out. -/
theorem update_loop_records_tail (junk : Nat → Str × Int) (rs : List (Nat × Main_node))
    (tail : Str) (fuel k : Nat) (h : List Hash_t) (head : File_list) (log : List Str)
    (hok : ∀ r ∈ rs, record_ok r)
    (htail : fscanf_header (tail.dropWhile isspace) = Outcome.ok none)
    (hfuel : (records_text rs ++ tail).length < fuel) :
    update_loop junk fuel k (records_text rs ++ tail) h head log =
      Outcome.ok (append_records h rs, (claim_names head log (record_names rs)).1,
        (claim_names head log (record_names rs)).2) := by
  induction rs generalizing tail fuel k h head log with
  | nil =>
    cases fuel with
    | zero => omega
    | succ fuel =>
      have h0 : records_text [] ++ tail = tail := by simp [records_text]
      rw [h0]
      unfold update_loop
      rw [fscanf_header_of_dropWhile tail htail]
      simp [append_records, record_names, claim_names]
  | cons r rest ih =>
    have hr : record_ok r := hok r (by simp)
    have hrest : ∀ r' ∈ rest, record_ok r' := fun r' hr' => hok r' (by simp [hr'])
    rcases hr with ⟨hidx, hword, hcount, hmax, hnames⟩
    cases fuel with
    | zero => omega
    | succ fuel =>
      rw [records_text_cons, List.append_assoc] at hfuel ⊢
      have hpos := length_record_line_pos r.1 r.2
      obtain ⟨tail', hdrop, htail', hlen'⟩ := dropWhile_records_tail rest tail
      have hfuel' : (records_text rest ++ tail').length < fuel := by
        rw [List.length_append] at hfuel
        rw [List.length_append] at hfuel ⊢
        omega
      have hmin : INT_MIN ≤ r.2.file_count := by
        rw [hcount]
        unfold INT_MIN
        omega
      unfold update_loop
      rw [fscanf_header_record r.1 r.2 _ hword hidx hmin hmax]
      simp only [Outcome.bind_ok]
      have hrange : ¬ (((r.1 : Nat) : Int) < 0 ∨ (HASH_SIZE : Int) ≤ ((r.1 : Nat) : Int)) := by
        omega
      rw [if_neg hrange, create_main_node_eq r.2.word hword.2.2.2]
      simp only [Outcome.bind_ok]
      have hn : r.2.file_count.toNat = r.2.s_link.length := by
        rw [hcount]
        simp
      rw [hn, read_pairs_subs _ _ _ _ _ _ _ hnames]
      simp only [Outcome.bind_ok, List.nil_append, Int.toNat_ofNat]
      have hclose : fscanf_close ('#' :: '\n' :: (records_text rest ++ tail)) =
          records_text rest ++ tail' := by
        unfold fscanf_close
        rw [match_char_cons]
        simp only
        rw [List.dropWhile_cons]
        have : isspace '\n' = true := by decide
        simp only [this, if_true]
        exact hdrop
      rw [hclose, ih tail' _ _ _ _ _ hrest (by rw [htail']; exact htail) hfuel',
        append_records_cons]
      have hnode : ({ create_main_node_plain r.2.word with
          file_count := r.2.file_count, s_link := r.2.s_link } : Main_node) = r.2 := by
        cases r.2
        rfl
      rw [hnode]
      have hnm : record_names (r :: rest) =
          r.2.s_link.map (fun s => s.file_name) ++ record_names rest := by
        simp [record_names, List.flatMap_cons]
      rw [hnm, claim_names_append]

/-- The loop of `update_database` on a text made of well-formed records. -/
theorem update_loop_records (junk : Nat → Str × Int) (rs : List (Nat × Main_node))
    (fuel k : Nat) (h : List Hash_t) (head : File_list) (log : List Str)
    (hok : ∀ r ∈ rs, record_ok r) (hfuel : (records_text rs).length < fuel) :
    update_loop junk fuel k (records_text rs) h head log =
      Outcome.ok (append_records h rs, (claim_names head log (record_names rs)).1,
        (claim_names head log (record_names rs)).2) := by
  have h := update_loop_records_tail junk rs [] fuel k h head log hok
    (by simp [fscanf_header, match_char]) (by simpa using hfuel)
  simpa using h

/-! ## `update_database` on a backup made of well-formed records -/

theorem record_line_ends (i : Nat) (m : Main_node) :
    ∃ pre : Str, record_line i m = pre ++ ['#', '\n'] := by
  unfold record_line
  exact ⟨_, rfl⟩

theorem records_text_ends (rs : List (Nat × Main_node)) (hne : rs ≠ []) :
    ∃ pre : Str, records_text rs = pre ++ ['#', '\n'] := by
  rcases List.eq_nil_or_concat rs with h | ⟨init, last, h⟩
  · exact absurd h hne
  · rcases record_line_ends last.1 last.2 with ⟨pre, hp⟩
    refine ⟨records_text init ++ pre, ?_⟩
    rw [h, List.concat_eq_append, records_text_append, records_text_cons, hp]
    simp [records_text]

theorem validate_records_text (rs : List (Nat × Main_node)) (hne : rs ≠ []) :
    validate_file_size (records_text rs) ≠ 0 ∧
      validate_backup_database (records_text rs) = Status.SUCCESS := by
  rcases records_text_ends rs hne with ⟨pre, hp⟩
  have hlen : (records_text rs).length = pre.length + 2 := by
    rw [hp]
    simp
  constructor
  · unfold validate_file_size
    have : ¬ ((records_text rs).length : Int) < 1 := by omega
    rw [if_neg this]
    omega
  · unfold validate_backup_database
    have h0 : (records_text rs)[0]? = some '#' := by
      rcases records_text_head rs with h | ⟨t, h⟩
      · rw [h] at hlen
        simp at hlen
      · rw [h]
        simp
    have h2 : 2 ≤ (records_text rs).length := by omega
    have hpos : (records_text rs)[(records_text rs).length - 2]? = some '#' := by
      have : (records_text rs).length - 2 = pre.length := by omega
      rw [this, hp, List.getElem?_append_right (Nat.le_refl _)]
      simp
    simp [h0, h2, hpos]

/-- The function `update_database` on a readable `.txt` file whose content is a sequence of
well-formed records: every record is appended and every name is claimed; with no
record at all the file is empty and the call fails. -/
theorem update_database_records (junk : Nat → Str × Int) (h : List Hash_t) (path : Str)
    (head : File_list) (fs : FileSys) (rs : List (Nat × Main_node))
    (hext : validate_file_extension path = Status.SUCCESS)
    (hopen : fopen_r fs path = some (records_text rs)) (hok : ∀ r ∈ rs, record_ok r) :
    update_database h path head fs junk =
      Outcome.ok (if rs = [] then Status.FAILURE else Status.SUCCESS, append_records h rs,
        (claim_names head [] (record_names rs)).1, (claim_names head [] (record_names rs)).2) := by
  unfold update_database
  rw [hext, hopen]
  simp only [reduceCtorEq, if_false]
  by_cases hrs : rs = []
  · subst hrs
    simp [records_text, validate_file_size, append_records, record_names, claim_names]
  · rcases validate_records_text rs hrs with ⟨h1, h2⟩
    rw [if_neg h1, h2]
    simp only [reduceCtorEq, if_false]
    rw [update_loop_records junk rs _ 0 h head [] hok (Nat.lt_succ_self _)]
    simp [hrs]

theorem length_append_records (h : List Hash_t) (rs : List (Nat × Main_node)) :
    (append_records h rs).length = h.length := by
  induction rs generalizing h with
  | nil => simp [append_records]
  | cons r rest ih => rw [append_records_cons, ih, length_set_bucket]

theorem bucket_append_records (h : List Hash_t) (rs : List (Nat × Main_node)) (b : Nat)
    (hlen : h.length = HASH_SIZE) (hidx : ∀ r ∈ rs, r.1 < HASH_SIZE) :
    bucket (append_records h rs) b =
      bucket h b ++ (rs.filter (fun r => decide (r.1 = b))).map (fun r => r.2) := by
  induction rs generalizing h with
  | nil => simp [append_records]
  | cons r rest ih =>
    have hr : r.1 < HASH_SIZE := hidx r (by simp)
    have hrest : ∀ r' ∈ rest, r'.1 < HASH_SIZE := fun r' hr' => hidx r' (by simp [hr'])
    rw [append_records_cons, ih _ (by rw [length_set_bucket]; exact hlen) hrest,
      bucket_set_bucket, List.filter_cons]
    by_cases hb : r.1 = b
    · subst hb
      simp [hlen, hr]
    · have hb' : ¬ b = r.1 := fun e => hb e.symm
      simp [hb, hb']

/-! ## The file list -/

theorem delete_duplicate_file_status (head : File_list) (n : Str) :
    (delete_duplicate_file head n).1 = Status.SUCCESS ↔ n ∈ head := by
  induction head with
  | nil => simp [delete_duplicate_file]
  | cons x rest ih =>
    unfold delete_duplicate_file
    by_cases hx : n = x
    · simp [hx]
    · simp only [hx, if_false, List.mem_cons, false_or]
      exact ih

theorem delete_duplicate_file_list (head : File_list) (n : Str) (hnd : head.Nodup) :
    (delete_duplicate_file head n).2 = head.filter (fun x => decide (x ≠ n)) := by
  induction head with
  | nil => simp [delete_duplicate_file]
  | cons x rest ih =>
    rw [List.nodup_cons] at hnd
    unfold delete_duplicate_file
    by_cases hx : n = x
    · subst hx
      have : rest.filter (fun x => decide (x ≠ n)) = rest := by
        apply List.filter_eq_self.2
        intro a ha
        simp only [ne_eq, decide_not, Bool.not_eq_true', decide_eq_false_iff_not]
        intro e
        apply hnd.1
        rw [← e]
        exact ha
      rw [if_pos rfl, List.filter_cons]
      simp only [ne_eq, not_true_eq_false, decide_False, Bool.false_eq_true, if_false]
      exact this.symm
    · have hx' : ¬ x = n := fun e => hx e.symm
      simp only [hx, if_false]
      rw [ih hnd.2]
      simp [List.filter_cons, hx']

theorem claim_names_list (head : File_list) (log : List Str) (names : List Str)
    (hnd : head.Nodup) :
    (claim_names head log names).1 = head.filter (fun x => decide (x ∉ names)) := by
  induction names generalizing head log with
  | nil => simp [claim_names]
  | cons n rest ih =>
    rw [claim_names_cons, delete_duplicate_file_list head n hnd, ih _ _ (hnd.filter _),
      List.filter_filter]
    apply List.filter_congr
    intro x _
    by_cases h1 : x = n
    · simp [h1]
    · by_cases h2 : x ∈ rest
      · simp [h1, h2]
      · simp [h1, h2]

theorem claim_names_log (head : File_list) (log : List Str) (names : List Str)
    (hnd : head.Nodup) :
    ∃ L : List Str, (claim_names head log names).2 = log ++ L ∧ L.Nodup ∧
      ∀ x, x ∈ L ↔ x ∈ head ∧ x ∈ names := by
  induction names generalizing head log with
  | nil => exact ⟨[], by simp [claim_names], List.nodup_nil, by simp⟩
  | cons n rest ih =>
    rw [claim_names_cons, delete_duplicate_file_list head n hnd]
    rcases ih (head.filter (fun x => decide (x ≠ n)))
      (if (delete_duplicate_file head n).1 = Status.SUCCESS then log ++ [n] else log)
      (hnd.filter _) with ⟨L, hL, hLnd, hLmem⟩
    by_cases hn : n ∈ head
    · have hs := (delete_duplicate_file_status head n).2 hn
      rw [if_pos hs] at hL ⊢
      refine ⟨n :: L, by rw [hL]; simp, ?_, ?_⟩
      · rw [List.nodup_cons]
        refine ⟨?_, hLnd⟩
        intro hmem
        have := (hLmem n).1 hmem
        simp at this
      · intro x
        rw [List.mem_cons, hLmem x, List.mem_filter, List.mem_cons]
        simp only [ne_eq, decide_not, Bool.not_eq_true', decide_eq_false_iff_not]
        constructor
        · rintro (h1 | ⟨⟨h1, _⟩, h3⟩)
          · rw [h1]
            exact ⟨hn, Or.inl rfl⟩
          · exact ⟨h1, Or.inr h3⟩
        · rintro ⟨h1, h2 | h2⟩
          · exact Or.inl h2
          · by_cases hx : x = n
            · exact Or.inl hx
            · exact Or.inr ⟨⟨h1, hx⟩, h2⟩
    · have hs : ¬ (delete_duplicate_file head n).1 = Status.SUCCESS :=
        fun e => hn ((delete_duplicate_file_status head n).1 e)
      rw [if_neg hs] at hL ⊢
      refine ⟨L, hL, hLnd, ?_⟩
      intro x
      rw [hLmem x, List.mem_filter, List.mem_cons]
      simp only [ne_eq, decide_not, Bool.not_eq_true', decide_eq_false_iff_not]
      constructor
      · rintro ⟨⟨h1, _⟩, h3⟩
        exact ⟨h1, Or.inr h3⟩
      · rintro ⟨h1, h2 | h2⟩
        · rw [h2] at h1
          exact absurd h1 hn
        · refine ⟨⟨h1, ?_⟩, h2⟩
          intro e
          rw [e] at h1
          exact hn h1

/-! ## The failure exits of `update_database` and `save_database` -/

theorem update_database_failure (junk : Nat → Str × Int) (h : List Hash_t) (backup : Str)
    (head : File_list) (fs : FileSys) (h' : List Hash_t) (head' : File_list) (log : List Str)
    (hres : update_database h backup head fs junk = Outcome.ok (Status.FAILURE, h', head', log)) :
    h' = h ∧ head' = head ∧ log = [] := by
  unfold update_database at hres
  split at hres
  · simp only [Outcome.ok.injEq, Prod.mk.injEq, true_and] at hres
    exact ⟨hres.1.symm, hres.2.1.symm, hres.2.2.symm⟩
  · split at hres
    · simp only [Outcome.ok.injEq, Prod.mk.injEq, true_and] at hres
      exact ⟨hres.1.symm, hres.2.1.symm, hres.2.2.symm⟩
    · split at hres
      · simp only [Outcome.ok.injEq, Prod.mk.injEq, true_and] at hres
        exact ⟨hres.1.symm, hres.2.1.symm, hres.2.2.symm⟩
      · split at hres
        · simp only [Outcome.ok.injEq, Prod.mk.injEq, true_and] at hres
          exact ⟨hres.1.symm, hres.2.1.symm, hres.2.2.symm⟩
        · split at hres
          · simp at hres
          · simp at hres
          · simp at hres

theorem save_database_failure (h : List Hash_t) (path : Str) (fs : FileSys) (h' : List Hash_t)
    (fs' : FileSys) (hres : save_database h path fs = Outcome.ok (Status.FAILURE, h', fs')) :
    h' = h ∧ fs' = fs := by
  unfold save_database at hres
  split at hres
  · simp only [Outcome.ok.injEq, Prod.mk.injEq, true_and] at hres
    exact ⟨hres.1.symm, hres.2.symm⟩
  · split at hres
    · simp at hres
    · simp at hres

/-! ## The words `create_database_plain` reads are the white-space delimited tokens -/

theorem splitOnP_eq_takeWhile (p : Char → Bool) (cs : Str) :
    cs.splitOnP p = cs.takeWhile (fun c => !p c) ::
      (match cs.dropWhile (fun c => !p c) with
        | [] => []
        | _ :: r => r.splitOnP p) := by
  induction cs with
  | nil => simp [List.splitOnP_nil]
  | cons x xs ih =>
    rw [List.splitOnP_cons]
    by_cases hx : p x = true
    · simp [hx, List.takeWhile_cons, List.dropWhile_cons]
    · simp only [Bool.not_eq_true] at hx
      rw [ih]
      simp [hx, List.takeWhile_cons, List.dropWhile_cons]

theorem tokens_nil : tokens [] = [] := by
  simp [tokens, List.splitOnP_nil]

theorem tokens_cons_space (c : Char) (cs : Str) (hc : isspace c = true) :
    tokens (c :: cs) = tokens cs := by
  unfold tokens
  rw [List.splitOnP_cons]
  simp [hc]

theorem tokens_dropWhile (inp : Str) : tokens (inp.dropWhile isspace) = tokens inp := by
  induction inp with
  | nil => simp
  | cons c cs ih =>
    rw [List.dropWhile_cons]
    by_cases hc : isspace c = true
    · rw [if_pos hc, ih, tokens_cons_space c cs hc]
    · rw [if_neg hc]

theorem tokens_cons_word (c : Char) (cs : Str) (hc : isspace c = false) :
    tokens (c :: cs) =
      (c :: cs).takeWhile (fun x => !isspace x) ::
        tokens ((c :: cs).dropWhile (fun x => !isspace x)) := by
  have hsplit := splitOnP_eq_takeWhile isspace (c :: cs)
  have htake : (c :: cs).takeWhile (fun x => !isspace x) ≠ [] := by
    simp [List.takeWhile_cons, hc]
  unfold tokens
  rw [hsplit, List.filter_cons]
  simp only [htake, ne_eq, not_false_eq_true, decide_True, if_true]
  congr 1
  cases hd : (c :: cs).dropWhile (fun x => !isspace x) with
  | nil => simp [List.splitOnP_nil]
  | cons s r =>
    have hs : isspace s = true := by
      have := List.head_dropWhile_not (fun x => !isspace x) (c :: cs) (by rw [hd]; simp)
      simpa [hd] using this
    simp only
    rw [List.splitOnP_cons isspace s r]
    simp [hs]

/-- On a text without NUL, `create_database_plain` reads exactly the tokens of the text. -/
theorem read_words_eq_tokens (fuel : Nat) (inp : Str) (hfuel : inp.length < fuel)
    (hnul : Char.ofNat 0 ∉ inp) : read_words_plain fuel inp = tokens inp := by
  induction fuel generalizing inp with
  | zero => omega
  | succ fuel ih =>
    unfold read_words_plain fscanf_s_plain
    simp only
    have hsuf : inp.dropWhile isspace <:+ inp := List.dropWhile_suffix _
    cases hd : inp.dropWhile isspace with
    | nil =>
      rw [← tokens_dropWhile, hd]
      simp [tokens_nil]
    | cons c cs =>
      have hc : isspace c = false := by
        have := List.head_dropWhile_not isspace inp (by rw [hd]; simp)
        simpa [hd] using this
      have hl := hsuf.length_le
      rw [hd] at hl hsuf
      simp only [List.length_cons] at hl
      have hnul1 : Char.ofNat 0 ∉ c :: cs := fun hmem => hnul (hsuf.subset hmem)
      have hnul2 : Char.ofNat 0 ∉ (c :: cs).takeWhile (fun x => !isspace x) :=
        fun hmem => hnul1 ((List.takeWhile_sublist _).subset hmem)
      have hsuf2 : (c :: cs).dropWhile (fun x => !isspace x) <:+ c :: cs :=
        List.dropWhile_suffix _
      have hl2 : ((c :: cs).dropWhile (fun x => !isspace x)).length < fuel := by
        have h1 : (c :: cs).dropWhile (fun x => !isspace x) = cs.dropWhile (fun x => !isspace x) := by
          rw [List.dropWhile_cons]
          simp [hc]
        have h2 := (List.dropWhile_suffix (l := cs) (fun x => !isspace x)).length_le
        rw [h1]
        omega
      simp only [reduceCtorEq, if_false]
      rw [cstr_eq_self _ hnul2, ih _ hl2 (fun hmem => hnul1 (hsuf2.subset hmem)),
        ← tokens_dropWhile inp, hd, tokens_cons_word c cs hc]

theorem file_words_eq_tokens (content : Str) (hnul : Char.ofNat 0 ∉ content) :
    file_words_plain content = tokens content :=
  read_words_eq_tokens _ content (Nat.lt_succ_self _) hnul


/-! ## When `update_database` fails -/

/-- The function `update_database` returns `FAILURE` exactly when the path does not end
in ".txt", or the file cannot be opened, or it is empty, or its first byte is not
`#`, or the byte two positions before its end is not `#` (there is none in a file of
one byte). -/
theorem update_database_failure_iff (junk : Nat → Str × Int) (h : List Hash_t) (backup : Str)
    (head : File_list) (fs : FileSys) :
    (∃ h' head' log,
        update_database h backup head fs junk = Outcome.ok (Status.FAILURE, h', head', log)) ↔
      (¬ ['.', 't', 'x', 't'] <:+ backup ∨ fopen_r fs backup = none ∨
        ∃ content, fopen_r fs backup = some content ∧
          (content = [] ∨ content[0]? ≠ some '#' ∨ content.length < 2 ∨
            content[content.length - 2]? ≠ some '#')) := by
  rw [← validate_file_extension_iff]
  unfold update_database
  rcases validate_file_extension_cases backup with hv | hv
  · rw [hv]
    simp only [reduceCtorEq, if_false, not_true_eq_false, false_or]
    cases hopen : fopen_r fs backup with
    | none => simp
    | some content =>
      simp only [reduceCtorEq, false_or, Option.some.injEq, exists_eq_left']
      by_cases hsize : validate_file_size content = 0
      · have hnil : content = [] := by
          unfold validate_file_size at hsize
          split at hsize
          · apply List.length_eq_zero.1
            omega
          · apply List.length_eq_zero.1
            omega
        subst hnil
        rw [if_pos hsize]
        simp
      · have hne : content ≠ [] := by
          intro e
          apply hsize
          rw [e]
          simp [validate_file_size]
        rw [if_neg hsize]
        by_cases hvb : validate_backup_database content = Status.FAILURE
        · rw [if_pos hvb]
          simp only [Outcome.ok.injEq, Prod.mk.injEq, true_and, exists_and_left, exists_eq',
            and_true, hne, false_or, true_iff]
          unfold validate_backup_database at hvb
          split at hvb
          · rename_i h0
            exact Or.inl h0
          · right
            by_cases h2 : 2 ≤ content.length
            · simp only [h2, if_true] at hvb
              split at hvb
              · rename_i hp
                exact Or.inr hp
              · exact absurd hvb (by simp)
            · exact Or.inl (by omega)
        · rw [if_neg hvb]
          have hright : ¬ (content = [] ∨ content[0]? ≠ some '#' ∨ content.length < 2 ∨
              content[content.length - 2]? ≠ some '#') := by
            unfold validate_backup_database at hvb
            rintro (h1 | h1 | h1 | h1)
            · exact hne h1
            · simp [h1] at hvb
            · have hlen1 : content.length = 1 := by
                have := List.length_pos.2 hne
                omega
              have h2 : ¬ 2 ≤ content.length := by omega
              have hnone : content[1]? = none := List.getElem?_eq_none_iff.2 (by omega)
              simp [h2, hnone] at hvb
            · by_cases h2 : 2 ≤ content.length
              · simp [h2, h1] at hvb
              · have hnone : content[1]? = none := List.getElem?_eq_none_iff.2 (by omega)
                simp [h2, hnone] at hvb
          simp only [hright, iff_false, not_exists]
          intro h' head' log
          split <;> simp
  · rw [hv]
    simp

/-- When none of the failure conditions holds, `update_database` returns `SUCCESS`
unless the run has no defined result (a bucket index outside `hash_array`, a string
or a number that does not fit). -/
theorem update_database_success_or_undefined (junk : Nat → Str × Int) (h : List Hash_t)
    (backup : Str) (head : File_list) (fs : FileSys)
    (hnot : ¬ ∃ h' head' log,
      update_database h backup head fs junk = Outcome.ok (Status.FAILURE, h', head', log)) :
    (∃ h' head' log,
        update_database h backup head fs junk = Outcome.ok (Status.SUCCESS, h', head', log)) ∨
      update_database h backup head fs junk = Outcome.undefined := by
  have hfuel := update_database_fuel junk h backup head fs
  unfold update_database at hnot hfuel ⊢
  split
  · rename_i hv
    rw [if_pos hv] at hnot
    exact absurd ⟨_, _, _, rfl⟩ hnot
  · rename_i hv
    rw [if_neg hv] at hnot hfuel
    split
    · rename_i hopen
      rw [hopen] at hnot
      exact absurd ⟨_, _, _, rfl⟩ hnot
    · rename_i content hopen
      rw [hopen] at hnot hfuel
      simp only at hnot hfuel
      split
      · rename_i hsize
        rw [if_pos hsize] at hnot
        exact absurd ⟨_, _, _, rfl⟩ hnot
      · rename_i hsize
        rw [if_neg hsize] at hnot hfuel
        split
        · rename_i hvb
          rw [if_pos hvb] at hnot
          exact absurd ⟨_, _, _, rfl⟩ hnot
        · rename_i hvb
          rw [if_neg hvb] at hfuel
          split
          · exact Or.inl ⟨_, _, _, rfl⟩
          · exact Or.inr rfl
          · rename_i he
            rw [he] at hfuel
            exact absurd rfl hfuel

/-! ## Properties that `create_database_plain` keeps, from any index -/

theorem store_all_cons (h : List Hash_t) (p : Str × Str) (st : List (Str × Str)) :
    store_all h (p :: st) = store_all (store_word_plain h p.1 p.2) st := by
  simp [store_all]

theorem allNodes_store_all (P : Main_node → Prop) (h : List Hash_t) (st : List (Str × Str))
    (hall : AllNodes P h) (hupd : ∀ m f, P m → P (update_main_plain m f))
    (hnew : ∀ w f, P { file_count := 1, word := w, s_link := [create_sub_node_plain f] }) :
    AllNodes P (store_all h st) := by
  induction st generalizing h with
  | nil => simpa [store_all] using hall
  | cons p rest ih =>
    rw [store_all_cons]
    exact ih _ (allNodes_store_word P h p.1 p.2 hall (fun m hm _ => hupd m p.1 hm) (hnew p.2 p.1))

theorem wordsNodup_store_all (h : List Hash_t) (st : List (Str × Str)) (hw : WordsNodup h) :
    WordsNodup (store_all h st) := by
  induction st generalizing h with
  | nil => simpa [store_all] using hw
  | cons p rest ih =>
    rw [store_all_cons]
    exact ih _ (wordsNodup_store_word h p.1 p.2 hw)

theorem placed_store_all (h : List Hash_t) (st : List (Str × Str)) (hp : Placed h) :
    Placed (store_all h st) := by
  induction st generalizing h with
  | nil => simpa [store_all] using hp
  | cons p rest ih =>
    rw [store_all_cons]
    exact ih _ (placed_store_word h p.1 p.2 hp)

theorem word_stream_cons (f : Str) (rest : File_list) (fs : FileSys) :
    word_stream (f :: rest) fs =
      (match fopen_r fs f with
        | some content => (file_words_plain content).map (fun w => (f, w))
        | none => []) ++ word_stream rest fs := by
  unfold word_stream
  exact List.flatMap_cons _ _ _

/-- The files that cannot be opened add nothing to the words that are stored. -/
theorem word_stream_filter (head : File_list) (fs : FileSys) :
    word_stream (head.filter (fun f => (fopen_r fs f).isSome)) fs = word_stream head fs := by
  induction head with
  | nil => rfl
  | cons f rest ih =>
    rw [List.filter_cons]
    cases hopen : fopen_r fs f with
    | none =>
      simp only [Option.isSome_none, Bool.false_eq_true, if_false]
      rw [ih, word_stream_cons, hopen]
      simp
    | some content =>
      simp only [Option.isSome_some, if_true]
      rw [word_stream_cons, word_stream_cons, ih]

/-! ## An entry once stored stays -/

theorem exists_insert_word (chain : List Main_node) (w f : Str) :
    ∃ m ∈ insert_word_plain chain w f, m.word = w ∧ f ∈ m.s_link.map (fun s => s.file_name) := by
  induction chain with
  | nil =>
    rw [insert_word_nil]
    exact ⟨{ file_count := 1, word := w, s_link := [create_sub_node_plain f] }, by simp, rfl,
      by simp [create_sub_node_plain]⟩
  | cons m rest ih =>
    unfold insert_word_plain
    by_cases hw : w = m.word
    · rw [if_pos hw]
      refine ⟨update_main_plain m f, by simp, ?_, ?_⟩
      · rw [word_update_main, hw]
      · rw [map_file_name_update_main]
        split
        · assumption
        · simp
    · rw [if_neg hw]
      rcases ih with ⟨m0, hm0, h1, h2⟩
      exact ⟨m0, by simp [hm0], h1, h2⟩

theorem names_update_main_mono (m : Main_node) (f f0 : Str)
    (h : f0 ∈ m.s_link.map (fun s => s.file_name)) :
    f0 ∈ (update_main_plain m f).s_link.map (fun s => s.file_name) := by
  rw [map_file_name_update_main]
  split
  · exact h
  · exact List.mem_append_left _ h

theorem insert_word_mono (chain : List Main_node) (w f w0 f0 : Str)
    (h : ∃ m ∈ chain, m.word = w0 ∧ f0 ∈ m.s_link.map (fun s => s.file_name)) :
    ∃ m ∈ insert_word_plain chain w f, m.word = w0 ∧ f0 ∈ m.s_link.map (fun s => s.file_name) := by
  induction chain with
  | nil =>
    rcases h with ⟨m, hm, _⟩
    simp at hm
  | cons m rest ih =>
    rcases h with ⟨m0, hm0, h1, h2⟩
    unfold insert_word_plain
    by_cases hw : w = m.word
    · rw [if_pos hw]
      rcases List.mem_cons.1 hm0 with he | he
      · subst he
        exact ⟨update_main_plain m0 f, by simp, by rw [word_update_main]; exact h1,
          names_update_main_mono m0 f f0 h2⟩
      · exact ⟨m0, by simp [he], h1, h2⟩
    · rw [if_neg hw]
      rcases List.mem_cons.1 hm0 with he | he
      · subst he
        exact ⟨m0, by simp, h1, h2⟩
      · rcases ih ⟨m0, he, h1, h2⟩ with ⟨m1, hm1, h3, h4⟩
        exact ⟨m1, by simp [hm1], h3, h4⟩

theorem hasEntry_store_word (h : List Hash_t) (f w : Str) (hlen : h.length = HASH_SIZE) :
    HasEntry (store_word_plain h f w) w f := by
  unfold HasEntry
  rw [bucket_store_word]
  have hlt : find_index w < h.length := by rw [hlen]; exact find_index_lt w
  simp only [hlt, and_self, if_true]
  exact exists_insert_word _ w f

theorem hasEntry_store_word_mono (h : List Hash_t) (f w w0 f0 : Str) (he : HasEntry h w0 f0) :
    HasEntry (store_word_plain h f w) w0 f0 := by
  unfold HasEntry at he ⊢
  rw [bucket_store_word]
  split
  · exact insert_word_mono _ w f w0 f0 he
  · exact he

theorem hasEntry_store_all_mono (h : List Hash_t) (st : List (Str × Str)) (w0 f0 : Str)
    (he : HasEntry h w0 f0) : HasEntry (store_all h st) w0 f0 := by
  induction st generalizing h with
  | nil => simpa [store_all] using he
  | cons p rest ih =>
    rw [store_all_cons]
    exact ih _ (hasEntry_store_word_mono h p.1 p.2 w0 f0 he)

theorem hasEntry_store_all (h : List Hash_t) (st : List (Str × Str)) (w f : Str)
    (hlen : h.length = HASH_SIZE) (hmem : (f, w) ∈ st) : HasEntry (store_all h st) w f := by
  induction st generalizing h with
  | nil => simp at hmem
  | cons p rest ih =>
    rw [store_all_cons]
    rcases List.mem_cons.1 hmem with he | he
    · rw [← he]
      exact hasEntry_store_all_mono _ rest w f (hasEntry_store_word h f w hlen)
    · exact ih _ (by rw [length_store_word]; exact hlen) he

/-- Every word read from an opened file of the list has its entry after
`create_database_plain`, whatever the index before. -/
theorem hasEntry_create_database (h : List Hash_t) (head : File_list) (fs : FileSys) (w f : Str)
    (hlen : h.length = HASH_SIZE) (hf : f ∈ head) (hw : file_has_word fs w f = true) :
    HasEntry (create_database_plain h head fs).2 w f := by
  rw [create_database_eq]
  exact hasEntry_store_all h _ w f hlen ((mem_word_stream head fs f w).2 ⟨hf, hw⟩)

/-! ## The words read and the tokens of the text -/

theorem length_cstr_le (s : Str) : (cstr s).length ≤ s.length :=
  (List.takeWhile_prefix _).length_le

/-- What a call of `fscanf_s` does in terms of the tokens of the stream. -/
theorem fscanf_s_tokens (inp : Str) :
    (tokens inp = [] ∧ fscanf_s_plain inp = none ∧ fscanf_s inp = Outcome.ok none) ∨
      ∃ tok rest, tokens inp = tok :: tokens rest ∧ rest.length < inp.length ∧
        fscanf_s_plain inp = some (cstr tok, rest) ∧
        fscanf_s inp =
          if WORD_SIZE ≤ tok.length then Outcome.undefined
          else Outcome.ok (some (cstr tok, rest)) := by
  unfold fscanf_s fscanf_s_plain
  simp only
  have hsuf : inp.dropWhile isspace <:+ inp := List.dropWhile_suffix _
  cases hd : inp.dropWhile isspace with
  | nil =>
    left
    refine ⟨?_, by simp, by simp⟩
    rw [← tokens_dropWhile, hd, tokens_nil]
  | cons c cs =>
    right
    have hc : isspace c = false := by
      have := List.head_dropWhile_not isspace inp (by rw [hd]; simp)
      simpa [hd] using this
    have hl := hsuf.length_le
    rw [hd] at hl
    simp only [List.length_cons] at hl
    have h1 : (c :: cs).dropWhile (fun x => !isspace x) =
        cs.dropWhile (fun x => !isspace x) := by
      rw [List.dropWhile_cons]
      simp [hc]
    have h2 := (List.dropWhile_suffix (l := cs) (fun x => !isspace x)).length_le
    refine ⟨(c :: cs).takeWhile (fun x => !isspace x),
      (c :: cs).dropWhile (fun x => !isspace x), ?_, ?_, ?_, ?_⟩
    · rw [← tokens_dropWhile inp, hd, tokens_cons_word c cs hc]
    · rw [h1]
      omega
    · simp
    · simp only [reduceCtorEq, if_false]

theorem read_words_plain_tokens (fuel : Nat) (inp : Str) (hfuel : inp.length < fuel) :
    read_words_plain fuel inp = (tokens inp).map cstr := by
  induction fuel generalizing inp with
  | zero => omega
  | succ fuel ih =>
    unfold read_words_plain
    rcases fscanf_s_tokens inp with ⟨ht, hp, _⟩ | ⟨tok, rest, ht, hl, hp, _⟩
    · rw [hp, ht]
      rfl
    · rw [hp, ht]
      simp only [List.map_cons]
      rw [ih rest (by omega)]

theorem file_words_plain_tokens (content : Str) :
    file_words_plain content = (tokens content).map cstr :=
  read_words_plain_tokens _ content (Nat.lt_succ_self _)

theorem cstr_tokens_of_no_nul (content : Str) (hnul : Char.ofNat 0 ∉ content) :
    (tokens content).map cstr = tokens content := by
  have h1 := file_words_plain_tokens content
  rw [file_words_eq_tokens content hnul] at h1
  exact h1.symm

/-! ## The inner loop of `create_database` -/

theorem index_file_plain_cons (h : List Hash_t) (f w : Str) (ws : List Str) :
    index_file_plain h f (w :: ws) = index_file_plain (store_word_plain h f w) f ws := by
  simp [index_file_plain]

theorem below_index_file (h : List Hash_t) (f : Str) (ws : List Str) (n : Int) (h0 : 0 ≤ n)
    (hb : AllNodes (Below n) h) :
    AllNodes (Below (n + (ws.length : Int))) (index_file_plain h f ws) := by
  induction ws generalizing h n with
  | nil => simpa [index_file_plain] using hb
  | cons w ws ih =>
    rw [index_file_plain_cons]
    have := ih (store_word_plain h f w) (n + 1) (by omega) (below_store_word h f w n h0 hb)
    have he : n + ((w :: ws).length : Int) = n + 1 + (ws.length : Int) := by
      simp only [List.length_cons, Nat.cast_add, Nat.cast_one]
      omega
    rw [he]
    exact this

/-- The inner loop of `create_database` on a stream whose tokens fit the buffer: the
words are stored in order and the loop returns. -/
theorem index_loop_eq (fuel : Nat) (inp : Str) (h : List Hash_t) (f : Str) (n : Int)
    (hfuel : inp.length < fuel) (hw : ∀ t ∈ tokens inp, t.length < WORD_SIZE)
    (hf : f.length < FILE_SIZE) (h0 : 0 ≤ n) (hb : AllNodes (Below n) h)
    (hroom : n + ((tokens inp).length : Int) ≤ INT_MAX) :
    index_loop fuel inp h f = Outcome.ok (index_file_plain h f ((tokens inp).map cstr)) := by
  induction fuel generalizing inp h n with
  | zero => omega
  | succ fuel ih =>
    unfold index_loop
    rcases fscanf_s_tokens inp with ⟨ht, _, hs⟩ | ⟨tok, rest, ht, hl, _, hs⟩
    · rw [hs, ht]
      rfl
    · have htok : tok.length < WORD_SIZE := hw tok (by rw [ht]; simp)
      rw [hs, if_neg (by omega)]
      simp only [Outcome.bind_ok]
      rw [ht] at hroom
      simp only [List.length_cons, Nat.cast_add, Nat.cast_one] at hroom
      rw [store_word_eq h f (cstr tok) n (lt_of_le_of_lt (length_cstr_le tok) htok) hf
        (by omega) hb]
      simp only [Outcome.bind_ok]
      rw [ih rest (store_word_plain h f (cstr tok)) (n + 1) (by omega)
        (fun t htm => hw t (by rw [ht]; exact List.mem_cons_of_mem _ htm)) (by omega)
        (below_store_word h f (cstr tok) n h0 hb) (by omega), ht, List.map_cons,
        index_file_plain_cons]

/-- With a fuel above the length of the stream the inner loop does not run out of
fuel. -/
theorem index_loop_fuel (fuel : Nat) (inp : Str) (h : List Hash_t) (f : Str)
    (hfuel : inp.length < fuel) : index_loop fuel inp h f ≠ Outcome.out_of_fuel := by
  induction fuel generalizing inp h with
  | zero => omega
  | succ fuel ih =>
    unfold index_loop
    rcases fscanf_s_tokens inp with ⟨_, _, hs⟩ | ⟨tok, rest, _, hl, _, hs⟩
    · rw [hs]
      simp
    · rw [hs]
      split
      · simp
      · simp only [Outcome.bind_ok]
        rcases store_word_cases h f (cstr tok) with hst | hst
        · rw [hst]
          simp
        · rw [hst]
          simp only [Outcome.bind_ok]
          exact ih rest _ (by omega)

/-- Every defined result of the inner loop is the index with the words stored in
order. -/
theorem index_loop_cases (fuel : Nat) (inp : Str) (h : List Hash_t) (f : Str)
    (hfuel : inp.length < fuel) :
    index_loop fuel inp h f = Outcome.undefined ∨
      index_loop fuel inp h f =
        Outcome.ok (index_file_plain h f ((tokens inp).map cstr)) := by
  induction fuel generalizing inp h with
  | zero => omega
  | succ fuel ih =>
    unfold index_loop
    rcases fscanf_s_tokens inp with ⟨ht, _, hs⟩ | ⟨tok, rest, ht, hl, _, hs⟩
    · rw [hs, ht]
      exact Or.inr rfl
    · rw [hs]
      split
      · exact Or.inl rfl
      · simp only [Outcome.bind_ok]
        rcases store_word_cases h f (cstr tok) with hst | hst
        · rw [hst]
          exact Or.inl rfl
        · rw [hst]
          simp only [Outcome.bind_ok]
          rw [ht, List.map_cons, index_file_plain_cons]
          exact ih rest _ (by omega)

/-! ## The function `create_database` -/

theorem create_database_plain_eq_tokens (h : List Hash_t) (f : Str) (rest : File_list)
    (fs : FileSys) (content : Str) (hopen : fopen_r fs f = some content) :
    create_database_plain h (f :: rest) fs =
      create_database_plain (index_file_plain h f ((tokens content).map cstr)) rest fs := by
  rw [create_database_plain, hopen]
  simp only
  rw [file_words_plain_tokens]

theorem create_database_plain_skip (h : List Hash_t) (f : Str) (rest : File_list)
    (fs : FileSys) (hopen : fopen_r fs f = none) :
    create_database_plain h (f :: rest) fs = create_database_plain h rest fs := by
  rw [create_database_plain, hopen]

/-- Every defined result of `create_database` is the status `SUCCESS` with the index
that the build gives without the capacities. -/
theorem create_database_cases (h : List Hash_t) (head : File_list) (fs : FileSys) :
    create_database h head fs = Outcome.undefined ∨
      create_database h head fs = Outcome.ok (create_database_plain h head fs) := by
  induction head generalizing h with
  | nil => exact Or.inr rfl
  | cons f rest ih =>
    unfold create_database
    cases hopen : fopen_r fs f with
    | none =>
      simp only
      rw [create_database_plain_skip h f rest fs hopen]
      exact ih h
    | some content =>
      simp only
      rw [create_database_plain_eq_tokens h f rest fs content hopen]
      rcases index_loop_cases (content.length + 1) content h f (Nat.lt_succ_self _) with hl | hl
      · rw [hl]
        exact Or.inl rfl
      · rw [hl]
        simp only [Outcome.bind_ok]
        exact ih _

/-- The function `create_database` does not run out of fuel. -/
theorem create_database_fuel (h : List Hash_t) (head : File_list) (fs : FileSys) :
    create_database h head fs ≠ Outcome.out_of_fuel := by
  rcases create_database_cases h head fs with hc | hc
  · rw [hc]
    simp
  · rw [hc]
    simp

theorem file_tokens_of_open (fs : FileSys) (f content : Str)
    (hopen : fopen_r fs f = some content) : file_tokens fs f = tokens content := by
  simp [file_tokens, hopen]

theorem file_tokens_of_not_open (fs : FileSys) (f : Str) (hopen : fopen_r fs f = none) :
    file_tokens fs f = [] := by
  simp [file_tokens, hopen]

theorem token_total_cons (f : Str) (rest : File_list) (fs : FileSys) :
    token_total (f :: rest) fs = (file_tokens fs f).length + token_total rest fs := by
  simp [token_total]

theorem fits_tail (n : Int) (f : Str) (rest : File_list) (fs : FileSys)
    (hfit : Fits n (f :: rest) fs) :
    Fits (n + ((file_tokens fs f).length : Int)) rest fs := by
  obtain ⟨h1, h2, h3, h4⟩ := hfit
  refine ⟨fun g hg => h1 g (List.mem_cons_of_mem _ hg),
    fun g hg => h2 g (List.mem_cons_of_mem _ hg), by omega, ?_⟩
  rw [token_total_cons] at h4
  push_cast at h4
  omega

/-- Within the capacities `create_database` returns `SUCCESS` and the index that the
build gives without the capacities. -/
theorem create_database_eq_plain (h : List Hash_t) (head : File_list) (fs : FileSys) (n : Int)
    (hfit : Fits n head fs) (hb : AllNodes (Below n) h) :
    create_database h head fs = Outcome.ok (create_database_plain h head fs) := by
  induction head generalizing h n with
  | nil => rfl
  | cons f rest ih =>
    unfold create_database
    have hfit' := fits_tail n f rest fs hfit
    cases hopen : fopen_r fs f with
    | none =>
      simp only
      rw [create_database_plain_skip h f rest fs hopen]
      rw [file_tokens_of_not_open fs f hopen] at hfit'
      simp only [List.length_nil, Nat.cast_zero, add_zero] at hfit'
      exact ih h n hfit' hb
    | some content =>
      simp only
      rw [create_database_plain_eq_tokens h f rest fs content hopen]
      rw [file_tokens_of_open fs f content hopen] at hfit'
      obtain ⟨h1, h2, h3, h4⟩ := hfit
      have hwf := h2 f (List.mem_cons_self _ _)
      unfold words_fit at hwf
      rw [file_tokens_of_open fs f content hopen] at hwf
      simp only [List.all_eq_true, decide_eq_true_eq] at hwf
      rw [token_total_cons, file_tokens_of_open fs f content hopen] at h4
      push_cast at h4
      rw [index_loop_eq (content.length + 1) content h f n (Nat.lt_succ_self _) hwf
        (h1 f (List.mem_cons_self _ _)) h3 hb (by omega)]
      simp only [Outcome.bind_ok]
      have hb' := below_index_file h f ((tokens content).map cstr) n h3 hb
      rw [List.length_map] at hb'
      exact ih _ _ hfit' hb'

/-! ## The words of the build and the tokens of the files -/

theorem file_words_of_no_nul (fs : FileSys) (f content : Str)
    (hopen : fopen_r fs f = some content) (hnul : no_nul fs f = true) :
    file_words_plain content = file_tokens fs f := by
  unfold no_nul at hnul
  rw [hopen] at hnul
  simp only [decide_eq_true_eq] at hnul
  rw [file_tokens_of_open fs f content hopen, file_words_eq_tokens content hnul]

theorem file_has_word_iff (fs : FileSys) (w f : Str) (hnul : no_nul fs f = true) :
    file_has_word fs w f = true ↔ w ∈ file_tokens fs f := by
  unfold file_has_word
  cases hopen : fopen_r fs f with
  | none => simp [file_tokens_of_not_open fs f hopen]
  | some content =>
    simp only [decide_eq_true_eq]
    rw [file_words_of_no_nul fs f content hopen hnul]

theorem map_eq_self_mem (f : Str → Str) (l : List Str) (h : l.map f = l) :
    ∀ a ∈ l, f a = a := by
  induction l with
  | nil => simp
  | cons x xs ih =>
    simp only [List.map_cons, List.cons.injEq] at h
    intro a ha
    rcases List.mem_cons.1 ha with e | e
    · rw [e]
      exact h.1
    · exact ih h.2 a e

theorem tokens_ne_nil_of_mem (fs : FileSys) (f t : Str) (ht : t ∈ file_tokens fs f) : t ≠ [] := by
  unfold file_tokens at ht
  cases hopen : fopen_r fs f with
  | none => simp [hopen] at ht
  | some content =>
    simp only [hopen] at ht
    unfold tokens at ht
    simpa using (List.mem_filter.1 ht).2

theorem word_is_cstr_of_token (fs : FileSys) (w f : Str) (h : file_has_word fs w f = true) :
    ∃ t ∈ file_tokens fs f, w = cstr t ∧ (no_nul fs f = true → w = t) := by
  have h0 := h
  unfold file_has_word at h
  cases hopen : fopen_r fs f with
  | none => simp [hopen] at h
  | some content =>
    simp only [hopen, decide_eq_true_eq] at h
    rw [file_words_plain_tokens] at h
    obtain ⟨t, ht, hw⟩ := List.mem_map.1 h
    refine ⟨t, by rw [file_tokens_of_open fs f content hopen]; exact ht, hw.symm, ?_⟩
    intro hnul
    have hn : Char.ofNat 0 ∉ content := by
      unfold no_nul at hnul
      rw [hopen] at hnul
      simpa using hnul
    rw [← hw]
    exact map_eq_self_mem cstr (tokens content) (cstr_tokens_of_no_nul content hn) t ht

theorem word_stream_eq_token_stream (head : File_list) (fs : FileSys)
    (hnul : ∀ f ∈ head, no_nul fs f = true) : word_stream head fs = token_stream head fs := by
  induction head with
  | nil => rfl
  | cons f rest ih =>
    rw [word_stream_cons, ih (fun g hg => hnul g (List.mem_cons_of_mem _ hg))]
    unfold token_stream
    rw [List.flatMap_cons]
    congr 1
    cases hopen : fopen_r fs f with
    | none => simp [file_tokens_of_not_open fs f hopen]
    | some content =>
      simp only
      rw [file_words_of_no_nul fs f content hopen (hnul f (List.mem_cons_self _ _))]

theorem length_word_stream (head : File_list) (fs : FileSys) :
    (word_stream head fs).length = token_total head fs := by
  induction head with
  | nil => rfl
  | cons f rest ih =>
    rw [word_stream_cons, List.length_append, ih, token_total_cons]
    congr 1
    cases hopen : fopen_r fs f with
    | none => simp [file_tokens_of_not_open fs f hopen]
    | some content =>
      simp only [List.length_map]
      rw [file_words_plain_tokens, List.length_map, file_tokens_of_open fs f content hopen]

theorem below_store_all (h : List Hash_t) (st : List (Str × Str)) (n : Int) (h0 : 0 ≤ n)
    (hb : AllNodes (Below n) h) : AllNodes (Below (n + (st.length : Int))) (store_all h st) := by
  induction st generalizing h n with
  | nil => simpa [store_all] using hb
  | cons p rest ih =>
    rw [store_all_cons]
    have := ih (store_word_plain h p.1 p.2) (n + 1) (by omega) (below_store_word h p.1 p.2 n h0 hb)
    have he : n + ((p :: rest).length : Int) = n + 1 + (rest.length : Int) := by
      simp only [List.length_cons, Nat.cast_add, Nat.cast_one]
      omega
    rw [he]
    exact this

theorem below_create_database (h : List Hash_t) (head : File_list) (fs : FileSys) (n : Int)
    (h0 : 0 ≤ n) (hb : AllNodes (Below n) h) :
    AllNodes (Below (n + (token_total head fs : Int))) (create_database_plain h head fs).2 := by
  rw [create_database_eq, ← length_word_stream]
  exact below_store_all h _ n h0 hb

theorem below_initialise_hash (n : Int) : AllNodes (Below n) initialise_hash := by
  intro i m hm
  simp [bucket_initialise_hash] at hm

theorem status_create_database_plain (h : List Hash_t) (head : File_list) (fs : FileSys) :
    create_database_plain h head fs = (Status.SUCCESS, (create_database_plain h head fs).2) := by
  rw [create_database_eq]

/-- Within the capacities `create_database` returns `SUCCESS` with the index that the
build gives without the capacities. -/
theorem create_database_ok (h : List Hash_t) (head : File_list) (fs : FileSys) (n : Int)
    (hfit : Fits n head fs) (hb : AllNodes (Below n) h) :
    create_database h head fs =
      Outcome.ok (Status.SUCCESS, (create_database_plain h head fs).2) := by
  rw [create_database_eq_plain h head fs n hfit hb, ← status_create_database_plain]

/-- Every defined result of `create_database` has the status `SUCCESS` and the index
that the build gives without the capacities. -/
theorem create_database_ok_plain (h : List Hash_t) (head : File_list) (fs : FileSys)
    (r : Status × List Hash_t) (hr : create_database h head fs = Outcome.ok r) :
    r = (Status.SUCCESS, (create_database_plain h head fs).2) := by
  rcases create_database_cases h head fs with hc | hc
  · rw [hc] at hr
    cases hr
  · rw [hc] at hr
    cases hr
    exact status_create_database_plain h head fs

theorem example_index_built :
    create_database initialise_hash [f1_txt, f2_txt] example_fs =
      Outcome.ok (Status.SUCCESS, example_index) := by
  decide

theorem newline_index_built :
    create_database initialise_hash [newline_name] newline_fs =
      Outcome.ok (Status.SUCCESS, newline_index) := by
  decide

/-! ## The words and names of a built index -/

theorem cstr_no_nul (s : Str) : Char.ofNat 0 ∉ cstr s := by
  intro hmem
  have := List.mem_takeWhile_imp hmem
  simp at this

theorem fscanf_s_spec (inp w rest : Str) (h : fscanf_s_plain inp = some (w, rest)) :
    rest <:+ inp ∧ Char.ofNat 0 ∉ w ∧ (Char.ofNat 0 ∉ inp → w ≠ []) := by
  unfold fscanf_s_plain at h
  simp only at h
  split at h
  · simp at h
  · rename_i hne
    simp only [Option.some.injEq, Prod.mk.injEq] at h
    have hsuf : inp.dropWhile isspace <:+ inp := List.dropWhile_suffix _
    refine ⟨?_, ?_, ?_⟩
    · rw [← h.2]
      exact (List.dropWhile_suffix _).trans hsuf
    · rw [← h.1]
      exact cstr_no_nul _
    · intro hnul
      cases hd : inp.dropWhile isspace with
      | nil => exact absurd hd hne
      | cons c cs =>
        have hc : ¬ isspace c = true := by
          have := List.head_dropWhile_not isspace inp (by rw [hd]; simp)
          simpa [hd] using this
        simp only [Bool.not_eq_true] at hc
        have hnul2 : Char.ofNat 0 ∉ (c :: cs).takeWhile (fun c => !isspace c) := by
          intro hmem
          apply hnul
          apply hsuf.subset
          rw [hd]
          exact (List.takeWhile_sublist _).subset hmem
        rw [hd] at h
        rw [← h.1, cstr_eq_self _ hnul2, List.takeWhile_cons]
        simp [hc]

theorem read_words_spec (fuel : Nat) (inp : Str) :
    ∀ w ∈ read_words_plain fuel inp, Char.ofNat 0 ∉ w ∧ (Char.ofNat 0 ∉ inp → w ≠ []) := by
  induction fuel generalizing inp with
  | zero => simp [read_words_plain]
  | succ fuel ih =>
    intro w hw
    unfold read_words_plain at hw
    cases hs : fscanf_s_plain inp with
    | none => rw [hs] at hw; simp at hw
    | some p =>
      rcases p with ⟨w0, rest⟩
      rw [hs] at hw
      simp only [List.mem_cons] at hw
      rcases fscanf_s_spec _ _ _ hs with ⟨hsuf, hn, hne⟩
      rcases hw with hw | hw
      · rw [hw]
        exact ⟨hn, hne⟩
      · rcases ih rest w hw with ⟨h1, h2⟩
        exact ⟨h1, fun hnul => h2 (fun hmem => hnul (hsuf.subset hmem))⟩

theorem sub_in_stream (head : File_list) (fs : FileSys) (i : Nat) (m : Main_node) (s : Sub_node)
    (hm : m ∈ bucket (create_database_plain initialise_hash head fs).2 i) (hs : s ∈ m.s_link) :
    (s.file_name, m.word) ∈ word_stream head fs := by
  have hinv := buildInv_create_database head fs
  have hc := count_of_sub _ hinv i m hm s hs
  have hpos := hinv.positive i m hm s hs
  rw [count_of_create_database] at hc
  apply List.count_pos_iff.1
  omega

theorem fopen_r_ne_nil (fs : FileSys) (f c : Str) (h : fopen_r fs f = some c) : f ≠ [] := by
  intro e
  rw [e] at h
  simp [fopen_r] at h

/-! ## Reading back all the records of an index -/

theorem mem_all_records (h : List Hash_t) (r : Nat × Main_node) :
    r ∈ all_records h ↔ r.1 < HASH_SIZE ∧ r.2 ∈ bucket h r.1 := by
  unfold all_records
  rw [List.mem_flatMap]
  constructor
  · rintro ⟨i, hi, hr⟩
    rcases List.mem_map.1 hr with ⟨m, hm, he⟩
    rw [← he]
    exact ⟨List.mem_range.1 hi, hm⟩
  · rintro ⟨h1, h2⟩
    exact ⟨r.1, List.mem_range.2 h1, List.mem_map.2 ⟨r.2, h2, rfl⟩⟩

theorem filter_records_range (g : Nat → List Main_node) (n b : Nat) :
    (((List.range n).flatMap (fun i => (g i).map (fun m => (i, m)))).filter
      (fun r => decide (r.1 = b))).map (fun r => r.2) = if b < n then g b else [] := by
  induction n with
  | zero => simp
  | succ n ih =>
    rw [List.range_succ, List.flatMap_append, List.filter_append, List.map_append, ih]
    have hlast : (([n].flatMap (fun i => (g i).map (fun m => (i, m)))).filter
        (fun r => decide (r.1 = b))).map (fun r => r.2) = if n = b then g n else [] := by
      by_cases hnb : n = b
      · simp [hnb, List.filter_map, Function.comp_def]
      · simp [hnb, List.filter_map, Function.comp_def]
    rw [hlast]
    by_cases hb : b < n
    · have h1 : ¬ n = b := by omega
      have h2 : b < n + 1 := by omega
      simp [hb, h1, h2]
    · by_cases hnb : n = b
      · subst hnb
        simp
      · have h2 : ¬ b < n + 1 := by omega
        simp [hb, hnb, h2]

theorem bucket_of_ge (h : List Hash_t) (b : Nat) (hb : h.length ≤ b) : bucket h b = [] := by
  unfold bucket
  rw [List.getElem?_eq_none_iff.2 hb]

theorem map_index_set_bucket (h : List Hash_t) (i : Nat) (ms : List Main_node) :
    (set_bucket h i ms).map (fun b => b.index) = h.map (fun b => b.index) := by
  unfold set_bucket
  cases hb : h[i]? with
  | none => rfl
  | some b =>
    simp only
    apply List.ext_getElem?
    intro j
    rw [List.getElem?_map, List.getElem?_set, List.getElem?_map]
    by_cases hij : i = j
    · subst hij
      rcases List.getElem?_eq_some_iff.1 hb with ⟨hlt, _⟩
      simp [hlt, hb]
    · simp [hij]

theorem map_index_store_all (h : List Hash_t) (st : List (Str × Str)) :
    (store_all h st).map (fun b => b.index) = h.map (fun b => b.index) := by
  induction st generalizing h with
  | nil => simp [store_all]
  | cons p rest ih =>
    have : store_all h (p :: rest) = store_all (store_word_plain h p.1 p.2) rest := by
      simp [store_all]
    rw [this, ih, store_word_plain, map_index_set_bucket]

theorem map_index_append_records (h : List Hash_t) (rs : List (Nat × Main_node)) :
    (append_records h rs).map (fun b => b.index) = h.map (fun b => b.index) := by
  induction rs generalizing h with
  | nil => simp [append_records]
  | cons r rest ih => rw [append_records_cons, ih, map_index_set_bucket]

theorem hash_ext (h1 h2 : List Hash_t)
    (hidx : h1.map (fun b => b.index) = h2.map (fun b => b.index))
    (hb : ∀ i, bucket h1 i = bucket h2 i) : h1 = h2 := by
  apply List.ext_getElem?
  intro i
  have hi := congrArg (fun l => l[i]?) hidx
  simp only [List.getElem?_map] at hi
  have hbi := hb i
  unfold bucket at hbi
  cases e1 : h1[i]? with
  | none =>
    cases e2 : h2[i]? with
    | none => rfl
    | some b2 => rw [e1, e2] at hi; simp at hi
  | some b1 =>
    cases e2 : h2[i]? with
    | none => rw [e1, e2] at hi; simp at hi
    | some b2 =>
      rw [e1, e2] at hi hbi
      simp only [Option.map_some', Option.some.injEq] at hi hbi
      cases b1
      cases b2
      simp only at hi hbi
      rw [hi, hbi]

/-- Appending all the records of an index to the empty index gives the index back. -/
theorem append_all_records (h : List Hash_t) (hlen : h.length = HASH_SIZE)
    (hidx : h.map (fun b => b.index) = initialise_hash.map (fun b => b.index)) :
    append_records initialise_hash (all_records h) = h := by
  apply hash_ext
  · rw [map_index_append_records, hidx]
  · intro b
    rw [bucket_append_records _ _ b length_initialise_hash
      (fun r hr => ((mem_all_records h r).1 hr).1), bucket_initialise_hash, List.nil_append]
    unfold all_records
    rw [filter_records_range]
    split
    · rfl
    · rename_i hb
      rw [bucket_of_ge h b (by omega)]

/-- The C string of a token that does not start with a NUL is not empty. -/
theorem cstr_ne_nil (t : Str) (ht : t ≠ []) (hlead : t.head? ≠ some (Char.ofNat 0)) :
    cstr t ≠ [] := by
  cases t with
  | nil => exact absurd rfl ht
  | cons c rest =>
    have hc : c ≠ Char.ofNat 0 := fun e => hlead (by rw [e]; rfl)
    unfold cstr
    rw [List.takeWhile_cons]
    simp [hc]

/-- The records of an index built within the capacities from text files in which no
token starts with a NUL and no token and no name has a `;` are well formed. -/
theorem record_ok_create_database (head : File_list) (fs : FileSys) (hfit : Fits 0 head fs)
    (hlead : ∀ f ∈ head, ∀ t ∈ file_tokens fs f, t.head? ≠ some (Char.ofNat 0))
    (hsemi : ∀ f ∈ head, ∀ t ∈ file_tokens fs f, ';' ∉ t)
    (hnames : ∀ f ∈ head, ';' ∉ f ∧ Char.ofNat 0 ∉ f) :
    ∀ r ∈ all_records (create_database_plain initialise_hash head fs).2, record_ok r := by
  intro r hr
  have hinv := buildInv_create_database head fs
  have hbelow := below_create_database initialise_hash head fs 0 (le_refl _)
    (below_initialise_hash 0)
  obtain ⟨hfn, hwf, _, hroom⟩ := hfit
  rw [zero_add] at hroom hbelow
  rcases (mem_all_records _ r).1 hr with ⟨hlt, hm⟩
  have hb := hbelow r.1 r.2 hm
  have hfile : ∀ s ∈ r.2.s_link, field_ok s.file_name ∧ field_ok r.2.word := by
    intro s hs
    have hin := sub_in_stream head fs r.1 r.2 s hm hs
    rcases (mem_word_stream head fs _ _).1 hin with ⟨hf, hw⟩
    obtain ⟨t, ht, hc, _⟩ := word_is_cstr_of_token fs r.2.word s.file_name hw
    have hpre : r.2.word <+: t := by
      rw [hc]
      unfold cstr
      exact List.takeWhile_prefix _
    unfold file_has_word at hw
    cases hopen : fopen_r fs s.file_name with
    | none => rw [hopen] at hw; simp at hw
    | some c =>
      rw [hopen] at hw
      simp only [decide_eq_true_eq] at hw
      rcases read_words_spec _ c r.2.word hw with ⟨hw1, _⟩
      have hlen := hwf _ hf
      unfold words_fit at hlen
      simp only [List.all_eq_true, decide_eq_true_eq] at hlen
      have hfl : s.file_name.length < WORD_SIZE := by
        have := hfn _ hf
        unfold FILE_SIZE at this
        unfold WORD_SIZE
        exact this
      refine ⟨⟨fopen_r_ne_nil fs _ c hopen, (hnames _ hf).1, (hnames _ hf).2, hfl⟩,
        ⟨?_, fun hs' => hsemi _ hf t ht (hpre.subset hs'), hw1,
          lt_of_le_of_lt hpre.length_le (hlen t ht)⟩⟩
      rw [hc]
      exact cstr_ne_nil t (tokens_ne_nil_of_mem fs _ t ht) (hlead _ hf t ht)
  have hsub := hinv.subs r.1 r.2 hm
  unfold HasSub at hsub
  rcases List.exists_mem_of_ne_nil _ hsub with ⟨s0, hs0⟩
  refine ⟨hlt, (hfile s0 hs0).2, hinv.lengths r.1 r.2 hm, le_trans hb.1 hroom, ?_⟩
  intro s hs
  refine ⟨(hfile s hs).1, ?_, le_trans (hb.2 s hs) hroom⟩
  have := hinv.positive r.1 r.2 hm s hs
  unfold INT_MIN
  omega

theorem all_records_ne_nil (head : File_list) (fs : FileSys)
    (htok : ∃ f ∈ head, ∃ c, fopen_r fs f = some c ∧ file_words_plain c ≠ []) :
    all_records (create_database_plain initialise_hash head fs).2 ≠ [] := by
  rcases htok with ⟨f, hf, c, hopen, hne⟩
  rcases List.exists_mem_of_ne_nil _ hne with ⟨w, hw⟩
  have hin : (f, w) ∈ word_stream head fs := by
    apply (mem_word_stream head fs f w).2
    refine ⟨hf, ?_⟩
    unfold file_has_word
    rw [hopen]
    simpa using hw
  have hpos : 1 ≤ count_of (create_database_plain initialise_hash head fs).2 w f := by
    rw [count_of_create_database]
    have := List.count_pos_iff.2 hin
    omega
  rcases exists_of_count_of_pos _ w f hpos with ⟨m, hl, _⟩
  have hmem := List.mem_of_find?_eq_some hl
  intro he
  have : (find_index w, m) ∈ all_records (create_database_plain initialise_hash head fs).2 :=
    (mem_all_records _ _).2 ⟨find_index_lt w, hmem⟩
  rw [he] at this
  simp at this

theorem map_index_create_database (head : File_list) (fs : FileSys) :
    (create_database_plain initialise_hash head fs).2.map (fun b => b.index) =
      initialise_hash.map (fun b => b.index) := by
  rw [create_database_eq]
  exact map_index_store_all _ _

/-! ## What `update_database_plain` does to the main nodes -/

theorem read_pairs_subs_length (n : Nat) (fn : Str) (wc : Int) (inp : Str) (head : File_list)
    (subs : List Sub_node) (log : List Str) :
    (read_pairs_plain n fn wc inp head subs log).2.2.1.length = subs.length + n := by
  induction n generalizing fn wc inp head subs log with
  | zero => simp [read_pairs_plain]
  | succ n ih =>
    unfold read_pairs_plain
    simp only
    rw [ih]
    simp only [List.length_append, List.length_singleton]
    omega

theorem allNodes_set_bucket (P : Main_node → Prop) (h : List Hash_t) (i : Nat)
    (ms : List Main_node) (hall : AllNodes P h) (hms : ∀ m ∈ ms, P m) :
    AllNodes P (set_bucket h i ms) := by
  intro j m hm
  rw [bucket_set_bucket] at hm
  split at hm
  · exact hms m hm
  · exact hall j m hm

/-- Every main node that the loop of `update_database_plain` links has as many sub nodes as
its `for` loop ran; the nodes that were there are not touched. -/
theorem update_loop_allNodes (P : Main_node → Prop) (junk : Nat → Str × Int) (fuel k : Nat)
    (inp : Str) (h : List Hash_t) (head : File_list) (log : List Str) (h' : List Hash_t)
    (head' : File_list) (log' : List Str) (hall : AllNodes P h)
    (hnew : ∀ m, LengthIsCount m → P m)
    (hres : update_loop_plain junk fuel k inp h head log = Outcome.ok (h', head', log')) :
    AllNodes P h' := by
  induction fuel generalizing k inp h head log with
  | zero => simp [update_loop_plain] at hres
  | succ fuel ih =>
    unfold update_loop_plain at hres
    cases hh : fscanf_header_plain inp with
    | none =>
      rw [hh] at hres
      simp only [Outcome.ok.injEq, Prod.mk.injEq] at hres
      rw [← hres.1]
      exact hall
    | some p =>
      rcases p with ⟨index, word, file_count, r⟩
      rw [hh] at hres
      simp only at hres
      split at hres
      · simp at hres
      · apply ih _ _ _ _ _ _ hres
        apply allNodes_set_bucket P h _ _ hall
        intro m hm
        simp only [List.mem_append, List.mem_singleton] at hm
        rcases hm with hm | hm
        · exact hall _ m hm
        · rw [hm]
          apply hnew
          unfold LengthIsCount
          simp only
          rw [read_pairs_subs_length]
          simp

theorem update_database_allNodes (P : Main_node → Prop) (junk : Nat → Str × Int)
    (h : List Hash_t) (backup : Str) (head : File_list) (fs : FileSys) (st : Status)
    (h' : List Hash_t) (head' : File_list) (log : List Str) (hall : AllNodes P h)
    (hnew : ∀ m, LengthIsCount m → P m)
    (hres : update_database_plain h backup head fs junk = Outcome.ok (st, h', head', log)) :
    AllNodes P h' := by
  unfold update_database_plain at hres
  split at hres
  · simp only [Outcome.ok.injEq, Prod.mk.injEq] at hres
    rw [← hres.2.1]
    exact hall
  · split at hres
    · simp only [Outcome.ok.injEq, Prod.mk.injEq] at hres
      rw [← hres.2.1]
      exact hall
    · rename_i content _
      split at hres
      · simp only [Outcome.ok.injEq, Prod.mk.injEq] at hres
        rw [← hres.2.1]
        exact hall
      · split at hres
        · simp only [Outcome.ok.injEq, Prod.mk.injEq] at hres
          rw [← hres.2.1]
          exact hall
        · cases hl : update_loop_plain junk (content.length + 1) 0 content h head [] with
          | ok r =>
            rw [hl] at hres
            simp only [Outcome.ok.injEq, Prod.mk.injEq] at hres
            rcases r with ⟨r1, r2, r3⟩
            simp only at hres
            rw [← hres.2.1]
            exact update_loop_allNodes P junk _ 0 content h head [] r1 r2 r3 hall hnew hl
          | undefined => rw [hl] at hres; simp at hres
          | out_of_fuel => rw [hl] at hres; simp at hres

/-- The function `update_database` on a file that passes the four checks. -/
theorem update_database_of_valid (junk : Nat → Str × Int) (h : List Hash_t) (backup : Str)
    (head : File_list) (fs : FileSys) (content : Str)
    (hext : validate_file_extension backup = Status.SUCCESS)
    (hopen : fopen_r fs backup = some content) (hsize : validate_file_size content ≠ 0)
    (hvb : validate_backup_database content = Status.SUCCESS) :
    (∃ h' head' log,
        update_database h backup head fs junk =
          Outcome.ok (Status.SUCCESS, h', head', log)) ∨
      update_database h backup head fs junk = Outcome.undefined := by
  unfold update_database
  rw [hext, hopen]
  simp only [reduceCtorEq, if_false]
  rw [if_neg hsize, hvb]
  simp only [reduceCtorEq, if_false]
  have hfuel := update_loop_fuel junk (content.length + 1) 0 content h head []
    (Nat.lt_succ_self _)
  cases hl : update_loop junk (content.length + 1) 0 content h head [] with
  | ok r => exact Or.inl ⟨_, _, _, rfl⟩
  | undefined => exact Or.inr rfl
  | out_of_fuel => exact absurd hl hfuel

theorem find_index_cons_upper (c : Char) (rest : Str) (h : 65 ≤ c.toNat ∧ c.toNat ≤ 90) :
    find_index (c :: rest) = c.toNat - 65 := by
  simp [find_index, isupper, h]

theorem find_index_cons_lower (c : Char) (rest : Str) (h : 97 ≤ c.toNat ∧ c.toNat ≤ 122) :
    find_index (c :: rest) = c.toNat - 97 := by
  have hu : ¬ (65 ≤ c.toNat ∧ c.toNat ≤ 90) := by omega
  simp [find_index, isupper, islower, h, hu]

theorem find_index_cons_other (c : Char) (rest : Str) (hu : ¬ (65 ≤ c.toNat ∧ c.toNat ≤ 90))
    (hl : ¬ (97 ≤ c.toNat ∧ c.toNat ≤ 122)) : find_index (c :: rest) = 26 := by
  simp only [find_index, isupper, islower, hu, hl, decide_False, Bool.false_eq_true, if_false]

theorem find_index_case (c1 c2 : Char) (r1 r2 : Str) (hu : 65 ≤ c1.toNat ∧ c1.toNat ≤ 90)
    (hl : c2.toNat = c1.toNat + 32) : find_index (c1 :: r1) = find_index (c2 :: r2) := by
  rw [find_index_cons_upper c1 r1 hu, find_index_cons_lower c2 r2 (by omega)]
  omega

/-! ## `search_database` -/

theorem search_chain_eq (chain : List Main_node) (data : Str) :
    search_chain chain data =
      (Status.SUCCESS,
        match lookup chain data with
        | some m =>
          Search_result.found m.file_count (m.s_link.map (fun s => (s.file_name, s.word_count)))
        | none => Search_result.no_entries) := by
  induction chain with
  | nil => simp [search_chain, lookup]
  | cons m rest ih =>
    unfold search_chain
    by_cases hm : m.word = data
    · simp [hm, lookup]
    · simp only [hm, if_false, ih]
      simp [lookup, List.find?_cons, hm]

theorem lookup_eq_none_iff (chain : List Main_node) (w : Str) :
    lookup chain w = none ↔ ∀ m ∈ chain, m.word ≠ w := by
  unfold lookup
  rw [List.find?_eq_none]
  simp

theorem search_no_entries_iff (hash_arr : List Hash_t) (data : Str) :
    (search_database hash_arr data).2.2 = Search_result.no_entries ↔
      lookup (bucket hash_arr (find_index data)) data = none := by
  simp only [search_database, search_chain_eq]
  cases lookup (bucket hash_arr (find_index data)) data <;> simp

theorem search_found_iff_stream (head : File_list) (fs : FileSys) (w : Str) :
    lookup (bucket (create_database_plain initialise_hash head fs).2 (find_index w)) w ≠ none ↔
      ∃ f ∈ head, file_has_word fs w f = true := by
  have hinv := buildInv_create_database head fs
  constructor
  · intro hne
    cases hl : lookup (bucket (create_database_plain initialise_hash head fs).2 (find_index w)) w with
    | none => exact absurd hl hne
    | some m =>
      have hmem : m ∈ bucket (create_database_plain initialise_hash head fs).2 (find_index w) :=
        List.mem_of_find?_eq_some hl
      have hw : m.word = w := by
        have := List.find?_some hl
        simpa using this
      have hsub := hinv.subs _ m hmem
      unfold HasSub at hsub
      rcases List.exists_mem_of_ne_nil _ hsub with ⟨s, hs⟩
      have hc := count_of_sub _ hinv _ m hmem s hs
      have hpos := hinv.positive _ m hmem s hs
      rw [hw, count_of_create_database] at hc
      have hcount : 0 < (word_stream head fs).count (s.file_name, w) := by omega
      have hin := List.count_pos_iff.1 hcount
      exact ⟨s.file_name, (mem_word_stream head fs _ _).1 hin⟩
  · rintro ⟨f, hf, hw⟩
    have hin := (mem_word_stream head fs f w).2 ⟨hf, hw⟩
    have hcount := List.count_pos_iff.2 hin
    have hpos : 1 ≤ count_of (create_database_plain initialise_hash head fs).2 w f := by
      rw [count_of_create_database]
      omega
    rcases exists_of_count_of_pos _ w f hpos with ⟨m, hl, _⟩
    rw [hl]
    simp

/-! ## Counts and searches after a build -/

/-- On the index built without the capacities from a list of distinct files, a word
read `k ≥ 1` times from an opened file of the list has exactly one main node, in bucket
`find_index w`, and that node has exactly one sub node naming the file, with count `k`. -/
theorem word_count_plain (head : File_list) (fs : FileSys) (w f content : Str)
    (hnd : head.Nodup) (hf : f ∈ head) (hopen : fopen_r fs f = some content)
    (hk : 1 ≤ (file_words_plain content).count w) :
    ∃ m : Main_node,
      (∀ i, (bucket (create_database_plain initialise_hash head fs).2 i).filter
          (fun m' => decide (m'.word = w)) = if i = find_index w then [m] else []) ∧
      m.s_link.filter (fun s => decide (s.file_name = f)) =
        [{ word_count := ((file_words_plain content).count w : Int), file_name := f }] := by
  have hinv := buildInv_create_database head fs
  have hcount : count_of (create_database_plain initialise_hash head fs).2 w f =
      ((file_words_plain content).count w : Int) := by
    rw [count_of_create_database, count_word_stream, hopen]
    simp only
    rw [count_eq_one_of_mem_nodup head f hnd hf]
    simp
  have hpos : 1 ≤ count_of (create_database_plain initialise_hash head fs).2 w f := by
    rw [hcount]
    exact_mod_cast hk
  rcases exists_of_count_of_pos _ w f hpos with ⟨m, hl, s, hfind, hsc⟩
  have hmem : m ∈ bucket (create_database_plain initialise_hash head fs).2 (find_index w) :=
    List.mem_of_find?_eq_some hl
  refine ⟨m, ?_, ?_⟩
  · intro i
    by_cases hi : i = find_index w
    · subst hi
      simp only [if_true]
      exact filter_of_find?_nodup (fun x : Main_node => x.word) _ (hinv.words _) w m hl
    · simp only [hi, if_false]
      apply List.filter_eq_nil_iff.2
      intro m' hm' hp
      simp only [decide_eq_true_eq] at hp
      apply hi
      rw [← hp]
      exact (hinv.placed i m' hm').symm
  · rw [filter_of_find?_nodup (fun x : Sub_node => x.file_name) _ (hinv.names _ m hmem) f s hfind]
    have hname : s.file_name = f := by
      have := List.find?_some hfind
      simpa using this
    rw [hcount] at hsc
    cases s
    simp only at hname hsc
    rw [hname, hsc]

/-- On the index built without the capacities from a list of distinct files, the
`file_count` of a main node is the number of files of the list that open and from
which its word is read. -/
theorem file_count_plain (head : File_list) (fs : FileSys) (hnd : head.Nodup)
    (i : Nat) (m : Main_node) (hm : m ∈ bucket (create_database_plain initialise_hash head fs).2 i) :
    m.file_count = ((head.filter (fun f => file_has_word fs m.word f)).length : Int) := by
  have hinv := buildInv_create_database head fs
  have hlen : m.file_count = (m.s_link.length : Int) := hinv.lengths i m hm
  have hperm : (m.s_link.map (fun s => s.file_name)).Perm
      (head.filter (fun f => file_has_word fs m.word f)) := by
    apply (List.perm_ext_iff_of_nodup (hinv.names i m hm) (hnd.filter _)).2
    intro f
    rw [mem_names_iff _ hinv i m hm f, count_of_create_database, List.mem_filter,
      ← mem_word_stream]
    constructor
    · intro h1
      apply List.count_pos_iff.1
      omega
    · intro h1
      have := List.count_pos_iff.2 h1
      omega
  have := hperm.length_eq
  rw [List.length_map] at this
  rw [hlen, this]

/-- On the index built without the capacities, `search_database` prints a match for
`w` exactly when `w` is read from a file of the list that opens. -/
theorem search_after_create_plain (head : File_list) (fs : FileSys) (w : Str) :
    ((search_database (create_database_plain initialise_hash head fs).2 w).2.2 ≠
        Search_result.no_entries ↔ ∃ f ∈ head, file_has_word fs w f = true) ∧
      (search_database (create_database_plain initialise_hash head fs).2 w).2.1 =
        (create_database_plain initialise_hash head fs).2 ∧
      (search_database (create_database_plain initialise_hash head fs).2 w).1 = Status.SUCCESS := by
  refine ⟨?_, rfl, ?_⟩
  · rw [Ne, search_no_entries_iff]
    exact search_found_iff_stream head fs w
  · simp [search_database, search_chain_eq]

/-- C4: `search_database` reads bucket `find_index data` only, and prints the
`file_count` and the sub nodes, in chain order, of the first main node of that chain
whose word is `data`; it prints "No entries found" exactly when the chain has no such
node; it returns `SUCCESS` in both cases and leaves the index as it was. -/
theorem search_database_spec (hash_arr : List Hash_t) (data : Str) :
    search_database hash_arr data =
        (Status.SUCCESS, hash_arr,
          match lookup (bucket hash_arr (find_index data)) data with
          | some m =>
            Search_result.found m.file_count (m.s_link.map (fun s => (s.file_name, s.word_count)))
          | none => Search_result.no_entries) ∧
      ((search_database hash_arr data).2.2 = Search_result.no_entries ↔
        ∀ m ∈ bucket hash_arr (find_index data), m.word ≠ data) ∧
      (∀ other : List Hash_t,
        bucket other (find_index data) = bucket hash_arr (find_index data) →
          (search_database other data).2.2 = (search_database hash_arr data).2.2) := by
  refine ⟨?_, ?_, ?_⟩
  · simp [search_database, search_chain_eq]
  · rw [search_no_entries_iff, lookup_eq_none_iff]
  · intro other hb
    simp only [search_database, hb]

/-! ## The claims about skipped files, `find_index` and the invariants of a build -/

/-- Without the capacities the build returns `SUCCESS` and leaves the index that it
leaves for the same list without the files that cannot be opened. -/
theorem skips_unopenable_plain (h : List Hash_t) (head : File_list) (fs : FileSys) :
    (create_database_plain h head fs).1 = Status.SUCCESS ∧
      (create_database_plain h head fs).2 =
        (create_database_plain h (head.filter (fun f => (fopen_r fs f).isSome)) fs).2 := by
  rw [create_database_eq, create_database_eq, word_stream_filter]
  exact ⟨rfl, rfl⟩

/-- C12: for a word whose first character is `c`, `find_index` returns `c - 'A'` when
`c` is an upper-case ASCII letter, `c - 'a'` when it is a lower-case ASCII letter, and
26 for every other first character. -/
theorem find_index_spec (c : Char) (rest : Str) :
    (('A'.toNat ≤ c.toNat ∧ c.toNat ≤ 'Z'.toNat) →
        find_index (c :: rest) = c.toNat - 'A'.toNat) ∧
      (('a'.toNat ≤ c.toNat ∧ c.toNat ≤ 'z'.toNat) →
        find_index (c :: rest) = c.toNat - 'a'.toNat) ∧
      (¬ ('A'.toNat ≤ c.toNat ∧ c.toNat ≤ 'Z'.toNat) →
        ¬ ('a'.toNat ≤ c.toNat ∧ c.toNat ≤ 'z'.toNat) → find_index (c :: rest) = 26) := by
  have hA : 'A'.toNat = 65 := by decide
  have hZ : 'Z'.toNat = 90 := by decide
  have ha : 'a'.toNat = 97 := by decide
  have hz : 'z'.toNat = 122 := by decide
  rw [hA, hZ, ha, hz]
  exact ⟨find_index_cons_upper c rest, find_index_cons_lower c rest,
    find_index_cons_other c rest⟩

/-- Witness of C12: "Data" goes to bucket 3, "data" to bucket 3, "42" to bucket 26. -/
theorem find_index_spec_witness :
    find_index "Data".toList = 'D'.toNat - 'A'.toNat ∧
      find_index "data".toList = 'd'.toNat - 'a'.toNat ∧
      find_index "42".toList = 26 :=
  ⟨(find_index_spec 'D' "ata".toList).1 (by decide),
    (find_index_spec 'd' "ata".toList).2.1 (by decide),
    (find_index_spec '4' "2".toList).2.2 (by decide) (by decide)⟩

/-- C13: for every word the bucket index that `find_index` computes is below
`HASH_SIZE` (it is 26 for the empty word, whose first byte is the NUL, and for a first
character outside ASCII), so `hash_array[find_index w]`, the only element that
`create_database` and `search_database` access, is an element of every array of
`HASH_SIZE` buckets. -/
theorem find_index_in_range (w : Str) :
    find_index w < HASH_SIZE ∧ find_index [] = 26 ∧
      (∀ (c : Char) (rest : Str), 128 ≤ c.toNat → find_index (c :: rest) = 26) ∧
      (∀ h : List Hash_t, h.length = HASH_SIZE → ∃ b, h[find_index w]? = some b) := by
  refine ⟨find_index_lt w, rfl, ?_, ?_⟩
  · intro c rest hc
    exact find_index_cons_other c rest (by omega) (by omega)
  · intro h hlen
    have hlt : find_index w < h.length := by rw [hlen]; exact find_index_lt w
    exact ⟨h[find_index w], List.getElem?_eq_getElem hlt⟩

/-- Without the capacities, two words read from files of the list that differ only in
the case of their leading letter have two distinct main nodes in one bucket. -/
theorem case_variants_plain (h : List Hash_t) (head : File_list) (fs : FileSys)
    (c1 c2 : Char) (rest f1 f2 : Str) (hlen : h.length = HASH_SIZE)
    (hcase : (('A'.toNat ≤ c1.toNat ∧ c1.toNat ≤ 'Z'.toNat) ∧ c2.toNat = c1.toNat + 32) ∨
      (('A'.toNat ≤ c2.toNat ∧ c2.toNat ≤ 'Z'.toNat) ∧ c1.toNat = c2.toNat + 32))
    (hf1 : f1 ∈ head) (hw1 : file_has_word fs (c1 :: rest) f1 = true)
    (hf2 : f2 ∈ head) (hw2 : file_has_word fs (c2 :: rest) f2 = true) :
    find_index (c1 :: rest) = find_index (c2 :: rest) ∧
      ∃ m1 ∈ bucket (create_database_plain h head fs).2 (find_index (c1 :: rest)),
      ∃ m2 ∈ bucket (create_database_plain h head fs).2 (find_index (c1 :: rest)),
        m1.word = c1 :: rest ∧ m2.word = c2 :: rest ∧ m1 ≠ m2 ∧
        f1 ∈ m1.s_link.map (fun s => s.file_name) ∧
        f2 ∈ m2.s_link.map (fun s => s.file_name) := by
  have hA : 'A'.toNat = 65 := by decide
  have hZ : 'Z'.toNat = 90 := by decide
  rw [hA, hZ] at hcase
  have hidx : find_index (c1 :: rest) = find_index (c2 :: rest) := by
    rcases hcase with ⟨hu, hl⟩ | ⟨hu, hl⟩
    · exact find_index_case c1 c2 rest rest hu hl
    · exact (find_index_case c2 c1 rest rest hu hl).symm
  have hne : c1 ≠ c2 := by
    intro e
    rw [e] at hcase
    omega
  rcases hasEntry_create_database h head fs (c1 :: rest) f1 hlen hf1 hw1 with
    ⟨m1, hm1, hword1, hname1⟩
  rcases hasEntry_create_database h head fs (c2 :: rest) f2 hlen hf2 hw2 with
    ⟨m2, hm2, hword2, hname2⟩
  rw [← hidx] at hm2
  refine ⟨hidx, m1, hm1, m2, hm2, hword1, hword2, ?_, hname1, hname2⟩
  intro e
  rw [e, hword2] at hword1
  simp only [List.cons.injEq, and_true] at hword1
  exact hne hword1.symm

theorem countIsLength_of_lengthIsCount (m : Main_node) (h1 : LengthIsCount m)
    (h2 : 0 ≤ m.file_count) : CountIsLength m := by
  unfold LengthIsCount at h1
  unfold CountIsLength
  omega

theorem lengthIsCount_of_countIsLength (m : Main_node) (h1 : CountIsLength m) :
    LengthIsCount m := by
  unfold CountIsLength at h1
  unfold LengthIsCount
  omega

theorem allNodes_create_database (P : Main_node → Prop) (h : List Hash_t) (head : File_list)
    (fs : FileSys) (hall : AllNodes P h) (hupd : ∀ m f, P m → P (update_main_plain m f))
    (hnew : ∀ w f, P { file_count := 1, word := w, s_link := [create_sub_node_plain f] }) :
    AllNodes P (create_database_plain h head fs).2 := by
  rw [create_database_eq]
  exact allNodes_store_all P h _ hall hupd hnew

theorem reachable_countIsLength (h : List Hash_t) (hr : ReachableBy NoNegativeCount h) :
    AllNodes CountIsLength h := by
  induction hr with
  | empty => exact buildInv_initialise_hash.lengths
  | create h head fs st h' _ hres ih =>
    have he := create_database_ok_plain h head fs _ hres
    have h2 : h' = (create_database_plain h head fs).2 := congrArg Prod.snd he
    rw [h2]
    exact allNodes_create_database CountIsLength h head fs ih
      (fun m f hm => countIsLength_update_main m f hm) (by simp [CountIsLength])
  | update h path head fs junk st h' head' log _ hres hok ih =>
    have h1 : AllNodes LengthIsCount h' :=
      update_database_allNodes LengthIsCount junk h path head fs st h' head' log
        (fun i m hm => lengthIsCount_of_countIsLength m (ih i m hm)) (fun m hm => hm)
        (update_database_ok_plain junk h path head fs _ hres)
    intro i m hm
    exact countIsLength_of_lengthIsCount m (h1 i m hm) (hok i m hm)

/-- C15, amended: in every index reached from the empty index by calls of
`create_database` (any file list) and of `update_database` that return and leave no
main node with a negative `file_count` (no record that is read carries a negative
file count), the `file_count` of every main node is the number of its sub nodes. -/
theorem reachable_file_count (h : List Hash_t) (hr : ReachableBy NoNegativeCount h) (i : Nat)
    (m : Main_node) (hm : m ∈ bucket h i) : m.file_count = (m.s_link.length : Int) :=
  reachable_countIsLength h hr i m hm

theorem noNegativeCount_foo_load (h' : List Hash_t)
    (hb : ∀ b, bucket h' b = bucket example_index b ++
      (foo_records.filter (fun r => decide (r.1 = b))).map (fun r => r.2)) :
    NoNegativeCount h' := by
  intro i m hm
  rw [hb i, List.mem_append] at hm
  rcases hm with hm | hm
  · have := (buildInv_create_database [f1_txt, f2_txt] example_fs).lengths i m hm
    unfold CountIsLength at this
    omega
  · rcases List.mem_map.1 hm with ⟨r, hr, he⟩
    have hr2 := (List.mem_filter.1 hr).1
    simp only [foo_records, List.mem_singleton] at hr2
    rw [← he, hr2]
    decide

/-- Witness of C15: the index built from `f1.txt` and `f2.txt`, then loaded with the
record of `foo_records`. -/
theorem reachable_file_count_witness :
    AllNodes CountIsLength (append_records example_index foo_records) := by
  intro i m hm
  have hload := update_database_records junk0 example_index backup_txt [f2_txt, f1_txt]
    foo_backup_fs foo_records (by decide) (by decide)
    (by
      intro r hr
      simp only [foo_records, List.mem_singleton] at hr
      subst hr
      unfold record_ok field_ok
      decide)
  have hb : ∀ b, bucket (append_records example_index foo_records) b =
      bucket example_index b ++
        (foo_records.filter (fun r => decide (r.1 = b))).map (fun r => r.2) :=
    fun b => bucket_append_records example_index foo_records b
      (buildInv_create_database [f1_txt, f2_txt] example_fs).size (by decide)
  exact reachable_file_count (append_records example_index foo_records)
    (ReachableBy.update example_index backup_txt [f2_txt, f1_txt] foo_backup_fs junk0 _ _ _ _
      (ReachableBy.create initialise_hash [f1_txt, f2_txt] example_fs Status.SUCCESS
        example_index ReachableBy.empty example_index_built)
      hload (noNegativeCount_foo_load _ hb)) i m hm

/-- Counterexample to C15 as stated: the backup "#0;a;-3;#" passes the validation of
`update_database`; loaded into the empty index it leaves a main node whose
`file_count` is -3 and which has no sub node. -/
theorem reachable_file_count_counterexample :
    update_database initialise_hash backup_txt [] negative_count_fs junk0 =
        Outcome.ok (Status.SUCCESS, negative_count_index, [], []) ∧
      ReachableBy (fun _ => True) negative_count_index ∧
      ∃ m ∈ bucket negative_count_index 0, m.file_count ≠ (m.s_link.length : Int) :=
  ⟨by decide,
    ReachableBy.update initialise_hash backup_txt [] negative_count_fs junk0 Status.SUCCESS
      negative_count_index [] [] ReachableBy.empty (by decide) trivial,
    ⟨{ file_count := -3, word := "a".toList, s_link := [] }, by decide, by decide⟩⟩

/-- Without the capacities the build keeps the file names of every main node distinct. -/
theorem names_distinct_plain (h : List Hash_t) (head : File_list) (fs : FileSys)
    (hpre : AllNodes NamesNodup h) :
    AllNodes NamesNodup (create_database_plain h head fs).2 ∧
      AllNodes NamesNodup (create_database_plain initialise_hash head fs).2 :=
  ⟨allNodes_create_database NamesNodup h head fs hpre
      (fun m f hm => namesNodup_update_main m f hm) (by simp [NamesNodup]),
    allNodes_create_database NamesNodup initialise_hash head fs buildInv_initialise_hash.names
      (fun m f hm => namesNodup_update_main m f hm) (by simp [NamesNodup])⟩

/-- Without the capacities the build keeps the words of every bucket distinct. -/
theorem words_distinct_plain (h : List Hash_t) (head : File_list) (fs : FileSys)
    (hpre : WordsNodup h) :
    WordsNodup (create_database_plain h head fs).2 ∧
      WordsNodup (create_database_plain initialise_hash head fs).2 ∧
      ∀ w i, ((bucket (create_database_plain initialise_hash head fs).2 i).filter
        (fun m => decide (m.word = w))).length ≤ 1 := by
  refine ⟨?_, (buildInv_create_database head fs).words, ?_⟩
  · rw [create_database_eq]
    exact wordsNodup_store_all h _ hpre
  · intro w i
    have hnd := (buildInv_create_database head fs).words i
    cases hl : lookup (bucket (create_database_plain initialise_hash head fs).2 i) w with
    | none =>
      have : (bucket (create_database_plain initialise_hash head fs).2 i).filter
          (fun m => decide (m.word = w)) = [] := by
        apply List.filter_eq_nil_iff.2
        intro m hm hp
        simp only [decide_eq_true_eq] at hp
        exact (lookup_eq_none_iff _ w).1 hl m hm hp
      rw [this]
      simp
    | some m =>
      rw [filter_of_find?_nodup (fun x : Main_node => x.word) _ hnd w m hl]
      simp

/-! ## The counts of a build -/

/-- C1 (as the code has it): after `create_database` has run on the empty index with a
list of distinct files, within the capacities (file names and tokens of at most 49
characters, at most `INT_MAX` tokens) and with no NUL byte in the files, the call
returns `SUCCESS`, and for every word `w` and every file `f` of the list in which `w`
occurs `k ≥ 1` times as a token the index holds exactly one main node for `w` (in
bucket `find_index w`, none in another bucket), and that node has exactly one sub
node whose `file_name` is `f`; its `word_count` is `k`. -/
theorem create_database_word_count (head : File_list) (fs : FileSys) (w f : Str)
    (hnd : head.Nodup) (hfit : Fits 0 head fs) (hnul : ∀ g ∈ head, no_nul fs g = true)
    (hf : f ∈ head) (hk : 1 ≤ (file_tokens fs f).count w) :
    ∃ (H : List Hash_t) (m : Main_node),
      create_database initialise_hash head fs = Outcome.ok (Status.SUCCESS, H) ∧
      (∀ i, (bucket H i).filter (fun m' => decide (m'.word = w)) =
        if i = find_index w then [m] else []) ∧
      m.s_link.filter (fun s => decide (s.file_name = f)) =
        [{ word_count := ((file_tokens fs f).count w : Int), file_name := f }] := by
  cases hopen : fopen_r fs f with
  | none =>
    rw [file_tokens_of_not_open fs f hopen] at hk
    simp at hk
  | some content =>
    have hw := file_words_of_no_nul fs f content hopen (hnul f hf)
    obtain ⟨m, h1, h2⟩ := word_count_plain head fs w f content hnd hf hopen (by rw [hw]; exact hk)
    rw [hw] at h2
    exact ⟨_, m, create_database_ok _ head fs 0 hfit (below_initialise_hash 0), h1, h2⟩

/-- Witness of C1: the word "foo" in `f1.txt` = "foo bar foo". -/
theorem create_database_word_count_witness :
    ∃ (H : List Hash_t) (m : Main_node),
      create_database initialise_hash [f1_txt, f2_txt] example_fs =
        Outcome.ok (Status.SUCCESS, H) ∧
      (∀ i, (bucket H i).filter (fun m' => decide (m'.word = "foo".toList)) =
        if i = find_index "foo".toList then [m] else []) ∧
      m.s_link.filter (fun s => decide (s.file_name = f1_txt)) =
        [{ word_count := ((file_tokens example_fs f1_txt).count "foo".toList : Int),
           file_name := f1_txt }] :=
  create_database_word_count [f1_txt, f2_txt] example_fs "foo".toList f1_txt (by decide)
    (by decide) (by decide) (by decide) (by decide)

/-- C1, counterexample: in the file `f1.txt` = "a", NUL, "b a" the word "a" occurs once
as a token; the build reads the first token as the C string "a" too, and the count
of "a" for the file is 2. -/
theorem create_database_word_count_counterexample :
    [f1_txt].Nodup ∧ fopen_r nul_fs f1_txt = some ['a', Char.ofNat 0, 'b', ' ', 'a'] ∧
      (tokens ['a', Char.ofNat 0, 'b', ' ', 'a']).count "a".toList = 1 ∧
      create_database initialise_hash [f1_txt] nul_fs =
        Outcome.ok (Status.SUCCESS,
          set_bucket initialise_hash 0
            [{ file_count := 1, word := "a".toList,
               s_link := [{ word_count := 2, file_name := f1_txt }] }]) := by
  refine ⟨by decide, by decide, by decide, by decide⟩

/-- C2 (as the code has it): after `create_database` has run on the empty index with a
list of distinct files, within the capacities and with no NUL byte in the files, the
call returns `SUCCESS` and the `file_count` of every main node is the number of
files of the list that hold its word as a token. -/
theorem create_database_file_count (head : File_list) (fs : FileSys) (hnd : head.Nodup)
    (hfit : Fits 0 head fs) (hnul : ∀ g ∈ head, no_nul fs g = true) :
    ∃ H : List Hash_t,
      create_database initialise_hash head fs = Outcome.ok (Status.SUCCESS, H) ∧
      ∀ i, ∀ m ∈ bucket H i,
        m.file_count =
          ((head.filter (fun f => decide (m.word ∈ file_tokens fs f))).length : Int) := by
  refine ⟨_, create_database_ok _ head fs 0 hfit (below_initialise_hash 0), ?_⟩
  intro i m hm
  rw [file_count_plain head fs hnd i m hm]
  congr 2
  apply List.filter_congr
  intro f hf
  rw [Bool.eq_iff_iff, file_has_word_iff fs m.word f (hnul f hf)]
  simp

/-- Witness of C2: the files `f1.txt` = "foo bar foo" and `f2.txt` = "bar". -/
theorem create_database_file_count_witness :
    ∃ H : List Hash_t,
      create_database initialise_hash [f1_txt, f2_txt] example_fs =
        Outcome.ok (Status.SUCCESS, H) ∧
      ∀ i, ∀ m ∈ bucket H i,
        m.file_count =
          (([f1_txt, f2_txt].filter
            (fun f => decide (m.word ∈ file_tokens example_fs f))).length : Int) :=
  create_database_file_count [f1_txt, f2_txt] example_fs (by decide) (by decide) (by decide)

/-- C2, counterexample: with `f1.txt` = "a", NUL, "b" and `f2.txt` = "a" the word "a" is
a token of `f2.txt` only, and its main node has `file_count` 2. -/
theorem create_database_file_count_counterexample :
    [f1_txt, f2_txt].Nodup ∧
      [f1_txt, f2_txt].filter (fun f => decide ("a".toList ∈ file_tokens nul2_fs f)) =
        [f2_txt] ∧
      create_database initialise_hash [f1_txt, f2_txt] nul2_fs =
        Outcome.ok (Status.SUCCESS,
          set_bucket initialise_hash 0
            [{ file_count := 2, word := "a".toList,
               s_link := [{ word_count := 1, file_name := f1_txt },
                          { word_count := 1, file_name := f2_txt }] }]) := by
  refine ⟨by decide, by decide, by decide⟩

/-- C3 (as the code has it): on the index that `create_database` builds from the empty
index, within the capacities and with no NUL byte in the files, `search_database`
prints a match for `w` exactly when `w` is a token of at least one file of the list
that opens (so a word of no indexed file gives "No entries found"); the call returns
`SUCCESS` and the index after it is the index before it. -/
theorem search_database_after_create (head : File_list) (fs : FileSys)
    (hfit : Fits 0 head fs) (hnul : ∀ g ∈ head, no_nul fs g = true) :
    ∃ H : List Hash_t,
      create_database initialise_hash head fs = Outcome.ok (Status.SUCCESS, H) ∧
      ∀ w, ((search_database H w).2.2 ≠ Search_result.no_entries ↔
          ∃ f ∈ head, w ∈ file_tokens fs f) ∧
        (search_database H w).2.1 = H ∧ (search_database H w).1 = Status.SUCCESS := by
  refine ⟨_, create_database_ok _ head fs 0 hfit (below_initialise_hash 0), ?_⟩
  intro w
  obtain ⟨h1, h2, h3⟩ := search_after_create_plain head fs w
  refine ⟨?_, h2, h3⟩
  rw [h1]
  constructor
  · rintro ⟨f, hf, hw⟩
    exact ⟨f, hf, (file_has_word_iff fs w f (hnul f hf)).1 hw⟩
  · rintro ⟨f, hf, hw⟩
    exact ⟨f, hf, (file_has_word_iff fs w f (hnul f hf)).2 hw⟩

/-- Witness of C3: the files `f1.txt` = "foo bar foo" and `f2.txt` = "bar". -/
theorem search_database_after_create_witness :
    ∃ H : List Hash_t,
      create_database initialise_hash [f1_txt, f2_txt] example_fs =
        Outcome.ok (Status.SUCCESS, H) ∧
      ∀ w, ((search_database H w).2.2 ≠ Search_result.no_entries ↔
          ∃ f ∈ [f1_txt, f2_txt], w ∈ file_tokens example_fs f) ∧
        (search_database H w).2.1 = H ∧ (search_database H w).1 = Status.SUCCESS :=
  search_database_after_create [f1_txt, f2_txt] example_fs (by decide) (by decide)

/-- C3, counterexample: the only token of `f1.txt` = "a", NUL, "b" is the three bytes;
the build stores the C string "a", and a search for "a" prints a match. -/
theorem search_database_after_create_counterexample :
    file_tokens nul2_fs f1_txt = [['a', Char.ofNat 0, 'b']] ∧
      create_database initialise_hash [f1_txt] nul2_fs =
        Outcome.ok (Status.SUCCESS,
          set_bucket initialise_hash 0
            [{ file_count := 1, word := "a".toList,
               s_link := [{ word_count := 1, file_name := f1_txt }] }]) ∧
      (search_database
          (set_bucket initialise_hash 0
            [{ file_count := 1, word := "a".toList,
               s_link := [{ word_count := 1, file_name := f1_txt }] }]) "a".toList).2.2 =
        Search_result.found 1 [(f1_txt, 1)] := by
  refine ⟨by decide, by decide, by decide⟩

/-! ## Files that are skipped, words that differ in case, distinct names and words -/

/-- A file that cannot be opened contributes nothing to a build, whether or not the
build has a defined result. -/
theorem create_database_filter (h : List Hash_t) (head : File_list) (fs : FileSys) :
    create_database h head fs =
      create_database h (head.filter (fun f => (fopen_r fs f).isSome)) fs := by
  induction head generalizing h with
  | nil => rfl
  | cons f rest ih =>
    rw [List.filter_cons]
    cases hopen : fopen_r fs f with
    | none =>
      simp only [Option.isSome_none, Bool.false_eq_true, if_false]
      rw [create_database, hopen]
      exact ih h
    | some content =>
      simp only [Option.isSome_some, if_true]
      rw [create_database, hopen]
      conv => rhs; rw [create_database, hopen]
      simp only
      congr 1
      funext h1
      exact ih h1

/-- Within the capacities `create_database` returns `SUCCESS`, and a file that cannot
be opened contributes nothing; every defined result has the status `SUCCESS`. -/
theorem create_database_skips (h : List Hash_t) (head : File_list) (fs : FileSys) (n : Int)
    (hfit : Fits n head fs) (hb : AllNodes (Below n) h) :
    (∃ H, create_database h head fs = Outcome.ok (Status.SUCCESS, H) ∧
      create_database h (head.filter (fun f => (fopen_r fs f).isSome)) fs =
        Outcome.ok (Status.SUCCESS, H)) ∧
      ∀ r, create_database h head fs = Outcome.ok r → r.1 = Status.SUCCESS := by
  constructor
  · refine ⟨_, create_database_ok h head fs n hfit hb, ?_⟩
    rw [← create_database_filter]
    exact create_database_ok h head fs n hfit hb
  · intro r hr
    rw [create_database_ok_plain h head fs r hr]

/-- C11, at the failing input: the list names `f2.txt`, which cannot be opened, and
`f1.txt`, which holds one token of 50 characters.  The call `fscanf(fptr, "%s", buffer)`
of line 37 writes the token and a NUL, 51 bytes, into `buffer[50]`; the run has no
defined result, and does not return `SUCCESS`. -/
theorem create_database_long_token :
    fopen_r long_word_only_fs f2_txt = none ∧
      fopen_r long_word_only_fs f1_txt = some long_word ∧ long_word.length = 50 ∧
      fscanf_s long_word = Outcome.undefined ∧
      create_database initialise_hash [f2_txt, f1_txt] long_word_only_fs =
        Outcome.undefined := by
  refine ⟨by decide, by decide, by decide, by decide, by decide⟩

/-- C14 (as the code has it): two words that differ only in the case of their leading
letter go to the same bucket; when both are tokens of files of the list, the files
hold no NUL byte and the build stays within the capacities, `create_database` returns
`SUCCESS` and that bucket holds two distinct main nodes, one for each word, each
with a sub node for the file the word was read from. -/
theorem case_variants_two_entries (h : List Hash_t) (head : File_list) (fs : FileSys)
    (n : Int) (c1 c2 : Char) (rest f1 f2 : Str) (hlen : h.length = HASH_SIZE)
    (hcase : (('A'.toNat ≤ c1.toNat ∧ c1.toNat ≤ 'Z'.toNat) ∧ c2.toNat = c1.toNat + 32) ∨
      (('A'.toNat ≤ c2.toNat ∧ c2.toNat ≤ 'Z'.toNat) ∧ c1.toNat = c2.toNat + 32))
    (hfit : Fits n head fs) (hb : AllNodes (Below n) h)
    (hnul : ∀ g ∈ head, no_nul fs g = true)
    (hf1 : f1 ∈ head) (hw1 : c1 :: rest ∈ file_tokens fs f1)
    (hf2 : f2 ∈ head) (hw2 : c2 :: rest ∈ file_tokens fs f2) :
    find_index (c1 :: rest) = find_index (c2 :: rest) ∧
      ∃ H, create_database h head fs = Outcome.ok (Status.SUCCESS, H) ∧
      ∃ m1 ∈ bucket H (find_index (c1 :: rest)),
      ∃ m2 ∈ bucket H (find_index (c1 :: rest)),
        m1.word = c1 :: rest ∧ m2.word = c2 :: rest ∧ m1 ≠ m2 ∧
        f1 ∈ m1.s_link.map (fun s => s.file_name) ∧
        f2 ∈ m2.s_link.map (fun s => s.file_name) := by
  obtain ⟨hi, hex⟩ := case_variants_plain h head fs c1 c2 rest f1 f2 hlen hcase hf1
    ((file_has_word_iff fs _ f1 (hnul f1 hf1)).2 hw1) hf2
    ((file_has_word_iff fs _ f2 (hnul f2 hf2)).2 hw2)
  exact ⟨hi, _, create_database_ok h head fs n hfit hb, hex⟩

/-- Witness of C14: the words "Data" and "data" of `f1.txt` = "Data data". -/
theorem case_variants_two_entries_witness :
    find_index ('D' :: "ata".toList) = find_index ('d' :: "ata".toList) ∧
      ∃ H, create_database initialise_hash [f1_txt] case_fs = Outcome.ok (Status.SUCCESS, H) ∧
      ∃ m1 ∈ bucket H (find_index ('D' :: "ata".toList)),
      ∃ m2 ∈ bucket H (find_index ('D' :: "ata".toList)),
        m1.word = 'D' :: "ata".toList ∧ m2.word = 'd' :: "ata".toList ∧ m1 ≠ m2 ∧
        f1_txt ∈ m1.s_link.map (fun s => s.file_name) ∧
        f1_txt ∈ m2.s_link.map (fun s => s.file_name) :=
  case_variants_two_entries initialise_hash [f1_txt] case_fs 0 'D' 'd' "ata".toList f1_txt
    f1_txt (by decide) (by decide) (by decide) (below_initialise_hash 0) (by decide)
    (by decide) (by decide) (by decide) (by decide)

/-- C14, counterexample: the tokens of `f1.txt` are "D", NUL and "d", NUL, two words that
differ only in the case of their leading letter; the build stores the C strings "D"
and "d", and no main node has the first of the two words. -/
theorem case_variants_two_entries_counterexample :
    file_tokens nul_case_fs f1_txt = [['D', Char.ofNat 0], ['d', Char.ofNat 0]] ∧
      create_database initialise_hash [f1_txt] nul_case_fs =
        Outcome.ok (Status.SUCCESS,
          set_bucket initialise_hash 3
            [{ file_count := 1, word := "D".toList,
               s_link := [{ word_count := 1, file_name := f1_txt }] },
             { file_count := 1, word := "d".toList,
               s_link := [{ word_count := 1, file_name := f1_txt }] }]) ∧
      ¬ ∃ m ∈ bucket (set_bucket initialise_hash 3
            [{ file_count := 1, word := "D".toList,
               s_link := [{ word_count := 1, file_name := f1_txt }] },
             { file_count := 1, word := "d".toList,
               s_link := [{ word_count := 1, file_name := f1_txt }] }]) 3,
          m.word = ['D', Char.ofNat 0] := by
  refine ⟨by decide, by decide, by decide⟩

/-- Within the capacities `create_database` returns `SUCCESS` and keeps the file names
of every main node distinct; so does every run with a defined result. -/
theorem create_database_names_distinct_ok (h : List Hash_t) (head : File_list) (fs : FileSys)
    (n : Int) (hfit : Fits n head fs) (hb : AllNodes (Below n) h)
    (hpre : AllNodes NamesNodup h) :
    (∃ H, create_database h head fs = Outcome.ok (Status.SUCCESS, H) ∧
      AllNodes NamesNodup H) ∧
      ∀ r, create_database h head fs = Outcome.ok r → AllNodes NamesNodup r.2 := by
  constructor
  · exact ⟨_, create_database_ok h head fs n hfit hb, (names_distinct_plain h head fs hpre).1⟩
  · intro r hr
    rw [create_database_ok_plain h head fs r hr]
    exact (names_distinct_plain h head fs hpre).1

/-- C16, at the failing input: the list holds one name of 54 characters, and the file
holds "a a".  The call `create_sub_node(head->file_name)` copies the name and a NUL,
55 bytes, into `file_name[50]` (helper.c line 77); the run has no defined result. -/
theorem create_database_long_name :
    long_name.length = 54 ∧ fopen_r long_name_fs long_name = some "a a".toList ∧
      AllNodes NamesNodup initialise_hash ∧
      create_sub_node long_name = Outcome.undefined ∧
      create_database initialise_hash [long_name] long_name_fs = Outcome.undefined := by
  refine ⟨by decide, by decide, buildInv_initialise_hash.names, by decide, by decide⟩

/-- Within the capacities `create_database` returns `SUCCESS` and keeps the words of
every bucket distinct; so does every run with a defined result. -/
theorem create_database_words_distinct_ok (h : List Hash_t) (head : File_list) (fs : FileSys)
    (n : Int) (hfit : Fits n head fs) (hb : AllNodes (Below n) h) (hpre : WordsNodup h) :
    (∃ H, create_database h head fs = Outcome.ok (Status.SUCCESS, H) ∧ WordsNodup H) ∧
      ∀ r, create_database h head fs = Outcome.ok r → WordsNodup r.2 := by
  constructor
  · exact ⟨_, create_database_ok h head fs n hfit hb, (words_distinct_plain h head fs hpre).1⟩
  · intro r hr
    rw [create_database_ok_plain h head fs r hr]
    exact (words_distinct_plain h head fs hpre).1

/-- C17, at the failing input: `f1.txt` holds the same token of 52 characters twice.
The call `fscanf(fptr, "%s", buffer)` of line 37 writes 53 bytes into `buffer[50]`, and
`create_main_node` would copy them into `word[50]`; the run has no defined result. -/
theorem create_database_long_word_twice :
    long_word52.length = 52 ∧
      fopen_r twice_long_fs f1_txt = some (long_word52 ++ ' ' :: long_word52) ∧
      tokens (long_word52 ++ ' ' :: long_word52) = [long_word52, long_word52] ∧
      WordsNodup initialise_hash ∧
      create_main_node long_word52 = Outcome.undefined ∧
      create_database initialise_hash [f1_txt] twice_long_fs = Outcome.undefined := by
  refine ⟨by decide, by decide, by decide, buildInv_initialise_hash.words, by decide, by decide⟩

/-! ## Saving and loading -/

theorem fopen_r_write (fs : FileSys) (path text : Str) (hne : path ≠ []) :
    fopen_r (fs.write path text) path = some text := by
  simp [fopen_r, FileSys.write, hne]

theorem ne_nil_of_txt_suffix (path : Str) (hext : ['.', 't', 'x', 't'] <:+ path) : path ≠ [] := by
  rcases hext with ⟨p, hp⟩
  intro e
  rw [e] at hp
  simp at hp

/-- C6, amended: for every index and every path ending in ".txt" that can be opened
for writing, `save_database` returns `SUCCESS`, leaves the index as it was, and the
file holds exactly the concatenation of the records of the WordEntry values, buckets
0..26 in increasing order and stored order inside a bucket, each record being
`#<bucketIndex>;<word>;<fileCount>;`, then `<fileName>;<count>;` per Occurrence in
stored order, then `#` and a newline: one record per WordEntry.  When no word and no
file name of the index contains a newline, the number of newline characters, hence of
lines, is the number of WordEntry values. -/
theorem save_database_writes_records (h : List Hash_t) (path : Str) (fs : FileSys)
    (hext : ['.', 't', 'x', 't'] <:+ path) (hw : fs.writable path = true) :
    save_database h path fs =
        Outcome.ok (Status.SUCCESS, h, fs.write path (records_text (all_records h))) ∧
      ((∀ r ∈ all_records h, '\n' ∉ r.2.word ∧ ∀ s ∈ r.2.s_link, '\n' ∉ s.file_name) →
        (records_text (all_records h)).count '\n' = (all_records h).length) :=
  ⟨save_database_ok h path fs ((validate_file_extension_iff path).2 hext) hw,
    count_newline_records_text (all_records h)⟩

/-- Witness of C6: saving `example_index` to `backup.txt`. -/
theorem save_database_writes_records_witness :
    save_database example_index backup_txt example_fs =
        Outcome.ok (Status.SUCCESS, example_index,
          example_fs.write backup_txt (records_text (all_records example_index))) ∧
      (records_text (all_records example_index)).count '\n' =
        (all_records example_index).length :=
  ⟨(save_database_writes_records example_index backup_txt example_fs (by decide) rfl).1,
    (save_database_writes_records example_index backup_txt example_fs (by decide) rfl).2
      (by decide)⟩

/-- Counterexample to C6 as stated: the index built from a file whose name contains a
newline has one WordEntry, and the text `save_database` writes for it has two
lines. -/
theorem save_database_lines_counterexample :
    save_database newline_index backup_txt newline_fs =
        Outcome.ok (Status.SUCCESS, newline_index,
          newline_fs.write backup_txt "#0;a;1;x\ny.txt;1;#\n".toList) ∧
      ("#0;a;1;x\ny.txt;1;#\n".toList).count '\n' = 2 ∧
      (all_records newline_index).length = 1 ∧
      ("#0;a;1;x\ny.txt;1;#\n".toList).count '\n' ≠ (all_records newline_index).length :=
  ⟨rfl, by decide, by decide, by decide⟩

/-- For every index of `HASH_SIZE` buckets and every readable ".txt" backup made of
well-formed records (`record_ok`), `update_database` returns, and for each bucket `b`
the chain afterwards is the chain before followed by one new main node per record
whose bucket index is `b`, in file order, carrying the record's word, file count and
pairs in the order read.  No existing entry is looked for: a record for a word that
its bucket already holds leaves at least two main nodes with that word. -/
theorem update_database_appends_ok (h : List Hash_t) (path : Str) (head : File_list)
    (fs : FileSys) (junk : Nat → Str × Int) (rs : List (Nat × Main_node))
    (hlen : h.length = HASH_SIZE) (hext : ['.', 't', 'x', 't'] <:+ path)
    (hopen : fopen_r fs path = some (records_text rs)) (hok : ∀ r ∈ rs, record_ok r) :
    ∃ (st : Status) (h' : List Hash_t) (head' : File_list) (log : List Str),
      update_database h path head fs junk = Outcome.ok (st, h', head', log) ∧
      (∀ b, bucket h' b =
        bucket h b ++ (rs.filter (fun r => decide (r.1 = b))).map (fun r => r.2)) ∧
      (∀ r ∈ rs, ∀ m ∈ bucket h r.1, m.word = r.2.word →
        2 ≤ ((bucket h' r.1).filter (fun m' => decide (m'.word = r.2.word))).length) := by
  have hb : ∀ b, bucket (append_records h rs) b =
      bucket h b ++ (rs.filter (fun r => decide (r.1 = b))).map (fun r => r.2) :=
    fun b => bucket_append_records h rs b hlen (fun r hr => (hok r hr).1)
  refine ⟨_, _, _, _, update_database_records junk h path head fs rs
    ((validate_file_extension_iff path).2 hext) hopen hok, hb, ?_⟩
  intro r hr m hm hw
  rw [hb, List.filter_append, List.length_append]
  have h1 : 0 < ((bucket h r.1).filter (fun m' => decide (m'.word = r.2.word))).length := by
    apply List.length_pos_of_mem (a := m)
    exact List.mem_filter.2 ⟨hm, by simpa using hw⟩
  have h2 : 0 < (((rs.filter (fun r' => decide (r'.1 = r.1))).map (fun r' => r'.2)).filter
      (fun m' => decide (m'.word = r.2.word))).length := by
    apply List.length_pos_of_mem (a := r.2)
    apply List.mem_filter.2
    refine ⟨List.mem_map.2 ⟨r, List.mem_filter.2 ⟨hr, by simp⟩, rfl⟩, by simp⟩
  omega

/-- C8, evaluated at the failing input: `backup.txt` = "#27;a;0;#" and a newline ends
in ".txt", can be opened, is not empty, starts with `#` and has `#` two bytes before
its end; the header is read with bucket index 27, and the run of `update_database`
indexes `hash_array` at 27: it has no defined result. -/
theorem update_database_index_out_of_range :
    validate_file_extension backup_txt = Status.SUCCESS ∧
      fopen_r out_of_range_fs backup_txt = some "#27;a;0;#\n".toList ∧
      validate_file_size "#27;a;0;#\n".toList ≠ 0 ∧
      validate_backup_database "#27;a;0;#\n".toList = Status.SUCCESS ∧
      fscanf_header "#27;a;0;#\n".toList =
        Outcome.ok (some (27, "a".toList, 0, "#\n".toList)) ∧
      update_database initialise_hash backup_txt [] out_of_range_fs junk0 =
        Outcome.undefined :=
  ⟨by decide, by decide, by decide, by decide, by decide, by decide⟩

/-- C9: when `update_database` returns `FAILURE`, the index and the file list are the
ones it was called with and no file name has been reported as deleted; when
`save_database` returns `FAILURE`, the index and the file system are the ones it was
called with. -/
theorem failure_changes_nothing (h : List Hash_t) (path : Str) (head : File_list) (fs : FileSys)
    (junk : Nat → Str × Int) (h' : List Hash_t) (head' : File_list) (log : List Str)
    (fs' : FileSys) :
    (update_database h path head fs junk = Outcome.ok (Status.FAILURE, h', head', log) →
        h' = h ∧ head' = head ∧ log = []) ∧
      (save_database h path fs = Outcome.ok (Status.FAILURE, h', fs') → h' = h ∧ fs' = fs) :=
  ⟨update_database_failure junk h path head fs h' head' log,
    save_database_failure h path fs h' fs'⟩

/-- Witness of C9: `f1.txt` starts with `f`, not with `#`, so loading it fails; and a
save to `f1.txt.bak` fails on the extension. -/
theorem failure_changes_nothing_witness :
    (update_database example_index f1_txt [f1_txt, f2_txt] example_fs junk0 =
        Outcome.ok (Status.FAILURE, example_index, [f1_txt, f2_txt], []) ∧
      (example_index = example_index ∧ [f1_txt, f2_txt] = [f1_txt, f2_txt] ∧
        ([] : List Str) = [])) ∧
    (save_database example_index "f1.txt.bak".toList example_fs =
        Outcome.ok (Status.FAILURE, example_index, example_fs) ∧
      (example_index = example_index ∧ example_fs = example_fs)) :=
  ⟨⟨by decide,
      (failure_changes_nothing example_index f1_txt [f1_txt, f2_txt] example_fs junk0
        example_index [f1_txt, f2_txt] [] example_fs).1 (by decide)⟩,
    ⟨rfl,
      (failure_changes_nothing example_index "f1.txt.bak".toList [] example_fs junk0
        example_index [] [] example_fs).2 rfl⟩⟩

/-- For a file list of distinct names and a readable ".txt" backup made of well-formed
records (`record_ok`), `update_database` returns, the file list afterwards is the
original one without the names that occur in an occurrence pair of the backup, and
each removed name is reported exactly once. -/
theorem update_database_file_list_ok (h : List Hash_t) (path : Str) (head : File_list)
    (fs : FileSys) (junk : Nat → Str × Int) (rs : List (Nat × Main_node))
    (hnd : head.Nodup) (hext : ['.', 't', 'x', 't'] <:+ path)
    (hopen : fopen_r fs path = some (records_text rs)) (hok : ∀ r ∈ rs, record_ok r) :
    ∃ (st : Status) (h' : List Hash_t) (head' : File_list) (log : List Str),
      update_database h path head fs junk = Outcome.ok (st, h', head', log) ∧
      head' = head.filter (fun n => decide (n ∉ record_names rs)) ∧
      log.Nodup ∧ ∀ n, n ∈ log ↔ n ∈ head ∧ n ∈ record_names rs := by
  rcases claim_names_log head [] (record_names rs) hnd with ⟨L, hL, hLnd, hLmem⟩
  refine ⟨_, _, _, _, update_database_records junk h path head fs rs
    ((validate_file_extension_iff path).2 hext) hopen hok,
    claim_names_list head [] (record_names rs) hnd, ?_, ?_⟩
  · rw [hL]
    simpa using hLnd
  · intro n
    rw [hL]
    simpa using hLmem n


/-- C7, at the failing input: the backup holds the one record `#0;a;1;<name>;1;#` whose
file name has 54 characters.  It passes the validation; the conversion `%[^;]` of
line 323 writes the name and a NUL, 55 bytes, into `file_name[50]`: the run has no
defined result, and no main node carrying the pair is appended. -/
theorem update_database_long_file_name :
    fopen_r long_pair_fs backup_txt =
        some ("#0;a;1;".toList ++ long_name ++ ";1;#\n".toList) ∧
      long_name.length = 54 ∧ ';' ∉ long_name ∧
      validate_file_size ("#0;a;1;".toList ++ long_name ++ ";1;#\n".toList) ≠ 0 ∧
      validate_backup_database ("#0;a;1;".toList ++ long_name ++ ";1;#\n".toList) =
        Status.SUCCESS ∧
      fscanf_header ("#0;a;1;".toList ++ long_name ++ ";1;#\n".toList) =
        Outcome.ok (some (0, "a".toList, 1, long_name ++ ";1;#\n".toList)) ∧
      scan_not_semicolon (long_name ++ ";1;#\n".toList) = Outcome.undefined ∧
      update_database initialise_hash backup_txt [] long_pair_fs junk0 = Outcome.undefined := by
  refine ⟨by decide, by decide, by decide, by decide, by decide, by decide, by decide, by decide⟩

/-- C10, at the failing input: the file list holds `f1.txt`; the backup holds one record
with a pair for `f1.txt` and a pair whose file name has 60 characters.  The second
conversion `%[^;]` of line 323 writes 61 bytes into `file_name[50]`: the run has no
defined result, and no file list is returned. -/
theorem update_database_long_second_name :
    [f1_txt].Nodup ∧
      fopen_r long_second_pair_fs backup_txt =
        some ("#0;a;2;f1.txt;1;".toList ++ List.replicate 60 'm' ++ ";1;#\n".toList) ∧
      fscanf_pair [] 0 ("f1.txt;1;".toList ++ List.replicate 60 'm' ++ ";1;#\n".toList) =
        Outcome.ok (f1_txt, 1, List.replicate 60 'm' ++ ";1;#\n".toList) ∧
      fscanf_pair f1_txt 1 (List.replicate 60 'm' ++ ";1;#\n".toList) = Outcome.undefined ∧
      update_database initialise_hash backup_txt [f1_txt] long_second_pair_fs junk0 =
        Outcome.undefined := by
  refine ⟨by decide, by decide, by decide, by decide, by decide⟩

/-! ## The round trip -/

theorem file_words_ne_nil_of_tokens (fs : FileSys) (f : Str) (h : file_tokens fs f ≠ []) :
    ∃ c, fopen_r fs f = some c ∧ file_words_plain c ≠ [] := by
  cases hopen : fopen_r fs f with
  | none =>
    rw [file_tokens_of_not_open fs f hopen] at h
    exact absurd rfl h
  | some c =>
    refine ⟨c, rfl, ?_⟩
    rw [file_tokens_of_open fs f c hopen] at h
    rw [file_words_plain_tokens]
    intro e
    exact h (List.map_eq_nil_iff.1 e)

/-- C5 (round trip, as the code has it): for a list of files that together hold at
least one token, within the capacities, where no token starts with a NUL byte and no
token and no file name contains `;`, and for a writable path ending in ".txt":
`create_database` returns `SUCCESS` with an index, `save_database` of that index
succeeds, and `update_database` of the saved file into the empty index succeeds and
gives an index equal to the original, whatever the file list passed to it. -/
theorem save_update_round_trip (head : File_list) (fs : FileSys) (path : Str)
    (registry : File_list) (junk : Nat → Str × Int)
    (htok : ∃ f ∈ head, file_tokens fs f ≠ [])
    (hfit : Fits 0 head fs)
    (hlead : ∀ f ∈ head, ∀ t ∈ file_tokens fs f, t.head? ≠ some (Char.ofNat 0))
    (hsemi : ∀ f ∈ head, ∀ t ∈ file_tokens fs f, ';' ∉ t)
    (hnames : ∀ f ∈ head, ';' ∉ f ∧ Char.ofNat 0 ∉ f)
    (hext : ['.', 't', 'x', 't'] <:+ path) (hw : fs.writable path = true) :
    ∃ (H : List Hash_t) (fs' : FileSys) (registry' : File_list) (log : List Str),
      create_database initialise_hash head fs = Outcome.ok (Status.SUCCESS, H) ∧
      save_database H path fs = Outcome.ok (Status.SUCCESS, H, fs') ∧
      update_database initialise_hash path registry fs' junk =
        Outcome.ok (Status.SUCCESS, H, registry', log) := by
  have hv := (validate_file_extension_iff path).2 hext
  have hinv := buildInv_create_database head fs
  obtain ⟨f, hf, hne⟩ := htok
  have htok' : ∃ f ∈ head, ∃ c, fopen_r fs f = some c ∧ file_words_plain c ≠ [] :=
    ⟨f, hf, file_words_ne_nil_of_tokens fs f hne⟩
  have hupd := update_database_records junk initialise_hash path registry
    (fs.write path (records_text (all_records (create_database_plain initialise_hash head fs).2)))
    (all_records (create_database_plain initialise_hash head fs).2) hv
    (fopen_r_write fs path _ (ne_nil_of_txt_suffix path hext))
    (record_ok_create_database head fs hfit hlead hsemi hnames)
  rw [if_neg (all_records_ne_nil head fs htok'),
    append_all_records _ hinv.size (map_index_create_database head fs)] at hupd
  exact ⟨_, _, _, _, create_database_ok _ head fs 0 hfit (below_initialise_hash 0),
    save_database_ok _ path fs hv hw, hupd⟩

/-- Witness of C5: the scenario of the spec, `f1.txt` = "foo bar foo" and
`f2.txt` = "bar", saved to `backup.txt` and loaded into the empty index. -/
theorem save_update_round_trip_witness :
    ∃ (H : List Hash_t) (fs' : FileSys) (registry' : File_list) (log : List Str),
      create_database initialise_hash [f1_txt, f2_txt] example_fs =
        Outcome.ok (Status.SUCCESS, H) ∧
      save_database H backup_txt example_fs = Outcome.ok (Status.SUCCESS, H, fs') ∧
      update_database initialise_hash backup_txt [f1_txt, f2_txt] fs' junk0 =
        Outcome.ok (Status.SUCCESS, H, registry', log) :=
  save_update_round_trip [f1_txt, f2_txt] example_fs backup_txt [f1_txt, f2_txt] junk0
    ⟨f1_txt, by decide, by decide⟩ (by decide) (by decide) (by decide) (by decide) (by decide)
    rfl

/-- C5, counterexample: the file `f1.txt` = NUL, "x" holds one token, without `;`; the
build reads it as the empty C string, `save_database` writes the record `#26;;1;f1.txt;1;#`,
and `update_database` of that file into the empty index returns `SUCCESS` and loads
nothing, since `%[^;]` does not match an empty word: the index is not the original. -/
theorem save_update_round_trip_counterexample :
    file_tokens nul_lead_fs f1_txt = [[Char.ofNat 0, 'x']] ∧
      create_database initialise_hash [f1_txt] nul_lead_fs =
        Outcome.ok (Status.SUCCESS, nul_lead_index) ∧
      save_database nul_lead_index backup_txt nul_lead_fs =
        Outcome.ok (Status.SUCCESS, nul_lead_index,
          nul_lead_fs.write backup_txt "#26;;1;f1.txt;1;#\n".toList) ∧
      update_database initialise_hash backup_txt []
          (nul_lead_fs.write backup_txt "#26;;1;f1.txt;1;#\n".toList) junk0 =
        Outcome.ok (Status.SUCCESS, initialise_hash, [], []) ∧
      nul_lead_index ≠ initialise_hash := by
  refine ⟨by decide, by decide, rfl, by decide, by decide⟩

/-! ## The claims about the validation of a path and of a backup -/

/-- C18: `validate_file_extension` returns `SUCCESS` exactly when the name ends with
the four characters ".txt", that is when the text from its last `.` on is ".txt"; for
every other path `save_database` and `update_database` return `FAILURE`, and leave
what they were given. -/
theorem extension_is_checked (path : Str) (h : List Hash_t) (head : File_list) (fs : FileSys)
    (junk : Nat → Str × Int) :
    (validate_file_extension path = Status.SUCCESS ↔ ['.', 't', 'x', 't'] <:+ path) ∧
      (validate_file_extension path = Status.SUCCESS ↔
        strrchr path '.' = some ['.', 't', 'x', 't']) ∧
      (¬ ['.', 't', 'x', 't'] <:+ path →
        save_database h path fs = Outcome.ok (Status.FAILURE, h, fs) ∧
        update_database h path head fs junk = Outcome.ok (Status.FAILURE, h, head, [])) := by
  refine ⟨validate_file_extension_iff path, ?_, ?_⟩
  · unfold validate_file_extension
    cases hr : strrchr path '.' with
    | none => simp
    | some dot =>
      simp only [Option.some.injEq]
      split
      · rename_i hd
        simp [hd]
      · rename_i hd
        simp [hd]
  · intro hnot
    have hv : validate_file_extension path = Status.FAILURE := by
      rcases validate_file_extension_cases path with hv | hv
      · exact absurd ((validate_file_extension_iff path).1 hv) hnot
      · exact hv
    constructor
    · unfold save_database
      rw [if_pos hv]
    · unfold update_database
      rw [if_pos hv]

/-- Witness of C18: `f1.txt.bak` does not end in ".txt". -/
theorem extension_is_checked_witness :
    save_database example_index "f1.txt.bak".toList example_fs =
        Outcome.ok (Status.FAILURE, example_index, example_fs) ∧
      update_database example_index "f1.txt.bak".toList [f1_txt] example_fs junk0 =
        Outcome.ok (Status.FAILURE, example_index, [f1_txt], []) :=
  (extension_is_checked "f1.txt.bak".toList example_index [f1_txt] example_fs junk0).2.2
    (by decide)

/-- C19, amended: `update_database` accepts a backup, that is does not return
`FAILURE`, exactly when the path ends in ".txt" and the file can be opened, starts
with `#` and has `#` two bytes before its end (so it has at least two bytes).  The
last byte is not looked at. -/
theorem update_database_accepts_iff (junk : Nat → Str × Int) (h : List Hash_t) (backup : Str)
    (head : File_list) (fs : FileSys) :
    (¬ ∃ h' head' log,
        update_database h backup head fs junk = Outcome.ok (Status.FAILURE, h', head', log)) ↔
      (['.', 't', 'x', 't'] <:+ backup ∧
        ∃ content, fopen_r fs backup = some content ∧ content[0]? = some '#' ∧
          2 ≤ content.length ∧ content[content.length - 2]? = some '#') := by
  rw [update_database_failure_iff]
  constructor
  · intro hnot
    have h1 : ['.', 't', 'x', 't'] <:+ backup := by
      by_contra hc
      exact hnot (Or.inl hc)
    refine ⟨h1, ?_⟩
    cases hopen : fopen_r fs backup with
    | none => exact absurd (Or.inr (Or.inl hopen)) hnot
    | some content =>
      refine ⟨content, rfl, ?_, ?_, ?_⟩
      · by_contra hc
        exact hnot (Or.inr (Or.inr ⟨content, hopen, Or.inr (Or.inl hc)⟩))
      · by_contra hc
        exact hnot (Or.inr (Or.inr ⟨content, hopen, Or.inr (Or.inr (Or.inl (by omega)))⟩))
      · by_contra hc
        exact hnot (Or.inr (Or.inr ⟨content, hopen, Or.inr (Or.inr (Or.inr hc))⟩))
  · rintro ⟨h1, content, hopen, h0, h2, hp⟩ hfail
    rcases hfail with hf | hf | ⟨c, hc, hf⟩
    · exact hf h1
    · rw [hopen] at hf
      simp at hf
    · rw [hopen] at hc
      simp only [Option.some.injEq] at hc
      subst hc
      rcases hf with hf | hf | hf | hf
      · rw [hf] at h2
        simp at h2
      · exact hf h0
      · omega
      · exact hf hp

/-- Counterexample to C19 as stated: the file of the two bytes `#a` does not end in `#`
and a newline, and `update_database` accepts it and returns `SUCCESS`. -/
theorem update_database_accepts_counterexample :
    update_database initialise_hash backup_txt [] short_backup_fs junk0 =
        Outcome.ok (Status.SUCCESS, initialise_hash, [], []) ∧
      fopen_r short_backup_fs backup_txt = some "#a".toList ∧
      "#a".toList ≠ "#\n".toList :=
  ⟨by decide, by decide, by decide⟩

/-- C20, amended: for every index and every writable path ending in ".txt",
`save_database` succeeds, and `update_database` applied to the file it wrote, with any
index and file list, fails when the index that was saved has no main node (the file
is empty); when it has one, the validation is passed, so the result is `SUCCESS`
unless the run has no defined result (a bucket index out of range, or a field that
does not fit, is read back); and it is `SUCCESS` when all the records of the saved
index are well formed. -/
theorem saved_backup_loads (h : List Hash_t) (path : Str) (fs : FileSys)
    (hext : ['.', 't', 'x', 't'] <:+ path) (hw : fs.writable path = true) :
    ∃ fs' : FileSys,
      save_database h path fs = Outcome.ok (Status.SUCCESS, h, fs') ∧
      ∀ (h0 : List Hash_t) (head : File_list) (junk : Nat → Str × Int),
        (all_records h = [] →
          update_database h0 path head fs' junk = Outcome.ok (Status.FAILURE, h0, head, [])) ∧
        (all_records h ≠ [] →
          ((∃ h' head' log, update_database h0 path head fs' junk =
              Outcome.ok (Status.SUCCESS, h', head', log)) ∨
            update_database h0 path head fs' junk = Outcome.undefined)) ∧
        (all_records h ≠ [] → (∀ r ∈ all_records h, record_ok r) →
          ∃ h' head' log, update_database h0 path head fs' junk =
            Outcome.ok (Status.SUCCESS, h', head', log)) := by
  have hv := (validate_file_extension_iff path).2 hext
  have hopen := fopen_r_write fs path (records_text (all_records h))
    (ne_nil_of_txt_suffix path hext)
  refine ⟨_, save_database_ok h path fs hv hw, ?_⟩
  intro h0 head junk
  refine ⟨?_, ?_, ?_⟩
  · intro hnil
    have hload := update_database_records junk h0 path head _ (all_records h) hv hopen
      (by rw [hnil]; intro r hr; simp at hr)
    rw [hload, hnil]
    simp [append_records, record_names, claim_names]
  · intro hne
    rcases validate_records_text (all_records h) hne with ⟨h1, h2⟩
    exact update_database_of_valid junk h0 path head _ _ hv hopen h1 h2
  · intro hne hok
    have hload := update_database_records junk h0 path head _ (all_records h) hv hopen hok
    rw [if_neg hne] at hload
    exact ⟨_, _, _, hload⟩

/-- Witness of C20: the index built from `f1.txt` and `f2.txt`, saved to
`backup.txt`. -/
theorem saved_backup_loads_witness :
    ∃ fs' : FileSys,
      save_database example_index backup_txt example_fs =
        Outcome.ok (Status.SUCCESS, example_index, fs') ∧
      ∀ (h0 : List Hash_t) (head : File_list) (junk : Nat → Str × Int),
        (all_records example_index = [] →
          update_database h0 backup_txt head fs' junk =
            Outcome.ok (Status.FAILURE, h0, head, [])) ∧
        (all_records example_index ≠ [] →
          ((∃ h' head' log, update_database h0 backup_txt head fs' junk =
              Outcome.ok (Status.SUCCESS, h', head', log)) ∨
            update_database h0 backup_txt head fs' junk = Outcome.undefined)) ∧
        (all_records example_index ≠ [] → (∀ r ∈ all_records example_index, record_ok r) →
          ∃ h' head' log, update_database h0 backup_txt head fs' junk =
            Outcome.ok (Status.SUCCESS, h', head', log)) :=
  saved_backup_loads example_index backup_txt example_fs (by decide) rfl

/-- Counterexample to C20 as stated: `save_database` of the empty index to
`backup.txt` succeeds and writes an empty file, and `update_database` of that file
returns `FAILURE`. -/
theorem saved_backup_loads_counterexample :
    save_database initialise_hash backup_txt example_fs =
        Outcome.ok (Status.SUCCESS, initialise_hash,
          example_fs.write backup_txt (save_text initialise_hash)) ∧
      save_text initialise_hash = [] ∧
      update_database initialise_hash backup_txt []
          (example_fs.write backup_txt (save_text initialise_hash)) junk0 =
        Outcome.ok (Status.FAILURE, initialise_hash, [], []) :=
  ⟨rfl, by decide, by decide⟩

/-! ## The word field of a saved record -/

theorem fscanf_s_no_space (inp w rest : Str) (h : fscanf_s_plain inp = some (w, rest)) :
    ∀ c ∈ w, isspace c = false := by
  unfold fscanf_s_plain at h
  simp only at h
  split at h
  · simp at h
  · simp only [Option.some.injEq, Prod.mk.injEq] at h
    intro c hc
    rw [← h.1] at hc
    have h1 : c ∈ (inp.dropWhile isspace).takeWhile (fun c => !isspace c) :=
      (List.takeWhile_prefix _).subset hc
    have h2 := List.mem_takeWhile_imp h1
    simpa using h2

theorem read_words_no_space (fuel : Nat) (inp : Str) :
    ∀ w ∈ read_words_plain fuel inp, ∀ c ∈ w, isspace c = false := by
  induction fuel generalizing inp with
  | zero => simp [read_words_plain]
  | succ fuel ih =>
    intro w hw
    unfold read_words_plain at hw
    cases hs : fscanf_s_plain inp with
    | none => simp [hs] at hw
    | some p =>
      obtain ⟨w0, rest⟩ := p
      simp only [hs, List.mem_cons] at hw
      rcases hw with hw | hw
      · subst hw
        exact fscanf_s_no_space inp w rest hs
      · exact ih rest w hw

/-- The word of every main node built from the empty index, capacities apart, is a word
read from a file of the list that can be opened. -/
theorem word_in_file (head : File_list) (fs : FileSys) (i : Nat) (m : Main_node)
    (hm : m ∈ bucket (create_database_plain initialise_hash head fs).2 i) :
    ∃ f ∈ head, file_has_word fs m.word f = true := by
  have hinv := buildInv_create_database head fs
  have hsub : m.s_link ≠ [] := hinv.subs i m hm
  obtain ⟨s, hs⟩ := List.exists_mem_of_ne_nil _ hsub
  have hst := sub_in_stream head fs i m s hm hs
  exact ⟨s.file_name, (mem_word_stream head fs s.file_name m.word).1 hst⟩

theorem file_has_word_chars (fs : FileSys) (w f : Str) (h : file_has_word fs w f = true) :
    ∀ c ∈ w, isspace c = false ∧ c ≠ Char.ofNat 0 := by
  unfold file_has_word at h
  cases hopen : fopen_r fs f with
  | none => simp [hopen] at h
  | some content =>
    simp only [hopen, decide_eq_true_eq] at h
    intro c hc
    refine ⟨read_words_no_space _ _ w h c hc, ?_⟩
    intro h0
    exact (read_words_spec _ _ w h).1 (h0 ▸ hc)

/-- C21 (as the code has it): for files within the capacities in which no token
contains ';', `create_database` from the empty index returns an index, and the text
that `save_database` writes for it is the sequence of the records of its main nodes,
each conforming to the grammar: the word field is not empty when the file holds no
NUL byte, is a token of a file of the list as read into a C string (the token itself
when the file holds no NUL byte), contains no ';' and no white space, and the file
count field is the number of pairs that follow. -/
theorem saved_word_field (head : File_list) (fs : FileSys) (hfit : Fits 0 head fs)
    (hsemi : ∀ f ∈ head, ∀ t ∈ file_tokens fs f, ';' ∉ t) :
    ∃ H : List Hash_t,
      create_database initialise_hash head fs = Outcome.ok (Status.SUCCESS, H) ∧
      (∀ path, ['.', 't', 'x', 't'] <:+ path → fs.writable path = true →
        save_database H path fs =
          Outcome.ok (Status.SUCCESS, H, fs.write path (records_text (all_records H)))) ∧
      ∀ r ∈ all_records H,
        (∃ f ∈ head, ∃ t ∈ file_tokens fs f, r.2.word = cstr t ∧
          (no_nul fs f = true → r.2.word = t ∧ r.2.word ≠ [])) ∧
        ';' ∉ r.2.word ∧ (∀ c ∈ r.2.word, isspace c = false) ∧
        r.2.file_count = (r.2.s_link.length : Int) := by
  refine ⟨_, create_database_ok _ head fs 0 hfit (below_initialise_hash 0), ?_, ?_⟩
  · intro path hext hw
    exact save_database_ok _ path fs ((validate_file_extension_iff path).2 hext) hw
  · intro r hr
    have hm := ((mem_all_records _ r).1 hr).2
    obtain ⟨f, hf, hw⟩ := word_in_file head fs r.1 r.2 hm
    obtain ⟨t, ht, hc, hn⟩ := word_is_cstr_of_token fs r.2.word f hw
    have hpre : r.2.word <+: t := by
      rw [hc]
      unfold cstr
      exact List.takeWhile_prefix _
    refine ⟨⟨f, hf, t, ht, hc, ?_⟩, ?_, ?_, ?_⟩
    · intro hnul
      refine ⟨hn hnul, ?_⟩
      rw [hn hnul]
      exact tokens_ne_nil_of_mem fs f t ht
    · intro hs
      exact hsemi f hf t ht (hpre.subset hs)
    · intro c hc'
      exact (file_has_word_chars fs _ f hw c hc').1
    · exact (buildInv_create_database head fs).lengths r.1 r.2 hm

/-- Witness of C21: the files `f1.txt` = "foo bar foo" and `f2.txt` = "bar". -/
theorem saved_word_field_witness :
    ∃ H : List Hash_t,
      create_database initialise_hash [f1_txt, f2_txt] example_fs =
        Outcome.ok (Status.SUCCESS, H) ∧
      (∀ path, ['.', 't', 'x', 't'] <:+ path → example_fs.writable path = true →
        save_database H path example_fs =
          Outcome.ok (Status.SUCCESS, H,
            example_fs.write path (records_text (all_records H)))) ∧
      ∀ r ∈ all_records H,
        (∃ f ∈ [f1_txt, f2_txt], ∃ t ∈ file_tokens example_fs f, r.2.word = cstr t ∧
          (no_nul example_fs f = true → r.2.word = t ∧ r.2.word ≠ [])) ∧
        ';' ∉ r.2.word ∧ (∀ c ∈ r.2.word, isspace c = false) ∧
        r.2.file_count = (r.2.s_link.length : Int) :=
  saved_word_field [f1_txt, f2_txt] example_fs (by decide) (by decide)

/-- C21, counterexample: the file `f1.txt` = "a;b c" gives the word "a;b", and the
record saved for it has the word field `a;b`, with a ';'; and the file `f1.txt` =
NUL, "x" gives a record whose word field is empty, which is no token of the file. -/
theorem saved_word_semicolon_counterexample :
    (file_tokens semicolon_fs f1_txt = ["a;b".toList, "c".toList] ∧
      create_database initialise_hash [f1_txt] semicolon_fs =
        Outcome.ok (Status.SUCCESS, semicolon_index) ∧
      (0, ({ file_count := 1, word := "a;b".toList,
             s_link := [{ word_count := 1, file_name := f1_txt }] } : Main_node)) ∈
        all_records semicolon_index ∧
      ';' ∈ "a;b".toList ∧
      save_text semicolon_index = "#0;a;b;1;f1.txt;1;#\n#2;c;1;f1.txt;1;#\n".toList) ∧
    (file_tokens nul_lead_fs f1_txt = [[Char.ofNat 0, 'x']] ∧
      create_database initialise_hash [f1_txt] nul_lead_fs =
        Outcome.ok (Status.SUCCESS, nul_lead_index) ∧
      save_text nul_lead_index = "#26;;1;f1.txt;1;#\n".toList ∧
      (26, ({ file_count := 1, word := [],
              s_link := [{ word_count := 1, file_name := f1_txt }] } : Main_node)) ∈
        all_records nul_lead_index ∧
      ([] : Str) ∉ file_tokens nul_lead_fs f1_txt) := by
  refine ⟨⟨by decide, by decide, by decide, by decide, by decide⟩,
    ⟨by decide, by decide, by decide, by decide, by decide⟩⟩

/-! ## Lists that grow at their end -/

theorem firsts_cons (x : Str) (xs : List Str) :
    firsts (x :: xs) = x :: (firsts xs).filter (fun y => decide (y ≠ x)) := rfl

theorem mem_firsts (l : List Str) (x : Str) : x ∈ firsts l ↔ x ∈ l := by
  induction l with
  | nil => simp [firsts]
  | cons y ys ih =>
    rw [firsts_cons]
    simp only [List.mem_cons, List.mem_filter, ih, decide_eq_true_eq]
    constructor
    · rintro (h | ⟨h, _⟩)
      · exact Or.inl h
      · exact Or.inr h
    · intro h
      by_cases hxy : x = y
      · exact Or.inl hxy
      · rcases h with h | h
        · exact absurd h hxy
        · exact Or.inr ⟨h, hxy⟩

theorem nodup_firsts (l : List Str) : (firsts l).Nodup := by
  induction l with
  | nil => simp [firsts]
  | cons y ys ih =>
    rw [firsts_cons]
    rw [List.nodup_cons]
    refine ⟨?_, ih.filter _⟩
    simp [List.mem_filter]

theorem foldl_add_first (l acc : List Str) :
    l.foldl add_first acc = acc ++ (firsts l).filter (fun y => decide (y ∉ acc)) := by
  induction l generalizing acc with
  | nil => simp [firsts]
  | cons x xs ih =>
    rw [List.foldl_cons, ih, firsts_cons]
    by_cases hx : x ∈ acc
    · have h1 : add_first acc x = acc := by simp [add_first, hx]
      rw [h1, List.filter_cons]
      simp only [hx, not_true_eq_false, decide_False, Bool.false_eq_true, if_false]
      rw [List.filter_filter]
      congr 1
      apply List.filter_congr
      intro y _
      by_cases hy : y ∈ acc
      · simp [hy]
      · have : y ≠ x := fun e => hy (e ▸ hx)
        simp [hy, this]
    · have h1 : add_first acc x = acc ++ [x] := by simp [add_first, hx]
      rw [h1, List.filter_cons]
      simp only [hx, not_false_eq_true, decide_True, if_true]
      rw [List.filter_filter, List.append_assoc, List.singleton_append]
      congr 2
      apply List.filter_congr
      intro y _
      by_cases hy : y ∈ acc
      · simp [hy]
      · by_cases hyx : y = x
        · simp [hyx]
        · simp [hy, hyx]

theorem foldl_add_first_nil (l : List Str) : l.foldl add_first [] = firsts l := by
  rw [foldl_add_first]
  simp

/-! ## The file list that `read_and_validate_input_arguments` builds -/

theorem validate_duplicate_file_iff (a : Str) (file : File_list) :
    validate_duplicate_file a file = Status.DUPLICATE ↔ a ∈ file := by
  induction file with
  | nil => simp [validate_duplicate_file]
  | cons x rest ih =>
    unfold validate_duplicate_file
    by_cases hx : x = a
    · simp [hx]
    · have : ¬ a = x := fun e => hx e.symm
      simp [hx, ih, this]

theorem validate_duplicate_file_cases (a : Str) (file : File_list) :
    validate_duplicate_file a file = Status.DUPLICATE ∨
      validate_duplicate_file a file = Status.SUCCESS := by
  induction file with
  | nil => exact Or.inr rfl
  | cons x rest ih =>
    unfold validate_duplicate_file
    split
    · exact Or.inl rfl
    · exact ih

theorem accepted_iff (fs : FileSys) (a : Str) :
    accepted fs a = true ↔
      validate_file_extension a = Status.SUCCESS ∧
        ∃ content, fopen_r fs a = some content ∧ content ≠ [] := by
  unfold accepted
  cases fopen_r fs a with
  | none => simp
  | some content => simp

theorem validate_file_size_eq_zero (content : Str) :
    validate_file_size content = 0 ↔ content = [] := by
  unfold validate_file_size
  cases content with
  | nil => simp
  | cons c cs =>
    simp only [List.length_cons, Nat.cast_add, Nat.cast_one, reduceCtorEq, iff_false]
    split <;> omega

theorem insert_at_last_eq (head : File_list) (a : Str) (hlen : a.length < FILE_SIZE) :
    insert_at_last head a = Outcome.ok (Status.SUCCESS, head ++ [a]) := by
  unfold insert_at_last
  rw [if_pos hlen]

/-- When the accepted arguments fit `file_name[50]`, the loop returns, with the
accepted arguments added in the order of their first appearance. -/
theorem validate_arguments_loop_list (args : List Str) (file : File_list) (count : Nat)
    (fs : FileSys) (hcap : ∀ a ∈ args, accepted fs a = true → a.length < FILE_SIZE) :
    ∃ n, validate_arguments_loop args file count fs =
      Outcome.ok ((args.filter (accepted fs)).foldl add_first file, n) := by
  induction args generalizing file count with
  | nil => exact ⟨count, by simp [validate_arguments_loop]⟩
  | cons a rest ih =>
    have hrest : ∀ b ∈ rest, accepted fs b = true → b.length < FILE_SIZE :=
      fun b hb => hcap b (List.mem_cons_of_mem _ hb)
    unfold validate_arguments_loop
    rcases validate_file_extension_cases a with hext | hext
    · rw [if_neg (by rw [hext]; decide)]
      cases hopen : fopen_r fs a with
      | none =>
        have hacc : accepted fs a = false := by
          rw [Bool.eq_false_iff]
          intro h
          obtain ⟨_, c, hc, _⟩ := (accepted_iff fs a).1 h
          rw [hopen] at hc
          exact absurd hc (by simp)
        simp only [List.filter_cons, hacc, Bool.false_eq_true, if_false]
        exact ih file count hrest
      | some content =>
        simp only
        by_cases hsz : validate_file_size content = 0
        · rw [if_pos hsz]
          have hacc : accepted fs a = false := by
            rw [Bool.eq_false_iff]
            intro h
            obtain ⟨_, c, hc, hne⟩ := (accepted_iff fs a).1 h
            rw [hopen] at hc
            cases hc
            exact hne ((validate_file_size_eq_zero _).1 hsz)
          simp only [List.filter_cons, hacc, Bool.false_eq_true, if_false]
          exact ih file count hrest
        · rw [if_neg hsz]
          have hacc : accepted fs a = true :=
            (accepted_iff fs a).2 ⟨hext, content, hopen,
              fun e => hsz ((validate_file_size_eq_zero _).2 e)⟩
          simp only [List.filter_cons, hacc, if_true, List.foldl_cons]
          by_cases hdup : a ∈ file
          · rw [if_pos ((validate_duplicate_file_iff a file).2 hdup)]
            have : add_first file a = file := by simp [add_first, hdup]
            rw [this]
            exact ih file count hrest
          · have hd : validate_duplicate_file a file ≠ Status.DUPLICATE :=
              fun e => hdup ((validate_duplicate_file_iff a file).1 e)
            rw [if_neg hd, insert_at_last_eq file a (hcap a (List.mem_cons_self _ _) hacc)]
            have : add_first file a = file ++ [a] := by simp [add_first, hdup]
            rw [this]
            simp only [reduceCtorEq, if_false]
            exact ih _ _ hrest
    · rw [if_pos hext]
      have hacc : accepted fs a = false := by
        rw [Bool.eq_false_iff]
        intro h
        have := ((accepted_iff fs a).1 h).1
        rw [hext] at this
        exact absurd this (by decide)
      simp only [List.filter_cons, hacc, Bool.false_eq_true, if_false]
      exact ih file count hrest

theorem read_and_validate_list (argv : List Str) (file : File_list) (fs : FileSys)
    (hcap : ∀ a ∈ argv.drop 1, accepted fs a = true → a.length < FILE_SIZE) :
    ∃ st, read_and_validate_input_arguments argv file fs =
      Outcome.ok (st, ((argv.drop 1).filter (accepted fs)).foldl add_first file) := by
  obtain ⟨n, hn⟩ := validate_arguments_loop_list (argv.drop 1) file 0 fs hcap
  unfold read_and_validate_input_arguments
  rw [hn]
  exact ⟨_, rfl⟩

theorem file_words_nil : file_words_plain [] = [] := by
  simp [file_words_plain, read_words_plain, fscanf_s_plain]

theorem file_has_word_content (fs : FileSys) (w f : Str) (h : file_has_word fs w f = true) :
    ∃ content, fopen_r fs f = some content ∧ 0 < content.length := by
  unfold file_has_word at h
  cases hopen : fopen_r fs f with
  | none => simp [hopen] at h
  | some content =>
    refine ⟨content, rfl, ?_⟩
    simp only [hopen, decide_eq_true_eq] at h
    cases content with
    | nil => rw [file_words_nil] at h; simp at h
    | cons c cs => simp

/-- When the accepted arguments fit `file_name[50]`,
`read_and_validate_input_arguments` returns a list, and every name that it has added
is the name of a file that could be opened and had at least one byte; every sub node
of an index that `create_database` later builds from that list names a file of the
list, which had at least one byte when the arguments were validated, and has at least
one when the index is built. -/
theorem no_empty_file_listed_ok (argv : List Str) (fs : FileSys)
    (hcap : ∀ a ∈ argv.drop 1, accepted fs a = true → a.length < FILE_SIZE) :
    ∃ (st : Status) (L : File_list),
      read_and_validate_input_arguments argv [] fs = Outcome.ok (st, L) ∧
      (∀ f ∈ L, ∃ content, fopen_r fs f = some content ∧ 0 < content.length) ∧
      ∀ (fs2 : FileSys) (r : Status × List Hash_t),
        create_database initialise_hash L fs2 = Outcome.ok r →
        ∀ i, ∀ m ∈ bucket r.2 i, ∀ s ∈ m.s_link,
          s.file_name ∈ L ∧
          (∃ content, fopen_r fs s.file_name = some content ∧ 0 < content.length) ∧
          ∃ content, fopen_r fs2 s.file_name = some content ∧ 0 < content.length := by
  obtain ⟨st, hst⟩ := read_and_validate_list argv [] fs hcap
  have hL : ∀ f ∈ ((argv.drop 1).filter (accepted fs)).foldl add_first [],
      ∃ content, fopen_r fs f = some content ∧ 0 < content.length := by
    intro f hf
    rw [foldl_add_first_nil, mem_firsts] at hf
    have h2 := (List.mem_filter.1 hf).2
    obtain ⟨_, content, hc, hne⟩ := (accepted_iff fs f).1 h2
    exact ⟨content, hc, List.length_pos.2 hne⟩
  refine ⟨st, _, hst, hL, ?_⟩
  intro fs2 r hr i m hm s hs
  have hr2 := create_database_ok_plain _ _ fs2 r hr
  rw [hr2] at hm
  have hstream := sub_in_stream _ fs2 i m s hm hs
  have h := (mem_word_stream _ fs2 s.file_name m.word).1 hstream
  exact ⟨h.1, hL _ h.1, file_has_word_content fs2 m.word s.file_name h.2⟩

/-- C22, at the failing input: the only argument is a name of 61 characters that ends
in ".txt" and names a file of one byte; the file named by its first 56 characters is
empty.  The argument passes the four checks, and `strcpy` at line 177 writes its 62
bytes into `file_name[50]`: the call has no defined result, and nothing is known of
the names that the list holds afterwards. -/
theorem read_and_validate_long_argument :
    long_arg.length = 61 ∧ fopen_r long_arg_fs (long_arg.take 56) = some [] ∧
      validate_file_extension long_arg = Status.SUCCESS ∧
      fopen_r long_arg_fs long_arg = some "a".toList ∧
      validate_file_size "a".toList ≠ 0 ∧
      validate_duplicate_file long_arg [] = Status.SUCCESS ∧
      insert_at_last [] long_arg = Outcome.undefined ∧
      read_and_validate_input_arguments ["./a.out".toList, long_arg] [] long_arg_fs =
        Outcome.undefined := by
  refine ⟨by decide, by decide, by decide, by decide, by decide, by decide, by decide,
    by decide⟩

/-- When the accepted arguments fit `file_name[50]`, `read_and_validate_input_arguments`
builds from the empty list the list of the accepted arguments (extension ".txt", can
be opened, not empty) in the order of their first appearance, each once;
`validate_duplicate_file` returns `DUPLICATE` exactly when the name is in the list, and
`insert_at_last` appends a name that fits at the end. -/
theorem read_and_validate_order_ok (argv : List Str) (fs : FileSys)
    (hcap : ∀ a ∈ argv.drop 1, accepted fs a = true → a.length < FILE_SIZE) :
    (∃ st, read_and_validate_input_arguments argv [] fs =
        Outcome.ok (st, firsts ((argv.drop 1).filter (accepted fs)))) ∧
      (firsts ((argv.drop 1).filter (accepted fs))).Nodup ∧
      (∀ a file, validate_duplicate_file a file = Status.DUPLICATE ↔ a ∈ file) ∧
      ∀ head a, a.length < FILE_SIZE →
        insert_at_last head a = Outcome.ok (Status.SUCCESS, head ++ [a]) := by
  obtain ⟨st, hst⟩ := read_and_validate_list argv [] fs hcap
  rw [foldl_add_first_nil] at hst
  exact ⟨⟨st, hst⟩, nodup_firsts _, validate_duplicate_file_iff, insert_at_last_eq⟩

/-- C29, at the failing input: the arguments are `f1.txt`, a name of 61 characters and
`f1.txt` again; both name files that are not empty.  `f1.txt` is inserted, and the
`strcpy` of line 177 then writes the 62 bytes of the long name into `file_name[50]`:
the call has no defined result, and no list is returned. -/
theorem read_and_validate_long_second_argument :
    accepted long_arg_fs f1_txt = true ∧ accepted long_arg_fs long_arg = true ∧
      insert_at_last [] f1_txt = Outcome.ok (Status.SUCCESS, [f1_txt]) ∧
      validate_duplicate_file long_arg [f1_txt] = Status.SUCCESS ∧
      insert_at_last [f1_txt] long_arg = Outcome.undefined ∧
      read_and_validate_input_arguments ["./a.out".toList, f1_txt, long_arg, f1_txt] []
          long_arg_fs = Outcome.undefined := by
  refine ⟨by decide, by decide, by decide, by decide, by decide, by decide⟩

/-! ## The order of the chains that `create_database` builds -/

theorem firsts_sublist (l : List Str) : (firsts l).Sublist l := by
  induction l with
  | nil => simp [firsts]
  | cons x xs ih =>
    rw [firsts_cons]
    exact ((List.filter_sublist _).trans ih).cons₂ x

theorem words_store_word (h : List Hash_t) (hlen : h.length = HASH_SIZE) (f w : Str) (b : Nat) :
    (bucket (store_word_plain h f w) b).map (fun m => m.word) =
      if find_index w = b then add_first ((bucket h b).map (fun m => m.word)) w
      else (bucket h b).map (fun m => m.word) := by
  rw [bucket_store_word]
  have hlt : find_index w < h.length := by rw [hlen]; exact find_index_lt w
  by_cases hb : find_index w = b
  · rw [if_pos ⟨hb.symm, hlt⟩, if_pos hb, map_word_insert_word]
    rfl
  · rw [if_neg (fun e => hb e.1.symm), if_neg hb]

theorem words_store_all (h : List Hash_t) (hlen : h.length = HASH_SIZE) (st : List (Str × Str))
    (b : Nat) :
    (bucket (store_all h st) b).map (fun m => m.word) =
      ((st.map (fun p => p.2)).filter (fun w => decide (find_index w = b))).foldl add_first
        ((bucket h b).map (fun m => m.word)) := by
  induction st generalizing h with
  | nil => simp [store_all]
  | cons p rest ih =>
    rw [store_all_cons, ih _ (by rw [length_store_word]; exact hlen), words_store_word h hlen]
    by_cases hb : find_index p.2 = b
    · simp [hb]
    · simp [hb]

theorem names_of_store_word (h : List Hash_t) (hlen : h.length = HASH_SIZE) (f w0 w : Str) :
    names_of (store_word_plain h f w0) w =
      if w = w0 then add_first (names_of h w) f else names_of h w := by
  unfold names_of
  rw [bucket_store_word]
  have hlt : find_index w0 < h.length := by rw [hlen]; exact find_index_lt w0
  by_cases hw : w = w0
  · subst hw
    rw [if_pos ⟨rfl, hlt⟩, if_pos rfl, lookup_insert_word, if_pos rfl]
    cases hl : lookup (bucket h (find_index w)) w with
    | none => simp [add_first, create_sub_node_plain]
    | some m =>
      simp only
      rw [map_file_name_update_main]
      rfl
  · rw [if_neg hw]
    by_cases hb : find_index w = find_index w0
    · rw [if_pos ⟨hb, hlt⟩, lookup_insert_word, if_neg hw]
    · rw [if_neg (fun e => hb e.1)]

theorem names_of_store_all (h : List Hash_t) (hlen : h.length = HASH_SIZE) (st : List (Str × Str))
    (w : Str) :
    names_of (store_all h st) w =
      ((st.filter (fun p => decide (p.2 = w))).map (fun p => p.1)).foldl add_first
        (names_of h w) := by
  induction st generalizing h with
  | nil => simp [store_all]
  | cons p rest ih =>
    rw [store_all_cons, ih _ (by rw [length_store_word]; exact hlen), names_of_store_word h hlen]
    by_cases hw : p.2 = w
    · have : w = p.2 := hw.symm
      simp [hw]
    · have : ¬ w = p.2 := fun e => hw e.symm
      simp [hw, this]

theorem names_of_initialise_hash (w : Str) : names_of initialise_hash w = [] := by
  simp [names_of, bucket_initialise_hash, lookup]

theorem firsts_block (f : Str) (l R : List Str) (hall : ∀ x ∈ l, x = f) :
    (firsts (l ++ R)).filter (fun y => decide (y ≠ f)) =
      (firsts R).filter (fun y => decide (y ≠ f)) := by
  induction l with
  | nil => rfl
  | cons x xs ih =>
    have hx : x = f := hall x (List.mem_cons_self _ _)
    subst hx
    rw [List.cons_append, firsts_cons, List.filter_cons]
    simp only [ne_eq, not_true_eq_false, decide_False, Bool.false_eq_true, if_false]
    rw [List.filter_filter]
    simp only [Bool.and_self]
    exact ih (fun y hy => hall y (List.mem_cons_of_mem _ hy))

theorem firsts_block_ne (f : Str) (l R : List Str) (hall : ∀ x ∈ l, x = f) (hne : l ≠ []) :
    firsts (l ++ R) = f :: (firsts R).filter (fun y => decide (y ≠ f)) := by
  cases l with
  | nil => exact absurd rfl hne
  | cons x xs =>
    have hx : x = f := hall x (List.mem_cons_self _ _)
    subst hx
    rw [List.cons_append, firsts_cons,
      firsts_block x xs R (fun y hy => hall y (List.mem_cons_of_mem _ hy))]

theorem word_stream_block (f : Str) (rest : File_list) (fs : FileSys) :
    ∃ block : List (Str × Str), word_stream (f :: rest) fs = block ++ word_stream rest fs ∧
      (∀ p ∈ block, p.1 = f) ∧ ∀ w, file_has_word fs w f = true ↔ (f, w) ∈ block := by
  rw [word_stream_cons]
  unfold file_has_word
  cases fopen_r fs f with
  | none => exact ⟨[], rfl, by simp, by simp⟩
  | some content =>
    refine ⟨(file_words_plain content).map (fun w => (f, w)), rfl, ?_, ?_⟩
    · intro p hp
      obtain ⟨v, _, rfl⟩ := List.mem_map.1 hp
      rfl
    · intro w
      simp

theorem firsts_files_of_word (head : File_list) (fs : FileSys) (w : Str) :
    firsts (((word_stream head fs).filter (fun p => decide (p.2 = w))).map (fun p => p.1)) =
      firsts (head.filter (fun f => file_has_word fs w f)) := by
  induction head with
  | nil => simp [word_stream]
  | cons f rest ih =>
    obtain ⟨block, hts, hfst, hmem⟩ := word_stream_block f rest fs
    rw [hts, List.filter_append, List.map_append]
    have hall : ∀ x ∈ (block.filter (fun p => decide (p.2 = w))).map (fun p => p.1), x = f := by
      intro x hx
      obtain ⟨p, hp, rfl⟩ := List.mem_map.1 hx
      exact hfst p (List.mem_filter.1 hp).1
    by_cases hw : file_has_word fs w f = true
    · have hne : (block.filter (fun p => decide (p.2 = w))).map (fun p => p.1) ≠ [] := by
        apply List.ne_nil_of_mem (a := f)
        apply List.mem_map.2
        exact ⟨(f, w), List.mem_filter.2 ⟨(hmem w).1 hw, by simp⟩, rfl⟩
      rw [firsts_block_ne f _ _ hall hne, List.filter_cons, if_pos hw, firsts_cons, ih]
    · have hnil : (block.filter (fun p => decide (p.2 = w))).map (fun p => p.1) = [] := by
        simp only [List.map_eq_nil_iff, List.filter_eq_nil_iff, decide_eq_true_eq]
        intro p hp hpw
        apply hw
        apply (hmem w).2
        have h1 := hfst p hp
        have : p = (f, w) := by
          cases p
          simp only at h1 hpw
          rw [h1, hpw]
        rw [← this]
        exact hp
      rw [hnil, List.nil_append, List.filter_cons, if_neg hw, ih]

theorem prefix_add_first (acc : List Str) (w : Str) : acc <+: add_first acc w := by
  unfold add_first
  split
  · exact List.prefix_refl _
  · exact List.prefix_append _ _

/-- C23 (as the code has it): for files within the capacities that hold no NUL byte,
`create_database` on the empty index returns an index in which the words of the main
nodes of bucket `b` are the tokens of the token stream (files in list order, tokens
in file order) that `find_index` sends to `b`, in the order of their first
appearance, and the file names of the sub nodes of a main node are the files of the
list that hold its word as a token, in the order of their first position in the list,
so they form a sublist of the file list; a word or a file that is new goes to the end
of its chain, and the elements that were there keep their places. -/
theorem discovery_order (head : File_list) (fs : FileSys) (hfit : Fits 0 head fs)
    (hnul : ∀ f ∈ head, no_nul fs f = true) :
    ∃ H : List Hash_t,
      create_database initialise_hash head fs = Outcome.ok (Status.SUCCESS, H) ∧
      (∀ b, (bucket H b).map (fun m => m.word) =
        firsts (((token_stream head fs).map (fun p => p.2)).filter
          (fun w => decide (find_index w = b)))) ∧
      (∀ b, ∀ m ∈ bucket H b,
        m.s_link.map (fun s => s.file_name) =
            firsts (head.filter (fun f => decide (m.word ∈ file_tokens fs f))) ∧
          (m.s_link.map (fun s => s.file_name)).Sublist head) ∧
      (∀ chain w f n, w.length < WORD_SIZE → f.length < FILE_SIZE → n < INT_MAX →
        (∀ m ∈ chain, Below n m) →
        ∃ chain', insert_word chain w f = Outcome.ok chain' ∧
          chain'.map (fun m => m.word) =
            if w ∈ chain.map (fun m => m.word) then chain.map (fun m => m.word)
            else chain.map (fun m => m.word) ++ [w]) ∧
      ∀ m f n, f.length < FILE_SIZE → n < INT_MAX → Below n m →
        ∃ m', update_main m f = Outcome.ok m' ∧
          m'.s_link.map (fun s => s.file_name) =
            if f ∈ m.s_link.map (fun s => s.file_name) then
              m.s_link.map (fun s => s.file_name)
            else m.s_link.map (fun s => s.file_name) ++ [f] := by
  refine ⟨_, create_database_ok _ head fs 0 hfit (below_initialise_hash 0), ?_, ?_, ?_, ?_⟩
  · intro b
    rw [create_database_eq, words_store_all _ length_initialise_hash, bucket_initialise_hash,
      List.map_nil, foldl_add_first_nil, word_stream_eq_token_stream head fs hnul]
  · intro b m hm
    have hinv := buildInv_create_database head fs
    have hl := lookup_of_mem _ hinv b m hm
    have hn : names_of (create_database_plain initialise_hash head fs).2 m.word =
        m.s_link.map (fun s => s.file_name) := by
      unfold names_of
      rw [hl]
    have hfilter : head.filter (fun f => file_has_word fs m.word f) =
        head.filter (fun f => decide (m.word ∈ file_tokens fs f)) := by
      apply List.filter_congr
      intro f hf
      by_cases hw : m.word ∈ file_tokens fs f
      · simp [hw, (file_has_word_iff fs m.word f (hnul f hf)).2 hw]
      · have : file_has_word fs m.word f = false := by
          rw [Bool.eq_false_iff]
          exact fun h => hw ((file_has_word_iff fs m.word f (hnul f hf)).1 h)
        simp [hw, this]
    have heq : m.s_link.map (fun s => s.file_name) =
        firsts (head.filter (fun f => decide (m.word ∈ file_tokens fs f))) := by
      rw [← hn, create_database_eq, names_of_store_all _ length_initialise_hash,
        names_of_initialise_hash, foldl_add_first_nil, firsts_files_of_word, hfilter]
    refine ⟨heq, ?_⟩
    rw [heq]
    exact (firsts_sublist _).trans (List.filter_sublist _)
  · intro chain w f n hw hf hn hc
    exact ⟨_, insert_word_eq chain w f n hw hf hn hc, map_word_insert_word chain w f⟩
  · intro m f n hf hn hm
    exact ⟨_, update_main_eq m f n hf hn hm, map_file_name_update_main m f⟩

/-- Witness of C23: the files `f1.txt` = "foo bar foo" and `f2.txt` = "bar". -/
theorem discovery_order_witness :
    ∃ H : List Hash_t,
      create_database initialise_hash [f1_txt, f2_txt] example_fs =
        Outcome.ok (Status.SUCCESS, H) ∧
      (∀ b, (bucket H b).map (fun m => m.word) =
        firsts (((token_stream [f1_txt, f2_txt] example_fs).map (fun p => p.2)).filter
          (fun w => decide (find_index w = b)))) ∧
      (∀ b, ∀ m ∈ bucket H b,
        m.s_link.map (fun s => s.file_name) =
            firsts ([f1_txt, f2_txt].filter
              (fun f => decide (m.word ∈ file_tokens example_fs f))) ∧
          (m.s_link.map (fun s => s.file_name)).Sublist [f1_txt, f2_txt]) ∧
      (∀ chain w f n, w.length < WORD_SIZE → f.length < FILE_SIZE → n < INT_MAX →
        (∀ m ∈ chain, Below n m) →
        ∃ chain', insert_word chain w f = Outcome.ok chain' ∧
          chain'.map (fun m => m.word) =
            if w ∈ chain.map (fun m => m.word) then chain.map (fun m => m.word)
            else chain.map (fun m => m.word) ++ [w]) ∧
      ∀ m f n, f.length < FILE_SIZE → n < INT_MAX → Below n m →
        ∃ m', update_main m f = Outcome.ok m' ∧
          m'.s_link.map (fun s => s.file_name) =
            if f ∈ m.s_link.map (fun s => s.file_name) then
              m.s_link.map (fun s => s.file_name)
            else m.s_link.map (fun s => s.file_name) ++ [f] :=
  discovery_order [f1_txt, f2_txt] example_fs (by decide) (by decide)

/-- C23, counterexample: in the file `f1.txt` = "b", NUL, "x bz b" the token "bz"
appears before the token "b", and the token "b" NUL "x" is read as the word "b": the
chain of bucket 1 holds the main node of "b" before that of "bz". -/
theorem discovery_order_counterexample :
    file_tokens nul_order_fs f1_txt = [['b', Char.ofNat 0, 'x'], "bz".toList, "b".toList] ∧
      token_stream [f1_txt] nul_order_fs =
        [(f1_txt, ['b', Char.ofNat 0, 'x']), (f1_txt, "bz".toList), (f1_txt, "b".toList)] ∧
      create_database initialise_hash [f1_txt] nul_order_fs =
        Outcome.ok (Status.SUCCESS, nul_order_index) ∧
      (bucket nul_order_index 1).map (fun m => m.word) = ["b".toList, "bz".toList] ∧
      firsts (((token_stream [f1_txt] nul_order_fs).map (fun p => p.2)).filter
          (fun w => decide (find_index w = 1))) =
        [['b', Char.ofNat 0, 'x'], "bz".toList, "b".toList] ∧
      ((token_stream [f1_txt] nul_order_fs).map (fun p => p.2)).indexOf "bz".toList <
        ((token_stream [f1_txt] nul_order_fs).map (fun p => p.2)).indexOf "b".toList := by
  refine ⟨by decide, by decide, by decide, by decide, by decide, by decide⟩

/-! ## A backup that stops being well formed -/

/-- The function `update_database` on a backup that passes the validation and consists
of well-formed records followed by a text whose header cannot be scanned: exactly the
records are appended. -/
theorem update_database_records_tail (junk : Nat → Str × Int) (h : List Hash_t) (path : Str)
    (head : File_list) (fs : FileSys) (rs : List (Nat × Main_node)) (tail : Str)
    (hext : validate_file_extension path = Status.SUCCESS)
    (hopen : fopen_r fs path = some (records_text rs ++ tail))
    (hsize : validate_file_size (records_text rs ++ tail) ≠ 0)
    (hvb : validate_backup_database (records_text rs ++ tail) = Status.SUCCESS)
    (hok : ∀ r ∈ rs, record_ok r) (htail : fscanf_header (tail.dropWhile isspace) = Outcome.ok none) :
    update_database h path head fs junk =
      Outcome.ok (Status.SUCCESS, append_records h rs,
        (claim_names head [] (record_names rs)).1, (claim_names head [] (record_names rs)).2) := by
  unfold update_database
  rw [hext, hopen]
  simp only [reduceCtorEq, if_false]
  rw [if_neg hsize, hvb]
  simp only [reduceCtorEq, if_false]
  rw [update_loop_records_tail junk rs tail _ 0 h head [] hok htail (Nat.lt_succ_self _)]

/-- The backup `#0;a;1;x.txt;1;#` followed by the line `?;b;1;#`: the record is loaded
and the line, whose header cannot be scanned, is left out. -/
theorem update_database_bad_header_example :
    update_database initialise_hash backup_txt [] bad_header_fs junk0 =
      Outcome.ok (Status.SUCCESS,
        append_records initialise_hash
          [(0, { file_count := 1, word := "a".toList,
                 s_link := [{ word_count := 1, file_name := "x.txt".toList }] })],
        [], []) :=
  update_database_records_tail junk0 initialise_hash backup_txt [] bad_header_fs
    [(0, { file_count := 1, word := "a".toList,
           s_link := [{ word_count := 1, file_name := "x.txt".toList }] })]
    "?;b;1;#\n".toList (by decide) (by decide) (by decide) (by decide)
    (by
      intro r hr
      simp only [List.mem_singleton] at hr
      subst hr
      unfold record_ok field_ok
      decide)
    (by decide)

/-- C24, at the failing input: the backup `#0;a;1;x.txt;1;#` `#1;b;1;#` (one record per
line) is a well-formed record followed by a record that announces one occurrence pair
and has none, and it passes the validation.  The call returns `SUCCESS` and appends the
main node of the second record as well, with a sub node whose file name is the text
that was left and whose count is what `word_count` held, not initialised. -/
theorem update_database_keeps_malformed_record (junk : Nat → Str × Int) :
    fopen_r truncated_fs backup_txt =
        some (records_text
            [(0, { file_count := 1, word := "a".toList,
                   s_link := [{ word_count := 1, file_name := "x.txt".toList }] })] ++
          "#1;b;1;#\n".toList) ∧
      validate_file_size "#0;a;1;x.txt;1;#\n#1;b;1;#\n".toList ≠ 0 ∧
      validate_backup_database "#0;a;1;x.txt;1;#\n#1;b;1;#\n".toList = Status.SUCCESS ∧
      fscanf_header "#1;b;1;#\n".toList =
        Outcome.ok (some (1, "b".toList, 1, "#\n".toList)) ∧
      update_database initialise_hash backup_txt [] truncated_fs junk =
        Outcome.ok (Status.SUCCESS,
          append_records initialise_hash
            [(0, { file_count := 1, word := "a".toList,
                   s_link := [{ word_count := 1, file_name := "x.txt".toList }] }),
             (1, { file_count := 1, word := "b".toList,
                   s_link := [{ word_count := (junk 1).2, file_name := "#\n".toList }] })],
          [], []) := by
  refine ⟨by decide, by decide, by decide, by decide, ?_⟩
  rfl

/-! ## Placement after a build -/

theorem search_of_mem_placed (h : List Hash_t) (hp : Placed h) (i : Nat) (m : Main_node)
    (hm : m ∈ bucket h i) : (search_database h m.word).2.2 ≠ Search_result.no_entries := by
  rw [Ne, search_no_entries_iff, lookup_eq_none_iff]
  intro hall
  have hi : find_index m.word = i := hp i m hm
  rw [hi] at hall
  exact hall m hm rfl

/-- When every main node of an index sits in the bucket that `find_index` gives for its
word and the files are within the capacities, `create_database` returns an index of
which the same holds, so a search for the word of any main node of the result finds
an entry; built from the empty index, the entry that the search reports is that main
node. -/
theorem create_database_keeps_placed_ok (h : List Hash_t) (head : File_list) (fs : FileSys)
    (n : Int) (hfit : Fits n head fs) (hb : AllNodes (Below n) h) (hp : Placed h)
    (hfit0 : Fits 0 head fs) :
    (∃ H, create_database h head fs = Outcome.ok (Status.SUCCESS, H) ∧ Placed H ∧
      ∀ i, ∀ m ∈ bucket H i, (search_database H m.word).2.2 ≠ Search_result.no_entries) ∧
    ∃ H, create_database initialise_hash head fs = Outcome.ok (Status.SUCCESS, H) ∧
      Placed H ∧
      ∀ i, ∀ m ∈ bucket H i,
        (search_database H m.word).2.2 =
          Search_result.found m.file_count
            (m.s_link.map (fun s => (s.file_name, s.word_count))) := by
  have h1 : Placed (create_database_plain h head fs).2 := by
    rw [create_database_eq]
    exact placed_store_all h _ hp
  have hinv := buildInv_create_database head fs
  refine ⟨⟨_, create_database_ok h head fs n hfit hb, h1,
      fun i m hm => search_of_mem_placed _ h1 i m hm⟩,
    ⟨_, create_database_ok _ head fs 0 hfit0 (below_initialise_hash 0), hinv.placed, ?_⟩⟩
  intro i m hm
  have hl := lookup_of_mem _ hinv i m hm
  simp only [search_database, search_chain_eq, hl]

/-- C25, at the failing input: `f1.txt` and `f2.txt` both hold the same token of 56
characters.  The conversion `%s` of line 37 writes the token and a NUL, 57 bytes, into
`buffer[50]`, and `create_main_node` would copy them into `word[50]`: the build from the
empty index, in which every main node is in its bucket, has no defined result, and
nothing is known of the words that the main nodes hold or of what a search reaches. -/
theorem create_database_long_token_placed :
    Placed initialise_hash ∧
      fopen_r long_word_two_files_fs f1_txt = some long_word56 ∧
      fopen_r long_word_two_files_fs f2_txt = some long_word56 ∧
      tokens long_word56 = [long_word56] ∧ long_word56.length = 56 ∧
      fscanf_s long_word56 = Outcome.undefined ∧
      create_main_node long_word56 = Outcome.undefined ∧
      create_database initialise_hash [f1_txt, f2_txt] long_word_two_files_fs =
        Outcome.undefined := by
  refine ⟨buildInv_initialise_hash.placed, by decide, by decide, by decide, by decide,
    by decide, by decide, by decide⟩

/-! ## A bucket index outside the array -/

theorem update_loop_index_out_of_range (junk : Nat → Str × Int) (fuel k : Nat) (inp : Str)
    (h : List Hash_t) (head : File_list) (log : List Str) (index file_count : Int)
    (word r : Str) (hh : fscanf_header inp = Outcome.ok (some (index, word, file_count, r)))
    (hidx : index < 0 ∨ (HASH_SIZE : Int) ≤ index) :
    update_loop junk (fuel + 1) k inp h head log = Outcome.undefined := by
  unfold update_loop
  rw [hh]
  simp only [Outcome.bind_ok]
  rw [if_pos hidx]

/-- C26, at the failing input: the backup `#-1;a;0;#` with a newline passes the
validation of `update_database`; the header gives the bucket index -1, which is used
as it is to select `hash_array[-1]`, before the first of the 27 elements. -/
theorem update_database_negative_index (junk : Nat → Str × Int) (h : List Hash_t)
    (head : File_list) :
    validate_file_size "#-1;a;0;#\n".toList ≠ 0 ∧
      validate_backup_database "#-1;a;0;#\n".toList = Status.SUCCESS ∧
      fscanf_header "#-1;a;0;#\n".toList =
        Outcome.ok (some (-1, "a".toList, 0, "#\n".toList)) ∧
      update_database h backup_txt head negative_index_fs junk = Outcome.undefined := by
  refine ⟨by decide, by decide, by decide, ?_⟩
  rfl

/-! ## Open streams -/

theorem create_database_handles_eq (n : Nat) (head : File_list) (fs : FileSys) :
    create_database_handles n head fs = n := by
  induction head with
  | nil => rfl
  | cons f rest ih =>
    unfold create_database_handles
    cases fopen_r fs f with
    | none => exact ih
    | some content =>
      simp only [Nat.add_sub_cancel]
      exact ih

theorem save_database_handles_eq (n k : Nat) (file_name : Str) (fs : FileSys)
    (h : save_database_handles n file_name fs = Outcome.ok k) : k = n := by
  unfold save_database_handles at h
  split at h
  · cases h
    rfl
  · split at h
    · cases h
      simp
    · cases h

/-- The returns of `update_database` that leave the stream open are those for an empty
file and for a file that fails `validate_backup_database`. -/
theorem update_database_handles_cases (n k : Nat) (hash_array : List Hash_t) (backup : Str)
    (head : File_list) (fs : FileSys) (junk : Nat → Str × Int)
    (h : update_database_handles n hash_array backup head fs junk = Outcome.ok k) :
    k = n ∨ (k = n + 1 ∧ ∃ content, fopen_r fs backup = some content ∧
      (validate_file_size content = 0 ∨ validate_backup_database content = Status.FAILURE)) := by
  unfold update_database_handles at h
  split at h
  · cases h
    exact Or.inl rfl
  · cases hopen : fopen_r fs backup with
    | none =>
      rw [hopen] at h
      cases h
      exact Or.inl rfl
    | some content =>
      rw [hopen] at h
      simp only at h
      split at h
      · rename_i hsz
        cases h
        exact Or.inr ⟨rfl, content, rfl, Or.inl hsz⟩
      · split at h
        · rename_i hvb
          cases h
          exact Or.inr ⟨rfl, content, rfl, Or.inr hvb⟩
        · split at h
          · cases h
            exact Or.inl (by simp)
          · cases h
          · cases h

/-- C27, at the failing inputs: `update_database` called on the empty file `backup.txt`,
and on `f1.txt` = "foo bar foo", which does not start with `#`, returns `FAILURE`
with one more stream open than when it was called. -/
theorem update_database_leaves_stream_open (n : Nat) (h : List Hash_t) (head : File_list)
    (junk : Nat → Str × Int) :
    update_database h backup_txt head empty_backup_fs junk =
        Outcome.ok (Status.FAILURE, h, head, []) ∧
      update_database_handles n h backup_txt head empty_backup_fs junk = Outcome.ok (n + 1) ∧
      update_database h f1_txt head example_fs junk =
        Outcome.ok (Status.FAILURE, h, head, []) ∧
      update_database_handles n h f1_txt head example_fs junk = Outcome.ok (n + 1) := by
  refine ⟨rfl, rfl, rfl, rfl⟩

/-! ## The menu loop of `main` -/

/-- What one turn of the menu does to the flags and to the list of calls: either
nothing, or `create_flag` was false and one call is added, after which `create_flag`
is true exactly when the call returned `SUCCESS`. -/
theorem menu_step_calls (junk : Nat → Str × Int) (s s' : Main_state) (inp : Menu_input)
    (h : menu_step junk s inp = Outcome.ok s') :
    (s'.calls = s.calls ∧ s'.create_flag = s.create_flag) ∨
      (s.create_flag = false ∧ ∃ c, s'.calls = s.calls ++ [c] ∧
        ((c.status = Status.SUCCESS ∧ s'.create_flag = true) ∨
          (c.status ≠ Status.SUCCESS ∧ s'.create_flag = false))) := by
  unfold menu_step at h
  cases inp with
  | not_a_number =>
    simp only [Outcome.ok.injEq] at h
    subst h
    exact Or.inl ⟨rfl, rfl⟩
  | number choice word =>
    simp only at h
    split at h
    · -- choice 1
      cases hc : s.create_flag with
      | true =>
        simp only [hc, if_true, Outcome.ok.injEq] at h
        subst h
        exact Or.inl ⟨rfl, hc⟩
      | false =>
        simp only [hc, Bool.false_eq_true, if_false] at h
        split at h
        · rename_i r hr
          right
          refine ⟨rfl, Call.create r.1, ?_⟩
          split at h
          · rename_i hst
            simp only [Outcome.ok.injEq] at h
            subst h
            exact ⟨rfl, Or.inl ⟨hst, rfl⟩⟩
          · rename_i hst
            simp only [Outcome.ok.injEq] at h
            subst h
            exact ⟨rfl, Or.inr ⟨hst, rfl⟩⟩
        · cases h
        · cases h
    · split at h
      · simp only [Outcome.ok.injEq] at h
        subst h
        exact Or.inl ⟨rfl, rfl⟩
      · split at h
        · -- choice 3
          split at h <;>
          · simp only [Outcome.ok.injEq] at h
            subst h
            exact Or.inl ⟨rfl, rfl⟩
        · split at h
          · -- choice 4
            split at h
            · split at h
              · simp only [Outcome.ok.injEq] at h
                subst h
                exact Or.inl ⟨rfl, rfl⟩
              · cases h
              · cases h
            · simp only [Outcome.ok.injEq] at h
              subst h
              exact Or.inl ⟨rfl, rfl⟩
          · split at h
            · -- choice 5
              cases hc : s.create_flag with
              | true =>
                simp only [hc, if_true, Outcome.ok.injEq] at h
                subst h
                exact Or.inl ⟨rfl, hc⟩
              | false =>
                simp only [hc, Bool.false_eq_true, if_false] at h
                split at h
                · split at h
                  · rename_i r hr
                    right
                    refine ⟨rfl, Call.update r.1, ?_⟩
                    split at h
                    · rename_i hst
                      simp only [Outcome.ok.injEq] at h
                      subst h
                      exact ⟨rfl, Or.inl ⟨hst, rfl⟩⟩
                    · rename_i hst
                      simp only [Outcome.ok.injEq] at h
                      subst h
                      exact ⟨rfl, Or.inr ⟨hst, rfl⟩⟩
                  · cases h
                  · cases h
                · simp only [Outcome.ok.injEq] at h
                  subst h
                  exact Or.inl ⟨rfl, hc⟩
            · split at h
              · simp only [Outcome.ok.injEq] at h
                subst h
                exact Or.inl ⟨rfl, rfl⟩
              · simp only [Outcome.ok.injEq] at h
                subst h
                exact Or.inl ⟨rfl, rfl⟩

theorem callsInv_menu_step (junk : Nat → Str × Int) (s s' : Main_state) (inp : Menu_input)
    (hinv : CallsInv s) (h : menu_step junk s inp = Outcome.ok s') : CallsInv s' := by
  rcases menu_step_calls junk s s' inp h with ⟨hc, hf⟩ | ⟨hf, c, hc, hcase⟩
  · unfold CallsInv
    rw [hc, hf]
    exact hinv
  · have hall := hinv.1 hf
    unfold CallsInv
    rw [hc, List.dropLast_concat]
    refine ⟨?_, hall⟩
    intro hf' c' hc'
    rcases hcase with ⟨_, ht⟩ | ⟨hns, _⟩
    · rw [ht] at hf'
      exact absurd hf' (by decide)
    · rcases List.mem_append.1 hc' with hm | hm
      · exact hall c' hm
      · rw [List.mem_singleton] at hm
        rw [hm]
        exact hns

theorem callsInv_main_loop (junk : Nat → Str × Int) (inputs : List Menu_input)
    (s s' : Main_state) (hinv : CallsInv s) (h : main_loop junk s inputs = Outcome.ok s') :
    CallsInv s' := by
  induction inputs generalizing s with
  | nil =>
    simp only [main_loop, Outcome.ok.injEq] at h
    subst h
    exact hinv
  | cons i rest ih =>
    unfold main_loop at h
    split at h
    · simp only [Outcome.ok.injEq] at h
      subst h
      exact hinv
    · split at h
      · rename_i s1 hs1
        exact ih s1 (callsInv_menu_step junk s s1 i hinv hs1) h
      · cases h
      · cases h

theorem callsInv_main_init (head : File_list) (fs : FileSys) : CallsInv (main_init head fs) := by
  unfold CallsInv main_init
  simp

theorem last_of_dropLast (calls : List Call) (P : Call → Prop)
    (h : ∀ c ∈ calls.dropLast, ¬ P c) (pre : List Call) (c : Call) (post : List Call)
    (he : calls = pre ++ c :: post) (hc : P c) : post = [] := by
  by_contra hne
  apply h c _ hc
  rw [he]
  have h1 : c :: post = [c] ++ post := rfl
  rw [h1, ← List.append_assoc, List.dropLast_append_of_ne_nil _ hne]
  simp

theorem filter_success_le_one (calls : List Call)
    (h : ∀ c ∈ calls.dropLast, c.status ≠ Status.SUCCESS) :
    (calls.filter (fun c => decide (c.status = Status.SUCCESS))).length ≤ 1 := by
  rcases List.eq_nil_or_concat calls with hnil | ⟨init, last, hl⟩
  · rw [hnil]
    simp
  · rw [hl, List.concat_eq_append] at h ⊢
    rw [List.dropLast_concat] at h
    rw [List.filter_append]
    have h0 : init.filter (fun c => decide (c.status = Status.SUCCESS)) = [] := by
      rw [List.filter_eq_nil_iff]
      intro c hc
      simpa using h c hc
    rw [h0, List.nil_append]
    exact (List.length_filter_le _ _).trans (by simp)

/-- C28: in every run of the menu loop of `main`, a call of `create_database` or of
`update_database` that returned `SUCCESS` is the last such call of the run, so at most
one call returned `SUCCESS`; and after a load that did not return `SUCCESS`, with no
build before it, both flags are still false, and with `create_flag` false the choice 1
calls `create_database`, which returns `SUCCESS` whenever it returns, as it does for
files within the capacities. -/
theorem single_population (junk : Nat → Str × Int) (head : File_list) (fs : FileSys)
    (inputs : List Menu_input) (s : Main_state)
    (hrun : main_loop junk (main_init head fs) inputs = Outcome.ok s) :
    (∀ pre c post, s.calls = pre ++ c :: post → c.status = Status.SUCCESS → post = []) ∧
      (s.calls.filter (fun c => decide (c.status = Status.SUCCESS))).length ≤ 1 ∧
      (∀ (t : Main_state) (word : Str) (r : Status × List Hash_t × File_list × List Str),
        t.create_flag = false → t.update_flag = false →
        update_database t.hash_array word t.head t.fs junk = Outcome.ok r →
        r.1 ≠ Status.SUCCESS →
          menu_step junk t (Menu_input.number 5 word) =
            Outcome.ok { t with hash_array := r.2.1, head := r.2.2.1,
                                calls := t.calls ++ [Call.update r.1] }) ∧
      (∀ (t : Main_state) (word : Str) (r : Status × List Hash_t),
        t.create_flag = false → create_database t.hash_array t.head t.fs = Outcome.ok r →
        ∃ t', menu_step junk t (Menu_input.number 1 word) = Outcome.ok t' ∧
          t'.calls = t.calls ++ [Call.create Status.SUCCESS] ∧ t'.create_flag = true) ∧
      ∀ (t : Main_state) (word : Str) (n : Int), t.create_flag = false →
        Fits n t.head t.fs → AllNodes (Below n) t.hash_array →
        ∃ t', menu_step junk t (Menu_input.number 1 word) = Outcome.ok t' ∧
          t'.calls = t.calls ++ [Call.create Status.SUCCESS] ∧ t'.create_flag = true := by
  have hinv := callsInv_main_loop junk inputs _ s (callsInv_main_init head fs) hrun
  have hcreate : ∀ (t : Main_state) (word : Str) (r : Status × List Hash_t),
      t.create_flag = false → create_database t.hash_array t.head t.fs = Outcome.ok r →
      ∃ t', menu_step junk t (Menu_input.number 1 word) = Outcome.ok t' ∧
        t'.calls = t.calls ++ [Call.create Status.SUCCESS] ∧ t'.create_flag = true := by
    intro t word r hc hr
    have hr2 := create_database_ok_plain _ _ _ r hr
    unfold menu_step
    rw [hr, hr2]
    simp [hc]
  refine ⟨?_, filter_success_le_one _ hinv.2, ?_, hcreate, ?_⟩
  · intro pre c post he hc
    exact last_of_dropLast s.calls (fun c => c.status = Status.SUCCESS)
      (fun c hc => hinv.2 c hc) pre c post he hc
  · intro t word r hc hu hr hst
    unfold menu_step
    simp [hc, hu, hr, hst]
  · intro t word n hc hfit hb
    exact hcreate t word _ hc (create_database_ok _ _ _ n hfit hb)

/-- Witness of C28: the run `example_inputs` on `f1.txt` and `f2.txt`. -/
theorem single_population_witness :
    main_loop junk0 (main_init [f1_txt, f2_txt] example_fs) example_inputs =
        Outcome.ok example_final ∧
      (example_final.calls.filter (fun c => decide (c.status = Status.SUCCESS))).length ≤ 1 :=
  ⟨rfl,
    (single_population junk0 [f1_txt, f2_txt] example_fs example_inputs example_final
      rfl).2.1⟩

end InvertedSearch
